import Mathlib

/-!
# Rate limiter: a shallow embedding of the decision engine and its stores

The development follows the Go sources

* `internal/storage/storage.go`  (the `Storage` interface),
* `internal/storage/memory.go`   (`MemoryStorage`),
* `internal/storage/redis.go`    (`RedisStorage`),
* `internal/limiter/limiter.go`  (`RateLimiter`),
* `internal/middleware/ratelimiter.go`  (`RateLimiterMiddleware`),
* `configs/config.go`  (`Config`).

Conventions of the embedding.

* `time.Time` and `time.Duration` are integers counting nanoseconds; `t.Add d`
  is `t + d` and `t.After u` is `u < t`.  Go saturates `Add` at the ends of the
  representable range; the embedding is exact while sums stay inside it.
* `int` and `int64` values are integers.  The arithmetic the sources do on
  them is `entry.count++`, which agrees with `+ 1` while the count is below
  `2^63 - 1`, and the product `time.Duration(BlockTime) * time.Second` of the
  middleware, which is `mulDuration`: the exact product wrapped to 64 bits.
* A Go result pair `(v, err)` is a Lean pair whose second component is an
  `Option GoError`; `none` is `nil`.
* Every operation of a store is a state transformer.  The mutex of
  `MemoryStorage` makes each operation atomic, so the sequential reading is
  the behaviour of one operation.
* `time.Now()` is a reading of an explicit clock: the world of the in-process
  store carries the sequence of readings that successive calls of `time.Now()`
  return and the number of readings made so far.
* The goroutine `cleanup` that `NewMemoryStorage` starts is a process of its
  own beside the store, `MemProcess`: it creates its ticker, waits for ticks
  at the head of its loop and runs the body of the loop, which is
  `MemoryStorage.cleanup`, once for each tick it receives.  The statements
  about the request path are about runs in which no sweep falls between the
  calls they name.
-/

namespace Limiter

/-! ## Time -/

/-- Instants (`time.Time`), in nanoseconds. -/
abbrev Time := Int

/-- Spans (`time.Duration`), in nanoseconds. -/
abbrev Duration := Int

/-- The constant `time.Millisecond`. -/
def Millisecond : Duration := 1000000

/-- The constant `time.Second`. -/
def Second : Duration := 1000000000

/-- The 64-bit signed integer that Go arithmetic yields where the exact result
would be `x`: the representative of `x` modulo `2^64` between `-2^63` and
`2^63 - 1`. -/
def wrapInt64 (x : Int) : Int :=
  (x + 9223372036854775808) % 18446744073709551616 - 9223372036854775808

/-- The operator `*` on two values of `time.Duration`, an `int64`. -/
def mulDuration (a b : Duration) : Duration := wrapInt64 (a * b)

/-- The method `t.After u` of `time.Time`. -/
def Time.After (t u : Time) : Bool := decide (u < t)

/-- The method `t.Add d` of `time.Time`. -/
def Time.Add (t : Time) (d : Duration) : Time := t + d

/-! ## Errors -/

/-- Go `error` values: an error some backend produced, or
`fmt.Errorf(context + ": %w", inner)`. -/
inductive GoError where
  | base (msg : String)
  | errorf (context : String) (inner : GoError)
  deriving DecidableEq, Repr

/-- The function `errors.Unwrap`. -/
def GoError.Unwrap : GoError → Option GoError
  | .base _ => none
  | .errorf _ inner => some inner

/-- The function `errors.Is`: the target is the error or is reached by
unwrapping it. -/
def GoError.Is : GoError → GoError → Bool
  | .base m, target => decide (GoError.base m = target)
  | .errorf c inner, target => decide (GoError.errorf c inner = target) || inner.Is target

/-- The method `Error()`: the message, with the wrapped message after the
context. -/
def GoError.Error : GoError → String
  | .base m => m
  | .errorf c inner => c ++ ": " ++ inner.Error

/-- A `context.Context`, as far as the stores can observe it: the value of
`ctx.Err()`. -/
structure Context where
  Err : Option GoError
  deriving DecidableEq, Repr

/-- The error `context.Canceled`. -/
def Canceled : GoError := .base "context canceled"

/-- The error `context.DeadlineExceeded`. -/
def DeadlineExceeded : GoError := .base "context deadline exceeded"

/-- The context `context.Background()`. -/
def Background : Context := ⟨none⟩

/-! ## The storage interface -/

/-- The interface `Storage` of `storage.go`, over a backend with states `σ`. -/
structure Storage (σ : Type) where
  Increment : Context → String → Duration → σ → (Int × Option GoError) × σ
  Get : Context → String → σ → (Int × Option GoError) × σ
  SetBlock : Context → String → Duration → σ → Option GoError × σ
  IsBlocked : Context → String → σ → (Bool × Option GoError) × σ
  Close : σ → Option GoError × σ

/-- A call of a `Storage` method, with its arguments. -/
inductive StorageCall where
  | Increment (key : String) (expiration : Duration)
  | Get (key : String)
  | SetBlock (key : String) (duration : Duration)
  | IsBlocked (key : String)
  | Close
  deriving DecidableEq, Repr

/-- The same backend, with a log of the calls made on it (latest last). -/
def Storage.traced {σ : Type} (S : Storage σ) : Storage (σ × List StorageCall) where
  Increment ctx key d s :=
    ((S.Increment ctx key d s.1).1, ((S.Increment ctx key d s.1).2, s.2 ++ [.Increment key d]))
  Get ctx key s :=
    ((S.Get ctx key s.1).1, ((S.Get ctx key s.1).2, s.2 ++ [.Get key]))
  SetBlock ctx key d s :=
    ((S.SetBlock ctx key d s.1).1, ((S.SetBlock ctx key d s.1).2, s.2 ++ [.SetBlock key d]))
  IsBlocked ctx key s :=
    ((S.IsBlocked ctx key s.1).1, ((S.IsBlocked ctx key s.1).2, s.2 ++ [.IsBlocked key]))
  Close s :=
    ((S.Close s.1).1, ((S.Close s.1).2, s.2 ++ [.Close]))

/-! ## The orchestrator (`limiter.go`) -/

/-- The struct `RateLimiter`. -/
structure RateLimiter (σ : Type) where
  storage : Storage σ

/-- The constructor `NewRateLimiter`. -/
def NewRateLimiter {σ : Type} (storage : Storage σ) : RateLimiter σ := ⟨storage⟩

/-- The method `RateLimiter.AllowRequest`. -/
def RateLimiter.AllowRequest {σ : Type} (rl : RateLimiter σ) (ctx : Context) (key : String)
    (limit : Int) (blockDuration : Duration) (s : σ) : (Bool × Option GoError) × σ :=
  match rl.storage.IsBlocked ctx key s with
  | ((_, some err), s1) => ((false, some (.errorf "failed to check block status" err)), s1)
  | ((true, none), s1) => ((false, none), s1)
  | ((false, none), s1) =>
    match rl.storage.Increment ctx key (1 * Second) s1 with
    | ((_, some err), s2) => ((false, some (.errorf "failed to increment counter" err)), s2)
    | ((count, none), s2) =>
      if count > limit then
        match rl.storage.SetBlock ctx key blockDuration s2 with
        | (some err, s3) => ((false, some (.errorf "failed to set block" err)), s3)
        | (none, s3) => ((false, none), s3)
      else
        ((true, none), s2)

/-- The method `RateLimiter.IsBlocked`. -/
def RateLimiter.IsBlocked {σ : Type} (rl : RateLimiter σ) (ctx : Context) (key : String)
    (s : σ) : (Bool × Option GoError) × σ :=
  rl.storage.IsBlocked ctx key s

/-- The method `RateLimiter.GetCurrentCount`. -/
def RateLimiter.GetCurrentCount {σ : Type} (rl : RateLimiter σ) (ctx : Context) (key : String)
    (s : σ) : (Int × Option GoError) × σ :=
  rl.storage.Get ctx key s

/-! ## The in-process store (`memory.go`) -/

/-- The struct `counterEntry`. -/
structure counterEntry where
  count : Int
  expiration : Time
  deriving DecidableEq, Repr

/-- The struct `MemoryStorage`: the two tables. -/
structure MemoryStorage where
  counters : String → Option counterEntry
  blocks : String → Option Time

/-- The tables `NewMemoryStorage` allocates: both empty.  The goroutine it
starts is part of `MemProcess.start`. -/
def NewMemoryStorage : MemoryStorage := ⟨fun _ => none, fun _ => none⟩

/-- The method `MemoryStorage.Increment`, with `now` the value of `time.Now()`. -/
def MemoryStorage.Increment (m : MemoryStorage) (now : Time) (_ctx : Context) (key : String)
    (expiration : Duration) : (Int × Option GoError) × MemoryStorage :=
  let fresh : counterEntry := { count := 1, expiration := now.Add expiration }
  match m.counters key with
  | none => ((1, none), { m with counters := Function.update m.counters key (some fresh) })
  | some entry =>
    if now.After entry.expiration then
      ((1, none), { m with counters := Function.update m.counters key (some fresh) })
    else
      let entry1 : counterEntry := { entry with count := entry.count + 1 }
      ((entry1.count, none), { m with counters := Function.update m.counters key (some entry1) })

/-- The method `MemoryStorage.Get`, with `now` the value of `time.Now()`. -/
def MemoryStorage.Get (m : MemoryStorage) (now : Time) (_ctx : Context) (key : String) :
    (Int × Option GoError) × MemoryStorage :=
  match m.counters key with
  | none => ((0, none), m)
  | some entry => if now.After entry.expiration then ((0, none), m) else ((entry.count, none), m)

/-- The method `MemoryStorage.SetBlock`, with `now` the value of `time.Now()`. -/
def MemoryStorage.SetBlock (m : MemoryStorage) (now : Time) (_ctx : Context) (key : String)
    (duration : Duration) : Option GoError × MemoryStorage :=
  (none, { m with blocks := Function.update m.blocks key (some (now.Add duration)) })

/-- The method `MemoryStorage.IsBlocked`, with `now` the value of `time.Now()`. -/
def MemoryStorage.IsBlocked (m : MemoryStorage) (now : Time) (_ctx : Context) (key : String) :
    (Bool × Option GoError) × MemoryStorage :=
  match m.blocks key with
  | none => ((false, none), m)
  | some blockUntil => if now.After blockUntil then ((false, none), m) else ((true, none), m)

/-- The method `MemoryStorage.Close`. -/
def MemoryStorage.Close (m : MemoryStorage) : Option GoError × MemoryStorage := (none, m)

/-- One pass of the loop body of `MemoryStorage.cleanup`, with `now` the value
of `time.Now()`: both tables lose the entries whose instant `now` is after. -/
def MemoryStorage.cleanup (m : MemoryStorage) (now : Time) : MemoryStorage :=
  { counters := fun key =>
      match m.counters key with
      | none => none
      | some entry => if now.After entry.expiration then none else some entry
    blocks := fun key =>
      match m.blocks key with
      | none => none
      | some blockUntil => if now.After blockUntil then none else some blockUntil }

/-! ## The in-process store with its clock -/

/-- The world of a running in-process store: the tables, the readings that
successive calls of `time.Now()` return, and how many were made. -/
structure MemWorld where
  store : MemoryStorage
  clock : Nat → Time
  reads : Nat

/-- The reading the next call of `time.Now()` returns. -/
def MemWorld.now (w : MemWorld) : Time := w.clock w.reads

/-- The world after one reading of the clock, with the tables `m`. -/
def MemWorld.advance (w : MemWorld) (m : MemoryStorage) : MemWorld :=
  { store := m, clock := w.clock, reads := w.reads + 1 }

/-- A fresh store started with the given clock. -/
def MemWorld.start (clock : Nat → Time) : MemWorld :=
  { store := NewMemoryStorage, clock := clock, reads := 0 }

/-- The type `*MemoryStorage` as an implementation of `Storage`: each of the
four operations reads the clock once, `Close` does not. -/
def memoryBackend : Storage MemWorld where
  Increment ctx key d w :=
    ((w.store.Increment w.now ctx key d).1, w.advance (w.store.Increment w.now ctx key d).2)
  Get ctx key w :=
    ((w.store.Get w.now ctx key).1, w.advance (w.store.Get w.now ctx key).2)
  SetBlock ctx key d w :=
    ((w.store.SetBlock w.now ctx key d).1, w.advance (w.store.SetBlock w.now ctx key d).2)
  IsBlocked ctx key w :=
    ((w.store.IsBlocked w.now ctx key).1, w.advance (w.store.IsBlocked w.now ctx key).2)
  Close w := ((w.store.Close).1, { w with store := (w.store.Close).2 })

/-- The limiter of the tests: `NewRateLimiter(NewMemoryStorage())`. -/
def memoryLimiter : RateLimiter MemWorld := NewRateLimiter memoryBackend

/-! ## The goroutine of `cleanup`

`NewMemoryStorage` ends with `go storage.cleanup()`.  That goroutine creates a
ticker of one minute, defers `ticker.Stop()` and ranges over the channel of
the ticker.  The process below is the store together with the goroutine and
its ticker; its events are the calls on the store, the firing of the timer
behind the ticker, and the steps of the goroutine.  A step of the goroutine
that receives a tick runs the whole body of the loop, which holds the lock. -/

/-- The constant `time.Minute`. -/
def Minute : Duration := 60 * Second

/-- A `*time.Ticker`: the period, whether `Stop` was called, whether a tick
waits in the channel `C`, which holds one tick at most, and whether `C` was
closed. -/
structure Ticker where
  period : Duration
  stopped : Bool
  pending : Bool
  closed : Bool
  deriving DecidableEq, Repr

/-- The function `time.NewTicker`. -/
def NewTicker (d : Duration) : Ticker := ⟨d, false, false, false⟩

/-- The method `Stop` of a ticker: no tick is sent any more; the channel is
not closed. -/
def Ticker.Stop (t : Ticker) : Ticker := { t with stopped := true }

/-- The timer behind a ticker fires: unless the ticker is stopped a tick is
sent on `C`, and dropped when one waits there already. -/
def Ticker.fire (t : Ticker) : Ticker :=
  if t.stopped then t else { t with pending := true }

/-- Where the goroutine of `cleanup` stands: created by the `go` statement
with no statement run yet, at the head of `for range ticker.C`, or returned,
the loop left and the deferred `ticker.Stop()` run. -/
inductive CleanupState
  | spawned
  | ranging
  | returned
  deriving DecidableEq, Repr

/-- A running in-process store: its world, the ticker of `cleanup` once
created, and where the goroutine of `cleanup` stands. -/
structure MemProcess where
  world : MemWorld
  ticker : Option Ticker
  cleanup : CleanupState

/-- The function `NewMemoryStorage` as the start of a process: empty tables
and the goroutine of `cleanup` created. -/
def MemProcess.start (clock : Nat → Time) : MemProcess :=
  { world := MemWorld.start clock, ticker := none, cleanup := .spawned }

/-- The method `MemoryStorage.Close`, called on the store of a process. -/
def MemProcess.Close (p : MemProcess) : Option GoError × MemProcess :=
  ((memoryBackend.Close p.world).1, { p with world := (memoryBackend.Close p.world).2 })

/-- One step of the goroutine of `cleanup`.  Its first step creates the
ticker.  At the head of the loop it receives the tick that waits in the
channel and runs the body of the loop, which reads the clock once and deletes
the expired entries; it leaves the loop when the channel is closed and empty,
and then the deferred `ticker.Stop()` runs; with no tick and the channel open
it stays blocked. -/
def MemProcess.cleanupStep (p : MemProcess) : MemProcess :=
  match p.cleanup, p.ticker with
  | .spawned, _ => { p with ticker := some (NewTicker (1 * Minute)), cleanup := .ranging }
  | .ranging, some t =>
    if t.pending then
      let swept := p.world.advance (p.world.store.cleanup p.world.now)
      { world := swept, ticker := some { t with pending := false }, cleanup := .ranging }
    else if t.closed then { p with ticker := some t.Stop, cleanup := .returned }
    else p
  | .ranging, none => p
  | .returned, _ => p

/-- What can happen to a running store: a call of one of the five methods, the
timer of the ticker firing, a step of the goroutine of `cleanup`. -/
inductive Event
  | Increment (ctx : Context) (key : String) (expiration : Duration)
  | Get (ctx : Context) (key : String)
  | SetBlock (ctx : Context) (key : String) (duration : Duration)
  | IsBlocked (ctx : Context) (key : String)
  | Close
  | fire
  | cleanup

/-- The process after one event. -/
def MemProcess.step (p : MemProcess) : Event → MemProcess
  | .Increment ctx key d => { p with world := (memoryBackend.Increment ctx key d p.world).2 }
  | .Get ctx key => { p with world := (memoryBackend.Get ctx key p.world).2 }
  | .SetBlock ctx key d => { p with world := (memoryBackend.SetBlock ctx key d p.world).2 }
  | .IsBlocked ctx key => { p with world := (memoryBackend.IsBlocked ctx key p.world).2 }
  | .Close => (p.Close).2
  | .fire => { p with ticker := p.ticker.map Ticker.fire }
  | .cleanup => p.cleanupStep

/-- The process after the events of a list, in order. -/
def MemProcess.run (p : MemProcess) (es : List Event) : MemProcess := es.foldl MemProcess.step p

/-- A clock that advances by one minute at every reading. -/
def minuteClock (i : Nat) : Time := (i : Int) * Minute

/-- The process after a run from a fresh store in which `Close` is called:
the events `es1`, the call of `Close`, then the events `es2`. -/
def MemProcess.afterClose (clock : Nat → Time) (es1 es2 : List Event) : MemProcess :=
  (MemProcess.start clock).run (es1 ++ Event.Close :: es2)

/-- The goroutine of `cleanup` is alive: it has not returned, it holds a
ticker as soon as it is in the loop and none before, and the ticker has a
period of one minute, is not stopped and its channel is open. -/
def MemProcess.cleanupAlive (p : MemProcess) : Prop :=
  p.cleanup ≠ CleanupState.returned ∧
  (p.cleanup = CleanupState.spawned → p.ticker = none) ∧
  (p.cleanup = CleanupState.ranging → ∃ t, p.ticker = some t) ∧
  ∀ t, p.ticker = some t → t.period = 1 * Minute ∧ t.stopped = false ∧ t.closed = false

/-! ## The shared store (`redis.go`)

`RedisStorage` holds a client of a Redis server; its methods act on the
keyspace of that server.  The server is a map from keys to string values with
an optional expiry instant, in the milliseconds of the server clock, and the
commands `INCR`, `EXPIRE`, `GET` and `SET` follow the Redis command reference;
the arguments the client library go-redis sends for a Go duration follow its
`formatSec`, `formatMs` and `usePrecise`. -/

/-- One key of the Redis keyspace: the string value and the expiry instant in
server milliseconds, if the key has one. -/
structure RedisRecord where
  value : String
  expireAt : Option Int
  deriving DecidableEq, Repr

/-- The struct `RedisStorage`: the keyspace its client is connected to. -/
structure RedisStorage where
  db : String → Option RedisRecord

/-- The error `redis.Nil`. -/
def redisNil : GoError := .base "redis: nil"

/-- The reply of the server to `INCR` on a value that is no integer. -/
def redisNotInteger : GoError := .base "ERR value is not an integer or out of range"

/-- The reply of the server to `INCR` on the largest 64-bit integer. -/
def redisOverflow : GoError := .base "ERR increment or decrement would overflow"

/-- The value of a string of decimal digits, read after the accumulator. -/
def parseDigitsFrom : List Char → Nat → Option Nat
  | [], acc => some acc
  | c :: cs, acc => if c.isDigit then parseDigitsFrom cs (10 * acc + (c.toNat - 48)) else none

/-- The value of a non-empty string of decimal digits. -/
def parseDigits (cs : List Char) : Option Nat :=
  if cs = [] then none else parseDigitsFrom cs 0

/-- The function `strconv.ParseInt(s, 10, 64)`: an optional sign, then decimal
digits, within the 64-bit range. -/
def ParseInt (s : String) : Option Int :=
  match s.data with
  | '-' :: cs => (parseDigits cs).bind fun n => if n ≤ 2 ^ 63 then some (-(n : Int)) else none
  | '+' :: cs => (parseDigits cs).bind fun n => if n < 2 ^ 63 then some (n : Int) else none
  | cs => (parseDigits cs).bind fun n => if n < 2 ^ 63 then some (n : Int) else none

/-- The `*strconv.NumError` that `strconv.ParseInt` returns for a string it
rejects; its reason, syntax or range, is not told apart. -/
def parseIntError (s : String) : GoError := .base ("strconv.ParseInt: parsing " ++ s.quote)

/-- The integer a Redis string value stands for, for `INCR`: the strings that
are the decimal rendering of a 64-bit integer, and no others. -/
def string2ll (s : String) : Option Int :=
  match ParseInt s with
  | some n => if toString n = s then some n else none
  | none => none

/-- The record of a key as commands see it at the server instant `now`: a key
whose expiry instant `now` is past is gone. -/
def RedisStorage.live (r : RedisStorage) (now : Int) (key : String) : Option RedisRecord :=
  match r.db key with
  | none => none
  | some rec =>
    match rec.expireAt with
    | none => some rec
    | some at_ => if at_ < now then none else some rec

/-- The command `INCR key`: a missing key counts as 0 and gets no expiry; the
expiry of a present key is kept. -/
def RedisStorage.INCR (r : RedisStorage) (now : Int) (key : String) :
    (Int × Option GoError) × RedisStorage :=
  match r.live now key with
  | none => ((1, none), { db := Function.update r.db key (some ⟨"1", none⟩) })
  | some rec =>
    match string2ll rec.value with
    | none => ((0, some redisNotInteger), r)
    | some n =>
      if n = 2 ^ 63 - 1 then ((0, some redisOverflow), r)
      else ((n + 1, none),
        { db := Function.update r.db key (some ⟨toString (n + 1), rec.expireAt⟩) })

/-- The command `EXPIRE key seconds`: on a present key the expiry becomes
`now + seconds`, and a key whose expiry would not be in the future is deleted;
the reply tells whether the key was present. -/
def RedisStorage.EXPIRE (r : RedisStorage) (now : Int) (key : String) (seconds : Int) :
    (Bool × Option GoError) × RedisStorage :=
  match r.live now key with
  | none => ((false, none), r)
  | some rec =>
    if now + seconds * 1000 ≤ now then ((true, none), { db := Function.update r.db key none })
    else ((true, none),
      { db := Function.update r.db key (some ⟨rec.value, some (now + seconds * 1000)⟩) })

/-- The command `GET key`, as the client returns it: the value, or `redis.Nil`
for a missing key. -/
def RedisStorage.GET (r : RedisStorage) (now : Int) (key : String) :
    (String × Option GoError) × RedisStorage :=
  match r.live now key with
  | none => (("", some redisNil), r)
  | some rec => ((rec.value, none), r)

/-- The expiry options of `SET`. -/
inductive SetExpiry where
  | persist
  | ex (seconds : Int)
  | px (milliseconds : Int)
  | keepttl
  deriving DecidableEq, Repr

/-- The command `SET key value` with an expiry option. -/
def RedisStorage.SET (r : RedisStorage) (now : Int) (key value : String) (opt : SetExpiry) :
    Option GoError × RedisStorage :=
  let expireAt : Option Int :=
    match opt with
    | .persist => none
    | .ex seconds => some (now + seconds * 1000)
    | .px milliseconds => some (now + milliseconds)
    | .keepttl => (r.live now key).bind fun rec => rec.expireAt
  (none, { db := Function.update r.db key (some ⟨value, expireAt⟩) })

/-- The function `formatSec` of go-redis: whole seconds, at least one for a
positive duration. -/
def formatSec (dur : Duration) : Int :=
  if 0 < dur ∧ dur < Second then 1 else Int.tdiv dur Second

/-- The function `formatMs` of go-redis: whole milliseconds, at least one for
a positive duration. -/
def formatMs (dur : Duration) : Int :=
  if 0 < dur ∧ dur < Millisecond then 1 else Int.tdiv dur Millisecond

/-- The function `usePrecise` of go-redis. -/
def usePrecise (dur : Duration) : Bool :=
  decide (dur < Second) || decide (Int.tmod dur Second ≠ 0)

/-- The expiry option `client.Set` of go-redis sends for a Go duration: `PX`
or `EX` for a positive one, `KEEPTTL` for the constant `redis.KeepTTL` (-1),
none otherwise. -/
def setExpiryOf (expiration : Duration) : SetExpiry :=
  if 0 < expiration then
    if usePrecise expiration then .px (formatMs expiration) else .ex (formatSec expiration)
  else if expiration = -1 then .keepttl
  else .persist

/-- The method `RedisStorage.Increment`, with `now` the instant of the server:
the pipeline sends `INCR key` and `EXPIRE key seconds`, and `Exec` returns the
first error of the two. -/
def RedisStorage.Increment (r : RedisStorage) (now : Int) (_ctx : Context) (key : String)
    (expiration : Duration) : (Int × Option GoError) × RedisStorage :=
  let incr := r.INCR now key
  let expire := incr.2.EXPIRE now key (formatSec expiration)
  match incr.1.2.orElse (fun _ => expire.1.2) with
  | some err => ((0, some (.errorf "failed to increment counter" err)), expire.2)
  | none => ((incr.1.1, none), expire.2)

/-- The method `RedisStorage.Get`, with `now` the instant of the server. -/
def RedisStorage.Get (r : RedisStorage) (now : Int) (_ctx : Context) (key : String) :
    (Int × Option GoError) × RedisStorage :=
  match r.GET now key with
  | ((_, some err), r1) =>
    if err.Is redisNil then ((0, none), r1)
    else ((0, some (.errorf "failed to get counter" err)), r1)
  | ((val, none), r1) =>
    match ParseInt val with
    | some n => ((n, none), r1)
    | none => ((0, some (.errorf "failed to get counter" (parseIntError val))), r1)

/-- The method `RedisStorage.SetBlock`, with `now` the instant of the server. -/
def RedisStorage.SetBlock (r : RedisStorage) (now : Int) (_ctx : Context) (key : String)
    (duration : Duration) : Option GoError × RedisStorage :=
  let blockKey := "block:" ++ key
  match r.SET now blockKey "1" (setExpiryOf duration) with
  | (some err, r1) => (some (.errorf "failed to set block" err), r1)
  | (none, r1) => (none, r1)

/-- The method `RedisStorage.IsBlocked`, with `now` the instant of the server. -/
def RedisStorage.IsBlocked (r : RedisStorage) (now : Int) (_ctx : Context) (key : String) :
    (Bool × Option GoError) × RedisStorage :=
  let blockKey := "block:" ++ key
  match r.GET now blockKey with
  | ((_, some err), r1) =>
    if err.Is redisNil then ((false, none), r1)
    else ((false, some (.errorf "failed to check block status" err)), r1)
  | ((val, none), r1) => ((decide (val = "1"), none), r1)

/-- The world of a shared store: the keyspace, the readings of the server
clock in milliseconds that successive commands see, and how many were made. -/
structure RedisWorld where
  server : RedisStorage
  clock : Nat → Int
  reads : Nat

/-- The type `*RedisStorage` as an implementation of `Storage`: each operation
is one exchange with the server, at one reading of its clock. -/
def redisBackend : Storage RedisWorld where
  Increment ctx key d w :=
    ((w.server.Increment (w.clock w.reads) ctx key d).1,
      ⟨(w.server.Increment (w.clock w.reads) ctx key d).2, w.clock, w.reads + 1⟩)
  Get ctx key w :=
    ((w.server.Get (w.clock w.reads) ctx key).1,
      ⟨(w.server.Get (w.clock w.reads) ctx key).2, w.clock, w.reads + 1⟩)
  SetBlock ctx key d w :=
    ((w.server.SetBlock (w.clock w.reads) ctx key d).1,
      ⟨(w.server.SetBlock (w.clock w.reads) ctx key d).2, w.clock, w.reads + 1⟩)
  IsBlocked ctx key w :=
    ((w.server.IsBlocked (w.clock w.reads) ctx key).1,
      ⟨(w.server.IsBlocked (w.clock w.reads) ctx key).2, w.clock, w.reads + 1⟩)
  Close w := (none, w)

/-! ## Clients used in the statements -/

/-- The log of the storage calls one `AllowRequest` makes on the backend `S`
from the state `s`. -/
def allowCalls {σ : Type} (S : Storage σ) (ctx : Context) (key : String) (limit : Int)
    (blockDuration : Duration) (s : σ) : List StorageCall :=
  ((NewRateLimiter S.traced).AllowRequest ctx key limit blockDuration (s, [])).2.2

/-- The loop of the tests: `n` successive calls of `AllowRequest` with the same
arguments; the results in order, and the state after the last call. -/
def allowTimes {σ : Type} (rl : RateLimiter σ) (ctx : Context) (key : String) (limit : Int)
    (blockDuration : Duration) : Nat → σ → List (Bool × Option GoError) × σ
  | 0, s => ([], s)
  | n + 1, s =>
    ((rl.AllowRequest ctx key limit blockDuration s).1 ::
        (allowTimes rl ctx key limit blockDuration n
          (rl.AllowRequest ctx key limit blockDuration s).2).1,
      (allowTimes rl ctx key limit blockDuration n
          (rl.AllowRequest ctx key limit blockDuration s).2).2)

/-- The clock readings at which the allowed calls among `n` successive
`AllowRequest` calls on the in-process store incremented the counter: the
second and last reading of an allowed call. -/
def allowedInstants (ctx : Context) (key : String) (limit : Int) (blockDuration : Duration) :
    Nat → MemWorld → List Time
  | 0, _ => []
  | n + 1, w =>
    if (memoryLimiter.AllowRequest ctx key limit blockDuration w).1.1 = true then
      w.clock (w.reads + 1) ::
        allowedInstants ctx key limit blockDuration n
          (memoryLimiter.AllowRequest ctx key limit blockDuration w).2
    else
      allowedInstants ctx key limit blockDuration n
        (memoryLimiter.AllowRequest ctx key limit blockDuration w).2

/-- How many instants of the list lie in the closed interval from `a` to one
second after `a`. -/
def countWithinSecond (a : Time) (ts : List Time) : Nat :=
  (ts.filter fun t => decide (a ≤ t ∧ t ≤ a + Second)).length

/-- The invariant behind the bound on bursts, for an interval starting at `a`:
`cnt` allowed calls fell in the interval so far, `entry` is the counter entry
of the key, whose window started one second before its expiration, and `now`
is the next reading of the clock. -/
def burstInv (L : Int) (a : Time) (entry : Option counterEntry) (now : Time) (cnt : Int) :
    Prop :=
  0 ≤ cnt ∧ (0 < cnt → a ≤ now) ∧ (entry = none → cnt = 0) ∧
  ∀ e, entry = some e →
    e.expiration - Second ≤ now ∧
    (e.expiration - Second < a → cnt ≤ e.count ∧ cnt ≤ L) ∧
    (a ≤ e.expiration - Second → e.expiration - Second ≤ a + Second →
      cnt ≤ L + e.count ∧ cnt ≤ 2 * L) ∧
    (a + Second < e.expiration - Second → cnt ≤ 2 * L)

/-- A clock for a burst across the end of a window: two readings at instant 0,
two at one second, and all later ones a nanosecond after that. -/
def burstClock (i : Nat) : Time :=
  if i < 2 then 0 else if i < 4 then Second else Second + 1

/-! ## The configuration (`configs/config.go`) -/

/-- The struct `TokenConfig`. -/
structure TokenConfig where
  Limit : Int
  BlockTime : Int
  deriving DecidableEq, Repr

/-- The struct `Config`; the map `TokenConfigs` is a partial function, and a
nil map is the one without entries. -/
structure Config where
  RedisHost : String
  RedisPort : String
  RedisPassword : String
  RedisDB : Int
  ServerPort : String
  RateLimitIP : Int
  RateLimitIPBlockTime : Int
  RateLimitToken : Int
  RateLimitTokenBlockTime : Int
  TokenConfigs : String → Option TokenConfig

/-- The method `Config.GetTokenConfig`. -/
def Config.GetTokenConfig (c : Config) (token : String) : TokenConfig × Bool :=
  match c.TokenConfigs token with
  | none => ({ Limit := c.RateLimitToken, BlockTime := c.RateLimitTokenBlockTime }, false)
  | some cfg => (cfg, true)

/-! ## The HTTP layer (`middleware/ratelimiter.go`)

A request is what the middleware reads of an `*http.Request`; a response
writer is what an `http.ResponseWriter` has received, as
`httptest.ResponseRecorder` keeps it. -/

/-- An `*http.Request`: `Header name` is `r.Header.Get(name)`, and `Ctx` is
`r.Context()`. -/
structure Request where
  Header : String → String
  RemoteAddr : String
  Ctx : Context

/-- The functions of the Go standard library that `getClientIP` calls, taken
as given: `strings.Split`, `strings.TrimSpace` and `net.SplitHostPort`. -/
structure NetLib where
  Split : String → String → List String
  TrimSpace : String → String
  SplitHostPort : String → (String × String) × Option GoError

/-- The function `getClientIP`. -/
def getClientIP (lib : NetLib) (r : Request) : String :=
  let fromPeer : String :=
    let realIP := r.Header "X-Real-IP"
    if realIP ≠ "" then realIP
    else
      match lib.SplitHostPort r.RemoteAddr with
      | (_, some _) => r.RemoteAddr
      | ((ip, _), none) => ip
  let forwarded := r.Header "X-Forwarded-For"
  if forwarded ≠ "" then
    match lib.Split forwarded "," with
    | ip :: _ => lib.TrimSpace ip
    | [] => fromPeer
  else fromPeer

/-- What an `http.ResponseWriter` has received: the header map, the status
code once `WriteHeader` was called, and the body written. -/
structure ResponseWriter where
  header : List (String × String)
  status : Option Nat
  body : String
  deriving DecidableEq, Repr

/-- A response writer nothing was written to. -/
def NewRecorder : ResponseWriter := ⟨[], none, ""⟩

/-- The call `w.Header().Set(name, value)`. -/
def ResponseWriter.SetHeader (w : ResponseWriter) (name value : String) : ResponseWriter :=
  { w with header := (name, value) :: w.header.filter fun kv => kv.1 ≠ name }

/-- The call `w.Header().Del(name)`. -/
def ResponseWriter.DelHeader (w : ResponseWriter) (name : String) : ResponseWriter :=
  { w with header := w.header.filter fun kv => kv.1 ≠ name }

/-- The method `WriteHeader`: the first status code written stays. -/
def ResponseWriter.WriteHeader (w : ResponseWriter) (code : Nat) : ResponseWriter :=
  match w.status with
  | none => { w with status := some code }
  | some _ => w

/-- The method `Write`: the status is 200 when none was written before. -/
def ResponseWriter.Write (w : ResponseWriter) (data : String) : ResponseWriter :=
  { (w.WriteHeader 200) with body := (w.WriteHeader 200).body ++ data }

/-- The function `http.Error`. -/
def httpError (w : ResponseWriter) (error : String) (code : Nat) : ResponseWriter :=
  ((((w.DelHeader "Content-Length").SetHeader "Content-Type"
    "text/plain; charset=utf-8").SetHeader "X-Content-Type-Options" "nosniff").WriteHeader
      code).Write (error ++ "\n")

/-- The constant `http.StatusInternalServerError`. -/
def StatusInternalServerError : Nat := 500

/-- The constant `http.StatusTooManyRequests`. -/
def StatusTooManyRequests : Nat := 429

/-- The message of the rate-limit response. -/
def rateLimitMessage : String :=
  "you have reached the maximum number of requests or actions allowed within a certain time frame"

/-- What `json.NewEncoder(w).Encode` writes for a map with the single key
`error` and a value that needs no escaping: the object and a line feed. -/
def encodeErrorJSON (message : String) : String :=
  "\x7b\"error\":\"" ++ message ++ "\"\x7d\n"

/-- The state a handler acts on: the backend of the limiter and the response
writer. -/
structure HttpWorld (σ : Type) where
  store : σ
  w : ResponseWriter

/-- An `http.Handler`, by its method `ServeHTTP`. -/
abbrev Handler (σ : Type) := Request → HttpWorld σ → HttpWorld σ

/-- The first part of the closure of `RateLimiterMiddleware`: the key, the
limit and the block duration of a request.  The conversion
`time.Duration(BlockTime)` keeps the value, and the product with `time.Second`
is a product of two `int64`. -/
def requestPolicy (lib : NetLib) (cfg : Config) (r : Request) : String × Int × Duration :=
  let token := r.Header "API_KEY"
  if token ≠ "" then
    let key := "token:" ++ token
    let tokenConfig := (cfg.GetTokenConfig token).1
    let found := (cfg.GetTokenConfig token).2
    if found = true then (key, tokenConfig.Limit, mulDuration tokenConfig.BlockTime Second)
    else (key, cfg.RateLimitToken, mulDuration cfg.RateLimitTokenBlockTime Second)
  else
    let ip := getClientIP lib r
    ("ip:" ++ ip, cfg.RateLimitIP, mulDuration cfg.RateLimitIPBlockTime Second)

/-- The function `RateLimiterMiddleware`: the handler it wraps `next` in. -/
def RateLimiterMiddleware {σ : Type} (lib : NetLib) (cfg : Config) (limiter : RateLimiter σ)
    (next : Handler σ) : Handler σ := fun r hw =>
  let ctx := r.Ctx
  let policy := requestPolicy lib cfg r
  match limiter.AllowRequest ctx policy.1 policy.2.1 policy.2.2 hw.store with
  | ((_, some _), s) =>
    { store := s, w := httpError hw.w "Internal server error" StatusInternalServerError }
  | ((false, none), s) =>
    { store := s
      w := (((hw.w.SetHeader "Content-Type" "application/json").WriteHeader
        StatusTooManyRequests).Write (encodeErrorJSON rateLimitMessage)) }
  | ((true, none), s) => next r { store := s, w := hw.w }

/-- An instance of the library for concrete runs: `String.splitOn`,
`String.trim`, and for `SplitHostPort` the split of `host:port` at its only
colon, an error for any other shape. -/
def plainLib : NetLib where
  Split s sep := s.splitOn sep
  TrimSpace s := s.trim
  SplitHostPort s :=
    match (s.data.takeWhile fun c => c ≠ ':'), (s.data.dropWhile fun c => c ≠ ':') with
    | host, ':' :: port =>
      if port.contains ':' then (("", ""), some (.base "address: too many colons in address"))
      else ((String.mk host, String.mk port), none)
    | _, _ => (("", ""), some (.base "address: missing port in address"))

/-- The configuration of the test `TestRateLimiterMiddleware_SpecificTokenConfig`:
the token `abc123` has a limit of 3 and a block time of 2 seconds. -/
def specificTokenConfig : Config where
  RedisHost := ""
  RedisPort := ""
  RedisPassword := ""
  RedisDB := 0
  ServerPort := ""
  RateLimitIP := 5
  RateLimitIPBlockTime := 1
  RateLimitToken := 10
  RateLimitTokenBlockTime := 1
  TokenConfigs := fun token => if token = "abc123" then some ⟨3, 2⟩ else none

/-- The request of the tests: `httptest.NewRequest("GET", "/", nil)` with the
header `API_KEY` set to `apiKey` (not set when empty) and the given
`RemoteAddr`. -/
def testRequest (apiKey remoteAddr : String) : Request where
  Header := fun name => if name = "API_KEY" then apiKey else ""
  RemoteAddr := remoteAddr
  Ctx := Background

/-- Successive `Increment` calls on one key, one at each instant of the list:
the counts returned, in order, and the tables after the last call. -/
def incrementAt (ctx : Context) (key : String) (ttl : Duration) :
    List Time → MemoryStorage → List Int × MemoryStorage
  | [], m => ([], m)
  | t :: ts, m =>
    ((m.Increment t ctx key ttl).1.1 :: (incrementAt ctx key ttl ts (m.Increment t ctx key ttl).2).1,
      (incrementAt ctx key ttl ts (m.Increment t ctx key ttl).2).2)

/-- The handler of the tests: it writes the status 200 and the body
`\x7b"status":"ok"\x7d` with a line feed. -/
def okHandler {σ : Type} : Handler σ := fun _ hw =>
  { hw with w := (hw.w.WriteHeader 200).Write "\x7b\"status\":\"ok\"\x7d\n" }

/-- For each of `n` successive `AllowRequest` calls on the in-process store:
whether the call was allowed, and how many readings of the clock were made
before it, the index of its first reading. -/
def callLog (ctx : Context) (key : String) (limit : Int) (blockDuration : Duration) :
    Nat → MemWorld → List (Bool × Nat)
  | 0, _ => []
  | n + 1, w =>
    ((memoryLimiter.AllowRequest ctx key limit blockDuration w).1.1, w.reads) ::
      callLog ctx key limit blockDuration n
        (memoryLimiter.AllowRequest ctx key limit blockDuration w).2

/-- The invariant of a key that went over its limit in the window that ends at
`E` and was blocked until `D1` by a `SetBlock` of duration `d`: the key has a
block deadline of `D1` or later, the clock is not before the reading of that
`SetBlock`, and the counter entry is still the one ending at `E`, over the
limit, unless the clock is past `E`. -/
def overLimitInv (key : String) (limit : Int) (D1 : Time) (d : Duration) (E : Time)
    (w : MemWorld) : Prop :=
  (∃ Dc, w.store.blocks key = some Dc ∧ D1 ≤ Dc) ∧ D1 - d ≤ w.clock w.reads ∧
  ((∃ e, w.store.counters key = some e ∧ e.expiration = E ∧ limit < e.count) ∨
    E < w.clock w.reads)

/-- A clock for a request after the block but inside the window: three
readings at 500 ms, all later ones at 1200 ms. -/
def relapseClock (i : Nat) : Time :=
  if i < 3 then 500 * Millisecond else 1200 * Millisecond

/-- For the allowed calls among `n` successive `AllowRequest` calls on the
in-process store, the expiration of the counter entry the call incremented.
`AllowRequest` opens every window with a length of one second at an instant
after the expiration of the entry before, so two entries of one key never
have the same expiration and the expiration tells which entry a call hit. -/
def allowedWindows (ctx : Context) (key : String) (limit : Int) (blockDuration : Duration) :
    Nat → MemWorld → List Time
  | 0, _ => []
  | n + 1, w =>
    match (memoryLimiter.AllowRequest ctx key limit blockDuration w).1.1,
        (memoryLimiter.AllowRequest ctx key limit blockDuration w).2.store.counters key with
    | true, some e =>
      e.expiration :: allowedWindows ctx key limit blockDuration n
        (memoryLimiter.AllowRequest ctx key limit blockDuration w).2
    | _, _ =>
      allowedWindows ctx key limit blockDuration n
        (memoryLimiter.AllowRequest ctx key limit blockDuration w).2

/-- The invariant behind the bound on one window, the one whose entry expires
at `E`: `cnt` allowed calls hit that entry so far, none while the entry of the
key expires earlier, and no more than its count while it is the entry. -/
def windowInv (L : Int) (E : Time) (entry : Option counterEntry) (cnt : Int) : Prop :=
  0 ≤ cnt ∧ cnt ≤ max L 0 ∧ (entry = none → cnt = 0) ∧
  ∀ e, entry = some e →
    0 ≤ e.count ∧ (e.expiration < E → cnt = 0) ∧ (e.expiration = E → cnt ≤ e.count)

/-! ## Loading the configuration (`configs/config.go`)

The environment of the process is a list of variables, name and value; names
hold no `=`.  `os.Environ()` gives the strings `name=value`, `os.Getenv` the
value of a name or the empty string.  The functions of the package `strings`
act on the characters of a string. -/

/-- What the process gets from the system when it loads its configuration: the
environment variables, and the order in which `range` visits the entries of a
map, which Go leaves open. -/
structure Runtime where
  env : List (String × String)
  rangeOrder : List (String × String) → List (String × String)

/-- The function `os.Environ`. -/
def Runtime.Environ (rt : Runtime) : List String :=
  rt.env.map fun kv => kv.1 ++ "=" ++ kv.2

/-- The function `os.Getenv`. -/
def Runtime.Getenv (rt : Runtime) (key : String) : String :=
  match rt.env.lookup key with
  | some value => value
  | none => ""

/-- The function `strings.HasPrefix`. -/
def HasPrefix (s pre : String) : Bool := pre.data.isPrefixOf s.data

/-- The function `strings.HasSuffix`. -/
def HasSuffix (s suf : String) : Bool := suf.data.isSuffixOf s.data

/-- The function `strings.TrimPrefix`. -/
def TrimPrefix (s pre : String) : String :=
  if HasPrefix s pre then String.mk (s.data.drop pre.data.length) else s

/-- The call `strings.SplitN(s, sep, 2)` for a separator of one character: the
string itself when it has no separator, else the parts before and after the
first one. -/
def SplitN (s : String) (sep : Char) : List String :=
  match s.data.dropWhile fun c => c ≠ sep with
  | [] => [s]
  | _ :: rest => [String.mk (s.data.takeWhile fun c => c ≠ sep), String.mk rest]

/-- The assignment `m[key] = value` on a `map[string]string`, kept as the list
of its entries. -/
def mapAssign (m : List (String × String)) (key value : String) : List (String × String) :=
  (key, value) :: m.filter fun kv => kv.1 ≠ key

/-- The function `getEnv`. -/
def getEnv (rt : Runtime) (key defaultValue : String) : String :=
  if rt.Getenv key ≠ "" then rt.Getenv key else defaultValue

/-- The function `getEnvAsInt`; `strconv.Atoi` is `strconv.ParseInt` in base 10
at the size of `int`. -/
def getEnvAsInt (rt : Runtime) (key : String) (defaultValue : Int) : Int :=
  let valueStr := rt.Getenv key
  if valueStr = "" then defaultValue
  else
    match ParseInt valueStr with
    | none => defaultValue
    | some value => value

/-- Whether `loadTokenConfigs` takes a variable for a token: its name starts
with `TOKEN_` and ends neither in `_LIMIT` nor in `_BLOCK_TIME`. -/
def isTokenName (key : String) : Bool :=
  HasPrefix key "TOKEN_" && !HasSuffix key "_LIMIT" && !HasSuffix key "_BLOCK_TIME"

/-- The body of the first loop of `loadTokenConfigs`, on one string of
`os.Environ()`. -/
def tokenStep (tokens : List (String × String)) (env : String) : List (String × String) :=
  match SplitN env '=' with
  | [key, value] =>
    if isTokenName key then mapAssign tokens (TrimPrefix key "TOKEN_") value else tokens
  | _ => tokens

/-- The first pass of `loadTokenConfigs`: the map `tokens`. -/
def tokensOfEnviron (environ : List String) : List (String × String) :=
  environ.foldl tokenStep []

/-- The body of the second loop of `loadTokenConfigs`, on one entry of
`tokens`. -/
def tokenConfigStep (rt : Runtime) (c : Config) (entry : String × String) : Config :=
  let tokenName := entry.1
  let tokenValue := entry.2
  let limitKey := "TOKEN_" ++ tokenName ++ "_LIMIT"
  let blockTimeKey := "TOKEN_" ++ tokenName ++ "_BLOCK_TIME"
  let limit := getEnvAsInt rt limitKey c.RateLimitToken
  let blockTime := getEnvAsInt rt blockTimeKey c.RateLimitTokenBlockTime
  { c with TokenConfigs :=
      Function.update c.TokenConfigs tokenValue (some { Limit := limit, BlockTime := blockTime }) }

/-- The method `Config.loadTokenConfigs`: the second pass visits the entries of
`tokens` in the order `range` gives. -/
def Config.loadTokenConfigs (c : Config) (rt : Runtime) : Config :=
  (rt.rangeOrder (tokensOfEnviron rt.Environ)).foldl (tokenConfigStep rt) c

/-- The configuration `LoadConfig` builds before it loads the tokens: the
settings read from the environment and an empty map `TokenConfigs`. -/
def baseConfig (rt : Runtime) : Config where
  RedisHost := getEnv rt "REDIS_HOST" "localhost"
  RedisPort := getEnv rt "REDIS_PORT" "6379"
  RedisPassword := getEnv rt "REDIS_PASSWORD" ""
  RedisDB := getEnvAsInt rt "REDIS_DB" 0
  ServerPort := getEnv rt "SERVER_PORT" "8080"
  RateLimitIP := getEnvAsInt rt "RATE_LIMIT_IP" 10
  RateLimitIPBlockTime := getEnvAsInt rt "RATE_LIMIT_IP_BLOCK_TIME" 300
  RateLimitToken := getEnvAsInt rt "RATE_LIMIT_TOKEN" 100
  RateLimitTokenBlockTime := getEnvAsInt rt "RATE_LIMIT_TOKEN_BLOCK_TIME" 300
  TokenConfigs := fun _ => none

/-- The function `LoadConfig`. -/
def LoadConfig (rt : Runtime) : Config × Option GoError :=
  ((baseConfig rt).loadTokenConfigs rt, none)

/-- The environment of the test `TestLoadConfig_TokenConfigs`, visited by
`range` in the order of the list. -/
def tokenConfigsRuntime : Runtime where
  env :=
    [("TOKEN_PREMIUM", "premium-token-123"), ("TOKEN_PREMIUM_LIMIT", "1000"),
      ("TOKEN_PREMIUM_BLOCK_TIME", "120"), ("TOKEN_BASIC", "basic-token-456"),
      ("TOKEN_BASIC_LIMIT", "50"), ("TOKEN_BASIC_BLOCK_TIME", "600")]
  rangeOrder := id

/-- An environment whose only variable is `RATE_LIMIT_IP_BLOCK_TIME`, set to
9223372037, a number of seconds that exceeds the range of `time.Duration`. -/
def longBlockRuntime : Runtime where
  env := [("RATE_LIMIT_IP_BLOCK_TIME", "9223372037")]
  rangeOrder := id

/-! ## The decision rule over any backend -/

/-- Logging the calls does not change what `AllowRequest` returns nor the
state of the backend. -/
theorem allowRequest_traced {σ : Type} (S : Storage σ) (ctx : Context) (key : String)
    (limit : Int) (d : Duration) (s : σ) (log : List StorageCall) :
    ((NewRateLimiter S.traced).AllowRequest ctx key limit d (s, log)).1 =
        ((NewRateLimiter S).AllowRequest ctx key limit d s).1 ∧
    ((NewRateLimiter S.traced).AllowRequest ctx key limit d (s, log)).2.1 =
        ((NewRateLimiter S).AllowRequest ctx key limit d s).2 := by
  simp only [RateLimiter.AllowRequest, NewRateLimiter, Storage.traced, one_mul]
  rcases hB : S.IsBlocked ctx key s with ⟨⟨b, _ | e⟩, s1⟩
  · cases b
    · rcases hI : S.Increment ctx key Second s1 with ⟨⟨c, _ | e⟩, s2⟩
      · by_cases hc : c > limit
        · rcases hS : S.SetBlock ctx key d s2 with ⟨_ | e, s3⟩ <;> simp [hI, hc, hS]
        · simp [hI, hc]
      · simp [hI]
    · simp
  · simp

/-- Every error is itself, for `errors.Is`. -/
theorem GoError.is_self (e : GoError) : e.Is e = true := by
  cases e <;> simp [GoError.Is]

/-- An error wrapped by `fmt.Errorf` with `%w` unwraps to the error wrapped,
and `errors.Is` reaches it. -/
theorem GoError.errorf_wraps (c : String) (e : GoError) :
    (GoError.errorf c e).Unwrap = some e ∧ (GoError.errorf c e).Is e = true := by
  simp [GoError.Unwrap, GoError.Is, GoError.is_self]

/-! ## The operations of the in-process store -/

theorem MemoryStorage.isBlocked_store (m : MemoryStorage) (now : Time) (ctx : Context)
    (key : String) : (m.IsBlocked now ctx key).2 = m := by
  unfold MemoryStorage.IsBlocked
  split
  · rfl
  · split <;> rfl

theorem MemoryStorage.isBlocked_err (m : MemoryStorage) (now : Time) (ctx : Context)
    (key : String) : (m.IsBlocked now ctx key).1.2 = none := by
  unfold MemoryStorage.IsBlocked
  split
  · rfl
  · split <;> rfl

theorem MemoryStorage.isBlocked_iff (m : MemoryStorage) (now : Time) (ctx : Context)
    (key : String) :
    (m.IsBlocked now ctx key).1.1 = true ↔ ∃ D, m.blocks key = some D ∧ now ≤ D := by
  unfold MemoryStorage.IsBlocked
  split
  · next h => simp [h]
  · next D h =>
    by_cases hD : D < now
    · simp [h, Time.After, hD]
    · simp [h, Time.After, hD, not_lt.mp hD]

theorem MemoryStorage.isBlocked_eq (m : MemoryStorage) (now : Time) (ctx : Context)
    (key : String) :
    m.IsBlocked now ctx key = (((m.IsBlocked now ctx key).1.1, none), m) := by
  have h1 := m.isBlocked_store now ctx key
  have h2 := m.isBlocked_err now ctx key
  rcases h : m.IsBlocked now ctx key with ⟨⟨b, e⟩, m1⟩
  rw [h] at h1 h2
  simp only at h1 h2
  rw [h1, h2]

theorem MemoryStorage.increment_err (m : MemoryStorage) (now : Time) (ctx : Context)
    (key : String) (ttl : Duration) : (m.Increment now ctx key ttl).1.2 = none := by
  unfold MemoryStorage.Increment
  split
  · rfl
  · split <;> rfl

theorem MemoryStorage.increment_blocks (m : MemoryStorage) (now : Time) (ctx : Context)
    (key : String) (ttl : Duration) : (m.Increment now ctx key ttl).2.blocks = m.blocks := by
  unfold MemoryStorage.Increment
  split
  · rfl
  · split <;> rfl

theorem MemoryStorage.increment_eq (m : MemoryStorage) (now : Time) (ctx : Context)
    (key : String) (ttl : Duration) :
    m.Increment now ctx key ttl =
      (((m.Increment now ctx key ttl).1.1, none), (m.Increment now ctx key ttl).2) := by
  have h2 := m.increment_err now ctx key ttl
  rcases h : m.Increment now ctx key ttl with ⟨⟨c, e⟩, m1⟩
  rw [h] at h2
  simp only at h2
  rw [h2]

theorem MemoryStorage.increment_other (m : MemoryStorage) (now : Time) (ctx : Context)
    (key other : String) (ttl : Duration) (h : key ≠ other) :
    (m.Increment now ctx key ttl).2.counters other = m.counters other := by
  unfold MemoryStorage.Increment
  split
  · simp [Function.update_noteq (Ne.symm h)]
  · split <;> simp [Function.update_noteq (Ne.symm h)]

theorem MemoryStorage.get_congr (m m1 : MemoryStorage) (key : String)
    (h : m1.counters key = m.counters key) (t : Time) (ctx ctx1 : Context) :
    (m1.Get t ctx1 key).1 = (m.Get t ctx key).1 := by
  unfold MemoryStorage.Get
  rw [h]
  split
  · rfl
  · split <;> rfl

theorem MemoryStorage.isBlocked_congr (m m1 : MemoryStorage) (key : String)
    (h : m1.blocks key = m.blocks key) (t : Time) (ctx ctx1 : Context) :
    (m1.IsBlocked t ctx1 key).1 = (m.IsBlocked t ctx key).1 := by
  unfold MemoryStorage.IsBlocked
  rw [h]
  split
  · rfl
  · split <;> rfl

theorem MemoryStorage.setBlock_other (m : MemoryStorage) (now : Time) (ctx : Context)
    (key other : String) (d : Duration) (h : key ≠ other) :
    (m.SetBlock now ctx key d).2.blocks other = m.blocks other := by
  simp [MemoryStorage.SetBlock, Function.update_noteq (Ne.symm h)]

theorem MemoryStorage.setBlock_counters (m : MemoryStorage) (now : Time) (ctx : Context)
    (key : String) (d : Duration) : (m.SetBlock now ctx key d).2.counters = m.counters := rfl

theorem MemoryStorage.increment_reset (m : MemoryStorage) (now : Time) (ctx : Context)
    (key : String) (ttl : Duration)
    (h : m.counters key = none ∨ ∃ e, m.counters key = some e ∧ e.expiration < now) :
    (m.Increment now ctx key ttl).1.1 = 1 ∧
    (m.Increment now ctx key ttl).2.counters key =
      some { count := 1, expiration := now + ttl } := by
  rcases h with h | ⟨e, h, hlt⟩
  · simp [MemoryStorage.Increment, h, Time.Add]
  · simp [MemoryStorage.Increment, h, Time.After, hlt, Time.Add]

theorem MemoryStorage.increment_live (m : MemoryStorage) (now : Time) (ctx : Context)
    (key : String) (ttl : Duration) (e : counterEntry) (h : m.counters key = some e)
    (hl : ¬ e.expiration < now) :
    (m.Increment now ctx key ttl).1.1 = e.count + 1 ∧
    (m.Increment now ctx key ttl).2.counters key =
      some { count := e.count + 1, expiration := e.expiration } := by
  simp [MemoryStorage.Increment, h, Time.After, hl]

theorem MemoryStorage.isBlocked_false_of_none (m : MemoryStorage) (now : Time)
    (ctx : Context) (key : String) (h : m.blocks key = none) :
    (m.IsBlocked now ctx key).1.1 = false := by
  simp [MemoryStorage.IsBlocked, h]

theorem MemoryStorage.isBlocked_false_of_lt (m : MemoryStorage) (now : Time)
    (ctx : Context) (key : String) (D : Time) (h : m.blocks key = some D) (hD : D < now) :
    (m.IsBlocked now ctx key).1.1 = false := by
  simp [MemoryStorage.IsBlocked, h, Time.After, hD]

theorem MemoryStorage.isBlocked_true_of_le (m : MemoryStorage) (now : Time)
    (ctx : Context) (key : String) (D : Time) (h : m.blocks key = some D) (hD : ¬ D < now) :
    (m.IsBlocked now ctx key).1 = (true, none) := by
  simp [MemoryStorage.IsBlocked, h, Time.After, hD]

theorem MemoryStorage.get_live (m : MemoryStorage) (now : Time) (ctx : Context)
    (key : String) (e : counterEntry) (h : m.counters key = some e)
    (hl : ¬ e.expiration < now) : (m.Get now ctx key).1 = (e.count, none) := by
  simp [MemoryStorage.Get, h, Time.After, hl]

theorem MemoryStorage.get_none (m : MemoryStorage) (now : Time) (ctx : Context)
    (key : String) (h : m.counters key = none) : (m.Get now ctx key).1 = (0, none) := by
  simp [MemoryStorage.Get, h]

/-- What `AllowRequest` does on the in-process store, by the three readings of
the clock it can make. -/
theorem memoryLimiter_allowRequest (ctx : Context) (key : String) (limit : Int)
    (d : Duration) (w : MemWorld) :
    memoryLimiter.AllowRequest ctx key limit d w =
      if (w.store.IsBlocked (w.clock w.reads) ctx key).1.1 = true then
        ((false, none), ⟨w.store, w.clock, w.reads + 1⟩)
      else if limit < (w.store.Increment (w.clock (w.reads + 1)) ctx key Second).1.1 then
        ((false, none),
          ⟨((w.store.Increment (w.clock (w.reads + 1)) ctx key Second).2.SetBlock
              (w.clock (w.reads + 2)) ctx key d).2, w.clock, w.reads + 3⟩)
      else
        ((true, none),
          ⟨(w.store.Increment (w.clock (w.reads + 1)) ctx key Second).2, w.clock,
            w.reads + 2⟩) := by
  simp only [memoryLimiter, NewRateLimiter, RateLimiter.AllowRequest, memoryBackend,
    MemWorld.now, MemWorld.advance, one_mul]
  rw [w.store.isBlocked_eq (w.clock w.reads) ctx key]
  cases hb : (w.store.IsBlocked (w.clock w.reads) ctx key).1.1
  · simp only [Bool.false_eq_true, if_false]
    rw [w.store.increment_eq (w.clock (w.reads + 1)) ctx key Second]
    by_cases hc : limit < (w.store.Increment (w.clock (w.reads + 1)) ctx key Second).1.1
    · simp [hc, MemoryStorage.SetBlock]
    · simp [hc]
  · simp

/-- A request on a key that is not blocked, whose increment stays within the
limit. -/
theorem memoryLimiter_allowed (ctx : Context) (key : String) (limit : Int) (d : Duration)
    (w : MemWorld) (hb : (w.store.IsBlocked (w.clock w.reads) ctx key).1.1 = false)
    (hc : (w.store.Increment (w.clock (w.reads + 1)) ctx key Second).1.1 ≤ limit) :
    memoryLimiter.AllowRequest ctx key limit d w =
      ((true, none),
        ⟨(w.store.Increment (w.clock (w.reads + 1)) ctx key Second).2, w.clock,
          w.reads + 2⟩) := by
  rw [memoryLimiter_allowRequest]
  simp [hb, not_lt.mpr hc]

/-- A request on a key that is not blocked, whose increment passes the limit. -/
theorem memoryLimiter_denied (ctx : Context) (key : String) (limit : Int) (d : Duration)
    (w : MemWorld) (hb : (w.store.IsBlocked (w.clock w.reads) ctx key).1.1 = false)
    (hc : limit < (w.store.Increment (w.clock (w.reads + 1)) ctx key Second).1.1) :
    memoryLimiter.AllowRequest ctx key limit d w =
      ((false, none),
        ⟨((w.store.Increment (w.clock (w.reads + 1)) ctx key Second).2.SetBlock
            (w.clock (w.reads + 2)) ctx key d).2, w.clock, w.reads + 3⟩) := by
  rw [memoryLimiter_allowRequest]
  simp [hb, hc]

/-- A request on a blocked key. -/
theorem memoryLimiter_blocked (ctx : Context) (key : String) (limit : Int) (d : Duration)
    (w : MemWorld) (hb : (w.store.IsBlocked (w.clock w.reads) ctx key).1.1 = true) :
    memoryLimiter.AllowRequest ctx key limit d w =
      ((false, none), ⟨w.store, w.clock, w.reads + 1⟩) := by
  rw [memoryLimiter_allowRequest]
  simp [hb]

/-- Requests on a key without block entry whose counter entry stays live and
within the limit: all are allowed, each adds one to the count and reads the
clock twice. -/
theorem allowTimes_live (ctx : Context) (key : String) (limit : Int) (d : Duration) :
    ∀ (n : Nat) (w : MemWorld) (e : counterEntry),
      w.store.blocks key = none → w.store.counters key = some e → e.count + n ≤ limit →
      (∀ j, j < n → w.clock (w.reads + 2 * j + 1) ≤ e.expiration) →
      (allowTimes memoryLimiter ctx key limit d n w).1 = List.replicate n (true, none) ∧
      (allowTimes memoryLimiter ctx key limit d n w).2.clock = w.clock ∧
      (allowTimes memoryLimiter ctx key limit d n w).2.reads = w.reads + 2 * n ∧
      (allowTimes memoryLimiter ctx key limit d n w).2.store.blocks key = none ∧
      (allowTimes memoryLimiter ctx key limit d n w).2.store.counters key =
        some { count := e.count + n, expiration := e.expiration } := by
  intro n
  induction n with
  | zero =>
    intro w e hb hc _ _
    simp [allowTimes, hb, hc]
  | succ n ih =>
    intro w e hb hc hle hclk
    have h0 := hclk 0 (Nat.succ_pos n)
    simp only [Nat.mul_zero, Nat.add_zero] at h0
    have hinc := w.store.increment_live (w.clock (w.reads + 1)) ctx key Second e hc
      (not_lt.mpr h0)
    have hstep := memoryLimiter_allowed ctx key limit d w
      (w.store.isBlocked_false_of_none _ ctx key hb)
      (by rw [hinc.1]; push_cast at hle; omega)
    have hb1 : (w.store.Increment (w.clock (w.reads + 1)) ctx key Second).2.blocks key
        = none := by rw [w.store.increment_blocks]; exact hb
    have := ih ⟨(w.store.Increment (w.clock (w.reads + 1)) ctx key Second).2, w.clock,
      w.reads + 2⟩ { count := e.count + 1, expiration := e.expiration } hb1 hinc.2
      (by push_cast at hle ⊢; omega)
      (by
        intro j hj
        have := hclk (j + 1) (Nat.succ_lt_succ hj)
        show w.clock (w.reads + 2 + 2 * j + 1) ≤ e.expiration
        rw [show w.reads + 2 + 2 * j + 1 = w.reads + 2 * (j + 1) + 1 by omega]
        exact this)
    dsimp only at this
    simp only [allowTimes, hstep]
    obtain ⟨r1, r2, r3, r4, r5⟩ := this
    refine ⟨?_, r2, ?_, r4, ?_⟩
    · rw [r1]; rfl
    · rw [r3]; omega
    · rw [r5]; congr 2; push_cast; ring

/-- Requests on a fresh key, within the limit and within one second of the
first increment: all are allowed and the count is their number. -/
theorem allowTimes_fresh (ctx : Context) (key : String) (limit : Int) (d : Duration)
    (n : Nat) (w : MemWorld) (hb : w.store.blocks key = none)
    (hc : w.store.counters key = none) (hn : (n : Int) ≤ limit)
    (hclk : ∀ j, j < n → w.clock (w.reads + 2 * j + 1) ≤ w.clock (w.reads + 1) + Second) :
    (allowTimes memoryLimiter ctx key limit d n w).1 = List.replicate n (true, none) ∧
    (allowTimes memoryLimiter ctx key limit d n w).2.clock = w.clock ∧
    (allowTimes memoryLimiter ctx key limit d n w).2.reads = w.reads + 2 * n ∧
    (allowTimes memoryLimiter ctx key limit d n w).2.store.blocks key = none ∧
    (allowTimes memoryLimiter ctx key limit d n w).2.store.counters key =
      if n = 0 then none
      else some { count := n, expiration := w.clock (w.reads + 1) + Second } := by
  cases n with
  | zero => simp [allowTimes, hb, hc]
  | succ n =>
    have hinc := w.store.increment_reset (w.clock (w.reads + 1)) ctx key Second (Or.inl hc)
    have hstep := memoryLimiter_allowed ctx key limit d w
      (w.store.isBlocked_false_of_none _ ctx key hb)
      (by rw [hinc.1]; push_cast at hn; omega)
    have hb1 : (w.store.Increment (w.clock (w.reads + 1)) ctx key Second).2.blocks key
        = none := by rw [w.store.increment_blocks]; exact hb
    have := allowTimes_live ctx key limit d n
      ⟨(w.store.Increment (w.clock (w.reads + 1)) ctx key Second).2, w.clock, w.reads + 2⟩
      { count := 1, expiration := w.clock (w.reads + 1) + Second } hb1 hinc.2
      (by push_cast at hn ⊢; omega)
      (by
        intro j hj
        have := hclk (j + 1) (Nat.succ_lt_succ hj)
        show w.clock (w.reads + 2 + 2 * j + 1) ≤ w.clock (w.reads + 1) + Second
        rw [show w.reads + 2 + 2 * j + 1 = w.reads + 2 * (j + 1) + 1 by omega]
        exact this)
    dsimp only at this
    simp only [allowTimes, hstep]
    obtain ⟨r1, r2, r3, r4, r5⟩ := this
    refine ⟨?_, r2, ?_, r4, ?_⟩
    · rw [r1]; rfl
    · rw [r3]; omega
    · rw [r5, if_neg (Nat.succ_ne_zero n)]; congr 2; push_cast; ring

/-! ## The operations of the shared store -/

/-- Whether a record is gone at `now` depends on its expiry only. -/
theorem RedisStorage.live_of_db (r : RedisStorage) (now : Int) (key : String)
    (rec : RedisRecord) (h : r.db key = some rec) :
    r.live now key =
      match rec.expireAt with
      | none => some rec
      | some e => if e < now then none else some rec := by
  simp only [RedisStorage.live, h]

theorem RedisStorage.live_eq_some (r : RedisStorage) (now : Int) (key : String)
    (rec : RedisRecord) (h : r.live now key = some rec) :
    r.db key = some rec ∧ ∀ e, rec.expireAt = some e → ¬ e < now := by
  unfold RedisStorage.live at h
  cases hdb : r.db key with
  | none => simp [hdb] at h
  | some rec1 =>
    rw [hdb] at h
    cases hex : rec1.expireAt with
    | none =>
      simp only [hex, Option.some.injEq] at h
      subst h
      exact ⟨rfl, fun e he => by simp [hex] at he⟩
    | some e1 =>
      simp only [hex] at h
      by_cases hlt : e1 < now
      · simp [hlt] at h
      · simp only [hlt, if_false, Option.some.injEq] at h
        subst h
        refine ⟨rfl, fun e he => ?_⟩
        rw [hex, Option.some.injEq] at he
        exact he ▸ hlt

/-- On a live counter, `RedisStorage.Increment` with a window of at least one
second returns the next count and sets the expiry anew, whatever it was. -/
theorem RedisStorage.increment_sets_expiry (r : RedisStorage) (now : Int) (ctx : Context)
    (key : String) (ttl : Duration) (rec : RedisRecord) (n : Int)
    (hlive : r.live now key = some rec) (hval : string2ll rec.value = some n)
    (hn : n ≠ 2 ^ 63 - 1) (httl : 0 < formatSec ttl) :
    (r.Increment now ctx key ttl).1 = (n + 1, none) ∧
    (r.Increment now ctx key ttl).2.db key =
      some ⟨toString (n + 1), some (now + formatSec ttl * 1000)⟩ := by
  obtain ⟨_, hexp⟩ := r.live_eq_some now key rec hlive
  have hincr : r.INCR now key = ((n + 1, none),
      { db := Function.update r.db key (some ⟨toString (n + 1), rec.expireAt⟩) }) := by
    simp only [RedisStorage.INCR, hlive, hval, if_neg hn]
  have hlive1 : (RedisStorage.mk (Function.update r.db key
      (some ⟨toString (n + 1), rec.expireAt⟩))).live now key =
        some ⟨toString (n + 1), rec.expireAt⟩ := by
    rw [RedisStorage.live_of_db _ now key ⟨toString (n + 1), rec.expireAt⟩ (by simp)]
    cases hex : rec.expireAt with
    | none => rfl
    | some e => simp [hexp e hex]
  have hpos : ¬ now + formatSec ttl * 1000 ≤ now := by
    have : 0 < formatSec ttl * 1000 := by positivity
    linarith
  simp only [RedisStorage.Increment, hincr, RedisStorage.EXPIRE, hlive1, if_neg hpos]
  simp [Option.orElse]

/-- The entries of another key after an `AllowRequest` on the in-process
store. -/
theorem memoryLimiter_allowRequest_other (ctx : Context) (k1 k2 : String) (h : k1 ≠ k2)
    (limit : Int) (d : Duration) (w : MemWorld) :
    (memoryLimiter.AllowRequest ctx k1 limit d w).2.store.counters k2 = w.store.counters k2 ∧
    (memoryLimiter.AllowRequest ctx k1 limit d w).2.store.blocks k2 = w.store.blocks k2 := by
  rw [memoryLimiter_allowRequest]
  split
  · exact ⟨rfl, rfl⟩
  · split
    · refine ⟨?_, ?_⟩
      · simp only [MemoryStorage.setBlock_counters]
        exact MemoryStorage.increment_other _ _ _ _ _ _ h
      · simp only [MemoryStorage.setBlock_other _ _ _ _ _ _ h,
          MemoryStorage.increment_blocks]
    · exact ⟨MemoryStorage.increment_other _ _ _ _ _ _ h,
        by simp only [MemoryStorage.increment_blocks]⟩

theorem MemoryStorage.get_store (m : MemoryStorage) (now : Time) (ctx : Context)
    (key : String) : (m.Get now ctx key).2 = m := by
  unfold MemoryStorage.Get
  split
  · rfl
  · split <;> rfl

theorem MemoryStorage.get_err (m : MemoryStorage) (now : Time) (ctx : Context)
    (key : String) : (m.Get now ctx key).1.2 = none := by
  unfold MemoryStorage.Get
  split
  · rfl
  · split <;> rfl

theorem MemoryStorage.get_expired (m : MemoryStorage) (now : Time) (ctx : Context)
    (key : String) (e : counterEntry) (h : m.counters key = some e)
    (hl : e.expiration < now) : (m.Get now ctx key).1 = (0, none) := by
  simp [MemoryStorage.Get, h, Time.After, hl]

/-- The outcome of `AllowRequest` on the in-process store, without the state. -/
theorem memoryLimiter_allowRequest_result (ctx : Context) (key : String) (limit : Int)
    (d : Duration) (w : MemWorld) :
    (memoryLimiter.AllowRequest ctx key limit d w).1 =
      if (w.store.IsBlocked (w.clock w.reads) ctx key).1.1 = true then (false, none)
      else if limit < (w.store.Increment (w.clock (w.reads + 1)) ctx key Second).1.1 then
        (false, none)
      else (true, none) := by
  rw [memoryLimiter_allowRequest]
  split
  · rfl
  · split <;> rfl

theorem MemoryStorage.cleanup_get (m : MemoryStorage) (t0 t : Time) (ht : t0 ≤ t)
    (ctx : Context) (key : String) :
    ((m.cleanup t0).Get t ctx key).1 = (m.Get t ctx key).1 := by
  cases hc : m.counters key with
  | none => simp [MemoryStorage.Get, MemoryStorage.cleanup, hc]
  | some e =>
    by_cases h0 : e.expiration < t0
    · have h1 : e.expiration < t := lt_of_lt_of_le h0 ht
      simp [MemoryStorage.Get, MemoryStorage.cleanup, hc, Time.After, h0, h1]
    · by_cases h1 : e.expiration < t <;>
        simp [MemoryStorage.Get, MemoryStorage.cleanup, hc, Time.After, h0, h1]

theorem MemoryStorage.cleanup_isBlocked (m : MemoryStorage) (t0 t : Time) (ht : t0 ≤ t)
    (ctx : Context) (key : String) :
    ((m.cleanup t0).IsBlocked t ctx key).1 = (m.IsBlocked t ctx key).1 := by
  cases hc : m.blocks key with
  | none => simp [MemoryStorage.IsBlocked, MemoryStorage.cleanup, hc]
  | some D =>
    by_cases h0 : D < t0
    · have h1 : D < t := lt_of_lt_of_le h0 ht
      simp [MemoryStorage.IsBlocked, MemoryStorage.cleanup, hc, Time.After, h0, h1]
    · by_cases h1 : D < t <;>
        simp [MemoryStorage.IsBlocked, MemoryStorage.cleanup, hc, Time.After, h0, h1]

theorem MemoryStorage.cleanup_increment (m : MemoryStorage) (t0 t : Time) (ht : t0 ≤ t)
    (ctx : Context) (key : String) (ttl : Duration) :
    ((m.cleanup t0).Increment t ctx key ttl).1 = (m.Increment t ctx key ttl).1 := by
  cases hc : m.counters key with
  | none => simp [MemoryStorage.Increment, MemoryStorage.cleanup, hc]
  | some e =>
    by_cases h0 : e.expiration < t0
    · have h1 : e.expiration < t := lt_of_lt_of_le h0 ht
      simp [MemoryStorage.Increment, MemoryStorage.cleanup, hc, Time.After, h0, h1]
    · by_cases h1 : e.expiration < t
      · simp [MemoryStorage.Increment, MemoryStorage.cleanup, hc, Time.After, h0, h1]
      · simp [MemoryStorage.Increment, MemoryStorage.cleanup, hc, Time.After, h0, h1]

/-! ## The bound on bursts -/

/-- The invariant bounds the count by twice the limit. -/
theorem burstInv_bound (L : Int) (a : Time) (entry : Option counterEntry) (now : Time)
    (cnt : Int) (hL : 0 ≤ L) (h : burstInv L a entry now cnt) : cnt ≤ 2 * L := by
  obtain ⟨_, _, hnone, hsome⟩ := h
  cases entry with
  | none => rw [hnone rfl]; linarith
  | some e =>
    obtain ⟨_, h1, h2, h3⟩ := hsome e rfl
    rcases lt_or_le (e.expiration - Second) a with hlt | hge
    · linarith [(h1 hlt).2]
    · rcases le_or_lt (e.expiration - Second) (a + Second) with hle | hgt
      · exact (h2 hge hle).2
      · exact h3 hgt

/-- The invariant survives a later reading of the clock. -/
theorem burstInv_later (L : Int) (a : Time) (entry : Option counterEntry) (now now1 : Time)
    (cnt : Int) (hle : now ≤ now1) (h : burstInv L a entry now cnt) :
    burstInv L a entry now1 cnt := by
  obtain ⟨h0, h1, hnone, hsome⟩ := h
  refine ⟨h0, fun hc => le_trans (h1 hc) hle, hnone, fun e he => ?_⟩
  obtain ⟨g0, g1, g2, g3⟩ := hsome e he
  exact ⟨le_trans g0 hle, g1, g2, g3⟩

/-- The invariant after the increment of a request that is not blocked: the
request counts when it is allowed and its increment falls in the interval. -/
theorem burstInv_increment (L : Int) (a : Time) (m : MemoryStorage) (ctx : Context)
    (key : String) (r0 t r2 : Time) (cnt : Int) (hL : 0 ≤ L) (h01 : r0 ≤ t) (h12 : t ≤ r2)
    (h : burstInv L a (m.counters key) r0 cnt) :
    burstInv L a ((m.Increment t ctx key Second).2.counters key) r2
      (cnt + if (m.Increment t ctx key Second).1.1 ≤ L ∧ a ≤ t ∧ t ≤ a + Second
        then 1 else 0) := by
  obtain ⟨h0, h1, hnone, hsome⟩ := h
  by_cases hr : m.counters key = none ∨ ∃ e, m.counters key = some e ∧ e.expiration < t
  · -- a new window starts at `t`
    obtain ⟨hc, he⟩ := m.increment_reset t ctx key Second hr
    rw [hc, he]
    have hold : cnt ≤ 2 * L ∧ (t ≤ a + Second → cnt ≤ L) ∧ (t < a → cnt = 0) := by
      rcases hr with hn | ⟨e, hs, hexp⟩
      · rw [hnone hn]
        exact ⟨by linarith, fun _ => hL, fun _ => rfl⟩
      · obtain ⟨g0, g1, g2, g3⟩ := hsome e hs
        refine ⟨burstInv_bound L a _ r0 cnt hL ⟨h0, h1, hnone, hsome⟩, fun hta => ?_,
          fun hta => ?_⟩
        · exact (g1 (by linarith)).2
        · by_contra hne
          have hpos : 0 < cnt := lt_of_le_of_ne h0 (Ne.symm hne)
          linarith [h1 hpos]
    obtain ⟨hb, hin, hz⟩ := hold
    refine ⟨?_, ?_, ?_, ?_⟩
    · split_ifs <;> linarith
    · intro hpos
      split_ifs at hpos with hif
      · linarith [hif.2.1]
      · linarith [h1 (by linarith)]
    · intro hcontra
      exact absurd hcontra (by simp)
    · intro e1 he1
      rw [Option.some.injEq] at he1
      subst he1
      simp only [add_sub_cancel_right]
      refine ⟨h12, fun hta => ?_, fun hat hta => ?_, fun hta => ?_⟩
      · rw [hz hta]
        rw [if_neg (by intro hc; linarith [hc.2.1])]
        exact ⟨by linarith, by linarith⟩
      · have := hin hta
        split_ifs with hif
        · exact ⟨by linarith, by linarith [hif.1]⟩
        · exact ⟨by linarith, by linarith⟩
      · rw [if_neg (by intro hc; linarith [hc.2.2])]
        linarith
  · -- the window of the entry goes on
    cases hs : m.counters key with
    | none => exact absurd (Or.inl hs) hr
    | some e =>
      have hl : ¬ e.expiration < t := fun hlt => hr (Or.inr ⟨e, hs, hlt⟩)
      obtain ⟨hc, he⟩ := m.increment_live t ctx key Second e hs hl
      obtain ⟨g0, g1, g2, g3⟩ := hsome e hs
      rw [hc, he]
      refine ⟨?_, ?_, ?_, ?_⟩
      · split_ifs <;> linarith
      · intro hpos
        split_ifs at hpos with hif
        · linarith [hif.2.1]
        · linarith [h1 (by linarith)]
      · intro hcontra
        exact absurd hcontra (by simp)
      · intro e1 he1
        rw [Option.some.injEq] at he1
        subst he1
        simp only
        refine ⟨by linarith, fun hsa => ?_, fun has hsa => ?_, fun hsa => ?_⟩
        · obtain ⟨q1, q2⟩ := g1 hsa
          split_ifs with hif
          · exact ⟨by linarith, by linarith [hif.1]⟩
          · exact ⟨by linarith, by linarith⟩
        · obtain ⟨q1, q2⟩ := g2 has hsa
          split_ifs with hif
          · exact ⟨by linarith, by linarith [hif.1]⟩
          · exact ⟨by linarith, by linarith⟩
        · rw [if_neg (by intro hc; linarith [hc.2.2])]
          linarith [g3 hsa]

theorem countWithinSecond_cons (a t : Time) (ts : List Time) :
    (countWithinSecond a (t :: ts) : Int) =
      (if a ≤ t ∧ t ≤ a + Second then 1 else 0) + (countWithinSecond a ts : Int) := by
  unfold countWithinSecond
  by_cases h : a ≤ t ∧ t ≤ a + Second
  · rw [List.filter_cons_of_pos (by simpa using h), if_pos h]
    simp only [List.length_cons]
    push_cast
    ring
  · rw [List.filter_cons_of_neg (by simpa using h), if_neg h]
    ring

/-- The invariant after one `AllowRequest` on the in-process store. -/
theorem burstInv_allowRequest (ctx : Context) (key : String) (L : Int) (d : Duration)
    (a : Time) (w : MemWorld) (cnt : Int) (hL : 0 ≤ L) (hmono : Monotone w.clock)
    (h : burstInv L a (w.store.counters key) (w.clock w.reads) cnt) :
    (memoryLimiter.AllowRequest ctx key L d w).2.clock = w.clock ∧
    burstInv L a ((memoryLimiter.AllowRequest ctx key L d w).2.store.counters key)
      ((memoryLimiter.AllowRequest ctx key L d w).2.clock
        (memoryLimiter.AllowRequest ctx key L d w).2.reads)
      (cnt + if (memoryLimiter.AllowRequest ctx key L d w).1.1 = true ∧
          a ≤ w.clock (w.reads + 1) ∧ w.clock (w.reads + 1) ≤ a + Second then 1 else 0) := by
  have h01 : w.clock w.reads ≤ w.clock (w.reads + 1) := hmono (Nat.le_succ _)
  have h12 : w.clock (w.reads + 1) ≤ w.clock (w.reads + 2) := hmono (Nat.le_succ _)
  have h13 : w.clock (w.reads + 1) ≤ w.clock (w.reads + 3) := hmono (by omega)
  rw [memoryLimiter_allowRequest]
  split
  · refine ⟨rfl, ?_⟩
    simp only [Bool.false_eq_true, false_and, if_false, add_zero]
    exact burstInv_later L a _ _ _ cnt h01 h
  · split
    · next hlt =>
      refine ⟨rfl, ?_⟩
      have := burstInv_increment L a w.store ctx key _ _ _ cnt hL h01 h13 h
      rw [if_neg (by intro hc; linarith [hc.1])] at this
      simpa only [Bool.false_eq_true, false_and, if_false, MemoryStorage.setBlock_counters]
        using this
    · next hlt =>
      refine ⟨rfl, ?_⟩
      have := burstInv_increment L a w.store ctx key _ _ _ cnt hL h01 h12 h
      simpa only [true_and, not_lt.mp hlt] using this

/-- The allowed calls of a run that fall within one second, added to those
the invariant accounts for, stay within twice the limit. -/
theorem countWithinSecond_allowedInstants (ctx : Context) (key : String) (L : Int)
    (d : Duration) (a : Time) (hL : 0 ≤ L) :
    ∀ (n : Nat) (w : MemWorld) (cnt : Int), Monotone w.clock →
      burstInv L a (w.store.counters key) (w.clock w.reads) cnt →
      cnt + (countWithinSecond a (allowedInstants ctx key L d n w) : Int) ≤ 2 * L := by
  intro n
  induction n with
  | zero =>
    intro w cnt _ h
    simpa [allowedInstants, countWithinSecond] using burstInv_bound L a _ _ cnt hL h
  | succ n ih =>
    intro w cnt hmono h
    obtain ⟨hclk, hinv⟩ := burstInv_allowRequest ctx key L d a w cnt hL hmono h
    have hmono1 : Monotone (memoryLimiter.AllowRequest ctx key L d w).2.clock := by
      rw [hclk]; exact hmono
    have := ih _ _ hmono1 hinv
    unfold allowedInstants
    by_cases hal : (memoryLimiter.AllowRequest ctx key L d w).1.1 = true
    · rw [if_pos hal, countWithinSecond_cons]
      simp only [hal, true_and] at this
      linarith
    · rw [if_neg hal]
      rw [if_neg (fun hc => hal hc.1), add_zero] at this
      exact this

/-! ## Keys and their prefixes -/

theorem string_append_left_cancel (s k1 k2 : String) (h : s ++ k1 = s ++ k2) : k1 = k2 := by
  have := congrArg String.data h
  simp only [String.data_append] at this
  exact String.ext (List.append_cancel_left this)

theorem block_key_ne_self (k : String) : "block:" ++ k ≠ k := by
  intro h
  have := congrArg String.length h
  simp only [String.length_append] at this
  have h6 : "block:".length = 6 := by decide
  omega

theorem token_key_ne_ip_key (t a : String) : "token:" ++ t ≠ "ip:" ++ a := by
  intro h
  have := congrArg String.data h
  simp [String.data_append] at this

theorem block_key_ne_token_key (k t : String) : "block:" ++ k ≠ "token:" ++ t := by
  intro h
  have := congrArg String.data h
  simp [String.data_append] at this

theorem block_key_ne_ip_key (k a : String) : "block:" ++ k ≠ "ip:" ++ a := by
  intro h
  have := congrArg String.data h
  simp [String.data_append] at this

/-! ## Frames of the shared store -/

theorem RedisStorage.live_congr (r r1 : RedisStorage) (now : Int) (key : String)
    (h : r1.db key = r.db key) : r1.live now key = r.live now key := by
  simp only [RedisStorage.live, h]

theorem RedisStorage.incr_other (r : RedisStorage) (now : Int) (key other : String)
    (h : key ≠ other) : (r.INCR now key).2.db other = r.db other := by
  unfold RedisStorage.INCR
  split
  · simp [Function.update_noteq (Ne.symm h)]
  · split
    · rfl
    · split
      · rfl
      · simp [Function.update_noteq (Ne.symm h)]

theorem RedisStorage.expire_other (r : RedisStorage) (now : Int) (key other : String)
    (seconds : Int) (h : key ≠ other) : (r.EXPIRE now key seconds).2.db other = r.db other := by
  unfold RedisStorage.EXPIRE
  split
  · rfl
  · split <;> simp [Function.update_noteq (Ne.symm h)]

theorem RedisStorage.set_other (r : RedisStorage) (now : Int) (key value other : String)
    (opt : SetExpiry) (h : key ≠ other) : (r.SET now key value opt).2.db other = r.db other := by
  simp [RedisStorage.SET, Function.update_noteq (Ne.symm h)]

/-- `RedisStorage.Increment` writes the record of its key and no other. -/
theorem RedisStorage.increment_db_other (r : RedisStorage) (now : Int) (ctx : Context)
    (key other : String) (ttl : Duration) (h : key ≠ other) :
    (r.Increment now ctx key ttl).2.db other = r.db other := by
  have h1 : ((r.INCR now key).2.EXPIRE now key (formatSec ttl)).2.db other = r.db other := by
    rw [RedisStorage.expire_other _ _ _ _ _ h, RedisStorage.incr_other _ _ _ _ h]
  unfold RedisStorage.Increment
  simp only
  split <;> exact h1

/-- `RedisStorage.SetBlock` writes the record under `block:` and the key, and
no other. -/
theorem RedisStorage.setBlock_db_other (r : RedisStorage) (now : Int) (ctx : Context)
    (key other : String) (d : Duration) (h : "block:" ++ key ≠ other) :
    (r.SetBlock now ctx key d).2.db other = r.db other := by
  have h1 := r.set_other now ("block:" ++ key) "1" other (setExpiryOf d) h
  unfold RedisStorage.SetBlock
  simp only
  split
  · next heq => rw [← h1, heq]
  · next heq => rw [← h1, heq]

/-- `RedisStorage.Get` reads the record of its key only. -/
theorem RedisStorage.get_of_same_record (r r1 : RedisStorage) (now : Int) (ctx ctx1 : Context)
    (key : String) (h : r1.db key = r.db key) :
    (r1.Get now ctx1 key).1 = (r.Get now ctx key).1 := by
  have hl := RedisStorage.live_congr r r1 now key h
  unfold RedisStorage.Get RedisStorage.GET
  rw [hl]
  cases r.live now key with
  | none => simp only; split <;> rfl
  | some rec => simp only; split <;> rfl

/-- `RedisStorage.IsBlocked` reads the record under `block:` and the key only. -/
theorem RedisStorage.isBlocked_of_same_record (r r1 : RedisStorage) (now : Int) (ctx ctx1 : Context)
    (key : String) (h : r1.db ("block:" ++ key) = r.db ("block:" ++ key)) :
    (r1.IsBlocked now ctx1 key).1 = (r.IsBlocked now ctx key).1 := by
  have hl := RedisStorage.live_congr r r1 now ("block:" ++ key) h
  unfold RedisStorage.IsBlocked RedisStorage.GET
  simp only
  rw [hl]
  cases r.live now ("block:" ++ key) with
  | none => simp only; split <;> rfl
  | some rec => rfl

/-! ## The HTTP layer -/

/-- The key of a request is `token:` and a token, or `ip:` and an address. -/
theorem requestPolicy_key (lib : NetLib) (cfg : Config) (r : Request) :
    (requestPolicy lib cfg r).1 = "token:" ++ r.Header "API_KEY" ∨
    (requestPolicy lib cfg r).1 = "ip:" ++ getClientIP lib r := by
  unfold requestPolicy
  simp only
  split
  · split <;> exact Or.inl rfl
  · exact Or.inr rfl

/-- No key of a request is `block:` followed by a key of a request. -/
theorem requestPolicy_key_ne_block (lib lib1 : NetLib) (cfg cfg1 : Config) (r r1 : Request) :
    (requestPolicy lib cfg r).1 ≠ "block:" ++ (requestPolicy lib1 cfg1 r1).1 := by
  rcases requestPolicy_key lib cfg r with h | h <;> rw [h]
  · exact Ne.symm (block_key_ne_token_key _ _)
  · exact Ne.symm (block_key_ne_ip_key _ _)

/-- A number of seconds between -9223372036 and 9223372036 is a
`time.Duration`: the product with `time.Second` does not wrap. -/
theorem mulDuration_second (b : Int) (h1 : -9223372036 ≤ b) (h2 : b ≤ 9223372036) :
    mulDuration b Second = b * Second := by
  unfold mulDuration wrapInt64 Second
  have h : ((b : Int) * 1000000000 + 9223372036854775808) % 18446744073709551616 =
      b * 1000000000 + 9223372036854775808 :=
    Int.emod_eq_of_lt (by linarith) (by linarith)
  rw [h]
  ring

/-- The product of two durations is a 64-bit integer that differs from the
exact product by a multiple of `2^64`. -/
theorem mulDuration_wraps (a b : Duration) :
    -9223372036854775808 ≤ mulDuration a b ∧ mulDuration a b ≤ 9223372036854775807 ∧
    (18446744073709551616 : Int) ∣ a * b - mulDuration a b := by
  unfold mulDuration wrapInt64
  generalize (a * b : Int) = y
  refine ⟨?_, ?_, ?_⟩
  · have := Int.emod_nonneg (y + 9223372036854775808)
      (show (18446744073709551616 : Int) ≠ 0 by decide)
    linarith
  · have := Int.emod_lt_of_pos (y + 9223372036854775808)
      (show (0 : Int) < 18446744073709551616 by decide)
    linarith
  · have h := Int.emod_add_ediv (y + 9223372036854775808) 18446744073709551616
    exact ⟨(y + 9223372036854775808) / 18446744073709551616, by linarith⟩

/-! ## Increments one after the other -/

/-- Increments of a live entry, none after its expiration, count on from its
count. -/
theorem incrementAt_live (ctx : Context) (key : String) (ttl : Duration) :
    ∀ (ts : List Time) (m : MemoryStorage) (e : counterEntry), m.counters key = some e →
      (∀ t ∈ ts, t ≤ e.expiration) →
      (incrementAt ctx key ttl ts m).1 =
        (List.range' 1 ts.length).map (fun (i : Nat) => e.count + (i : Int)) ∧
      (incrementAt ctx key ttl ts m).2.counters key =
        some { count := e.count + ts.length, expiration := e.expiration } := by
  intro ts
  induction ts with
  | nil =>
    intro m e he _
    simp [incrementAt, he]
  | cons t ts ih =>
    intro m e he hts
    obtain ⟨h1, h2⟩ := m.increment_live t ctx key ttl e he
      (not_lt.mpr (hts t (List.mem_cons_self t ts)))
    obtain ⟨r1, r2⟩ := ih (m.Increment t ctx key ttl).2 _ h2
      (fun u hu => hts u (List.mem_cons_of_mem t hu))
    simp only [incrementAt, h1, r1, r2, List.length_cons, List.range'_succ, List.map_cons]
    refine ⟨?_, ?_⟩
    · congr 1
      have hr : List.range' 2 ts.length = (List.range' 1 ts.length).map (1 + ·) :=
        (List.map_add_range' 1 1 ts.length 1).symm
      rw [hr, List.map_map]
      apply List.map_congr_left
      intro i _
      simp only [Function.comp]
      push_cast
      ring
    · congr 2
      push_cast
      ring

/-- On a key without counter entry, `N` increments one after the other, none
after the expiration the first one sets, return 1, 2, ..., `N` in order, and
`Get` read before that expiration returns `N`. -/
theorem incrementAt_fresh (ctx : Context) (key : String) (ttl : Duration) (t0 : Time)
    (ts : List Time) (m : MemoryStorage) (hc : m.counters key = none)
    (hts : ∀ t ∈ ts, t ≤ t0 + ttl) :
    (incrementAt ctx key ttl (t0 :: ts) m).1 =
      (List.range' 1 (ts.length + 1)).map (fun (i : Nat) => (i : Int)) ∧
    ∀ t1 c1, t1 ≤ t0 + ttl →
      ((incrementAt ctx key ttl (t0 :: ts) m).2.Get t1 c1 key).1 =
        (((ts.length + 1 : Nat) : Int), none) := by
  obtain ⟨h1, h2⟩ := m.increment_reset t0 ctx key ttl (Or.inl hc)
  obtain ⟨r1, r2⟩ := incrementAt_live ctx key ttl ts (m.Increment t0 ctx key ttl).2 _ h2 hts
  refine ⟨?_, fun t1 c1 ht1 => ?_⟩
  · simp only [incrementAt, h1, r1, List.range'_succ, List.map_cons]
    congr 1
    have hr : List.range' 2 ts.length = (List.range' 1 ts.length).map (1 + ·) :=
      (List.map_add_range' 1 1 ts.length 1).symm
    rw [hr, List.map_map]
    apply List.map_congr_left
    intro i _
    simp only [Function.comp]
    push_cast
    ring
  · simp only [incrementAt]
    rw [MemoryStorage.get_live _ t1 c1 key _ r2 (not_lt.mpr ht1)]
    congr 1
    push_cast
    ring

/-! ## Denials and blocks -/

/-- After a denied request on the in-process store the key is blocked at every
instant that is neither after the first reading of the call, when the call
found the key blocked, nor after the deadline `SetBlock` wrote otherwise. -/
theorem memoryLimiter_denied_blocked (ctx c1 : Context) (key : String) (limit : Int)
    (d : Duration) (w : MemWorld)
    (hden : (memoryLimiter.AllowRequest ctx key limit d w).1.1 = false) (t1 : Time)
    (h1 : (w.store.IsBlocked (w.clock w.reads) ctx key).1.1 = true → t1 ≤ w.clock w.reads)
    (h2 : (w.store.IsBlocked (w.clock w.reads) ctx key).1.1 = false →
      t1 ≤ w.clock (w.reads + 2) + d) :
    ((memoryLimiter.AllowRequest ctx key limit d w).2.store.IsBlocked t1 c1 key).1 =
      (true, none) := by
  rw [memoryLimiter_allowRequest] at hden ⊢
  by_cases hb : (w.store.IsBlocked (w.clock w.reads) ctx key).1.1 = true
  · rw [if_pos hb]
    obtain ⟨D, hD, hle⟩ := (w.store.isBlocked_iff _ ctx key).1 hb
    exact w.store.isBlocked_true_of_le t1 c1 key D hD (not_lt.mpr (le_trans (h1 hb) hle))
  · rw [if_neg hb] at hden ⊢
    by_cases hc : limit < (w.store.Increment (w.clock (w.reads + 1)) ctx key Second).1.1
    · rw [if_pos hc]
      refine MemoryStorage.isBlocked_true_of_le _ t1 c1 key (w.clock (w.reads + 2) + d)
        (by simp [MemoryStorage.SetBlock, Time.Add]) (not_lt.mpr (h2 ?_))
      simpa using hb
    · rw [if_neg hc] at hden
      simp at hden

/-- One request under the invariant of a key over its limit: the invariant
goes on, and the request is allowed only when its first reading is after the
block deadline and its increment after the end of the window. -/
theorem overLimitInv_allowRequest (ctx : Context) (key : String) (limit : Int) (D1 : Time)
    (d : Duration) (E : Time) (w : MemWorld) (hmono : Monotone w.clock)
    (h : overLimitInv key limit D1 d E w) :
    (memoryLimiter.AllowRequest ctx key limit d w).2.clock = w.clock ∧
    overLimitInv key limit D1 d E (memoryLimiter.AllowRequest ctx key limit d w).2 ∧
    ((memoryLimiter.AllowRequest ctx key limit d w).1.1 = true →
      D1 < w.clock w.reads ∧ E < w.clock (w.reads + 1)) := by
  obtain ⟨⟨Dc, hDc, hD1⟩, hset, hcnt⟩ := h
  have h01 : w.clock w.reads ≤ w.clock (w.reads + 1) := hmono (Nat.le_succ _)
  have h02 : w.clock w.reads ≤ w.clock (w.reads + 2) := hmono (by omega)
  have h03 : w.clock w.reads ≤ w.clock (w.reads + 3) := hmono (by omega)
  have h12 : w.clock (w.reads + 1) ≤ w.clock (w.reads + 2) := hmono (by omega)
  have h13 : w.clock (w.reads + 1) ≤ w.clock (w.reads + 3) := hmono (by omega)
  by_cases hb : (w.store.IsBlocked (w.clock w.reads) ctx key).1.1 = true
  · rw [memoryLimiter_blocked ctx key limit d w hb]
    refine ⟨rfl, ⟨⟨Dc, hDc, hD1⟩, le_trans hset h01, ?_⟩, fun hf => by simp at hf⟩
    rcases hcnt with hc | hc
    · exact Or.inl hc
    · exact Or.inr (lt_of_lt_of_le hc h01)
  · have hb1 : (w.store.IsBlocked (w.clock w.reads) ctx key).1.1 = false := by simpa using hb
    have hDlt : Dc < w.clock w.reads := by
      by_contra hge
      exact hb ((w.store.isBlocked_iff _ ctx key).2 ⟨Dc, hDc, not_lt.mp hge⟩)
    have hblk : (w.store.Increment (w.clock (w.reads + 1)) ctx key Second).2.blocks key =
        some Dc := by rw [w.store.increment_blocks]; exact hDc
    have hnew : ∀ m : MemoryStorage,
        ∃ Dn, (m.SetBlock (w.clock (w.reads + 2)) ctx key d).2.blocks key = some Dn ∧
          D1 ≤ Dn :=
      fun m => ⟨w.clock (w.reads + 2) + d, by simp [MemoryStorage.SetBlock, Time.Add],
        by linarith⟩
    by_cases hlive : (∃ e, w.store.counters key = some e ∧ e.expiration = E ∧
        limit < e.count) ∧ ¬ E < w.clock (w.reads + 1)
    · obtain ⟨⟨e, he, hE, hlt⟩, hnot⟩ := hlive
      obtain ⟨q1, q2⟩ := w.store.increment_live (w.clock (w.reads + 1)) ctx key Second e he
        (by rw [hE]; exact hnot)
      have hc : limit < (w.store.Increment (w.clock (w.reads + 1)) ctx key Second).1.1 := by
        rw [q1]; linarith
      rw [memoryLimiter_denied ctx key limit d w hb1 hc]
      refine ⟨rfl, ⟨hnew _, le_trans hset h03,
        Or.inl ⟨{ count := e.count + 1, expiration := e.expiration }, ?_, hE, ?_⟩⟩,
        fun hf => by simp at hf⟩
      · rw [MemoryStorage.setBlock_counters]; exact q2
      · show limit < e.count + 1
        linarith
    · have hpast : E < w.clock (w.reads + 1) := by
        rcases hcnt with hc | hc
        · by_contra hnot
          exact hlive ⟨hc, hnot⟩
        · exact lt_of_lt_of_le hc h01
      by_cases hc : limit < (w.store.Increment (w.clock (w.reads + 1)) ctx key Second).1.1
      · rw [memoryLimiter_denied ctx key limit d w hb1 hc]
        exact ⟨rfl, ⟨hnew _, le_trans hset h03, Or.inr (lt_of_lt_of_le hpast h13)⟩,
          fun hf => by simp at hf⟩
      · rw [memoryLimiter_allowed ctx key limit d w hb1 (not_lt.mp hc)]
        exact ⟨rfl, ⟨⟨Dc, hblk, hD1⟩, le_trans hset h02, Or.inr (lt_of_lt_of_le hpast h12)⟩,
          fun _ => ⟨lt_of_le_of_lt hD1 hDlt, hpast⟩⟩

/-- Under the invariant of a key over its limit, every allowed request of a run
comes after the block deadline and increments after the end of the window. -/
theorem overLimitInv_callLog (ctx : Context) (key : String) (limit : Int) (D1 : Time)
    (d : Duration) (E : Time) :
    ∀ (n : Nat) (w : MemWorld), Monotone w.clock → overLimitInv key limit D1 d E w →
      ∀ i, (true, i) ∈ callLog ctx key limit d n w →
        D1 < w.clock i ∧ E < w.clock (i + 1) := by
  intro n
  induction n with
  | zero =>
    intro w _ _ i hi
    simp [callLog] at hi
  | succ n ih =>
    intro w hmono h i hi
    obtain ⟨hclk, hinv, hal⟩ := overLimitInv_allowRequest ctx key limit D1 d E w hmono h
    simp only [callLog, List.mem_cons, Prod.mk.injEq] at hi
    rcases hi with ⟨hb, hidx⟩ | hi
    · rw [hidx]
      exact hal hb.symm
    · have := ih _ (by rw [hclk]; exact hmono) hinv i hi
      rwa [hclk] at this

/-! ## The bound on one window -/

theorem second_pos : (0 : Int) < Second := by decide

/-- The window invariant after the increment of a request that is not blocked:
the request counts when it is allowed and the entry it hit expires at `E`. -/
theorem windowInv_increment (L : Int) (E : Time) (m : MemoryStorage) (ctx : Context)
    (key : String) (t : Time) (cnt : Int) (h : windowInv L E (m.counters key) cnt) :
    ∃ e1, (m.Increment t ctx key Second).2.counters key = some e1 ∧
      windowInv L E (some e1)
        (cnt + if (m.Increment t ctx key Second).1.1 ≤ L ∧ e1.expiration = E
          then 1 else 0) := by
  obtain ⟨h0, hmax, hnone, hsome⟩ := h
  have hsec := second_pos
  by_cases hr : m.counters key = none ∨ ∃ e, m.counters key = some e ∧ e.expiration < t
  · obtain ⟨hc, he⟩ := m.increment_reset t ctx key Second hr
    refine ⟨_, he, ?_⟩
    rw [hc]
    have hzero : t + Second ≤ E → cnt = 0 := by
      intro hle
      rcases hr with hn | ⟨e, hs, hexp⟩
      · exact hnone hn
      · exact (hsome e hs).2.1 (by linarith)
    refine ⟨?_, ?_, fun hcontra => by simp at hcontra, ?_⟩
    · split_ifs <;> linarith
    · split_ifs with hif
      · rw [hzero (le_of_eq hif.2)]
        exact le_trans (by linarith [hif.1]) (le_max_left L 0)
      · linarith
    · intro e1 he1
      rw [Option.some.injEq] at he1
      subst he1
      refine ⟨by simp only; linarith, fun hlt => ?_, fun heq => ?_⟩
      · rw [if_neg (fun hc1 => by linarith [hc1.2, hlt]), hzero (le_of_lt hlt)]
        rfl
      · rw [hzero (le_of_eq heq)]
        split_ifs <;> simp
  · cases hs : m.counters key with
    | none => exact absurd (Or.inl hs) hr
    | some e =>
      have hl : ¬ e.expiration < t := fun hlt => hr (Or.inr ⟨e, hs, hlt⟩)
      obtain ⟨hc, he⟩ := m.increment_live t ctx key Second e hs hl
      obtain ⟨g0, g1, g2⟩ := hsome e hs
      refine ⟨_, he, ?_⟩
      rw [hc]
      refine ⟨?_, ?_, fun hcontra => by simp at hcontra, ?_⟩
      · split_ifs <;> linarith
      · split_ifs with hif
        · exact le_trans (by linarith [hif.1, g2 hif.2]) (le_max_left L 0)
        · linarith
      · intro e1 he1
        rw [Option.some.injEq] at he1
        subst he1
        refine ⟨by simp only; linarith, fun hlt => ?_, fun heq => ?_⟩
        · rw [if_neg (fun hc1 => by linarith [hc1.2, hlt]), g1 hlt]
          rfl
        · have := g2 heq
          split_ifs <;> simp only <;> linarith

/-- The window invariant after one `AllowRequest` on the in-process store, with
the count of the calls that hit the entry expiring at `E` carried over. -/
theorem windowInv_allowRequest (ctx : Context) (key : String) (L : Int) (d : Duration)
    (E : Time) (w : MemWorld) (cnt : Int) (rest : List Time)
    (h : windowInv L E (w.store.counters key) cnt) :
    ∃ cnt1, windowInv L E ((memoryLimiter.AllowRequest ctx key L d w).2.store.counters key)
        cnt1 ∧
      cnt + ((match (memoryLimiter.AllowRequest ctx key L d w).1.1,
          (memoryLimiter.AllowRequest ctx key L d w).2.store.counters key with
        | true, some e => e.expiration :: rest
        | _, _ => rest).count E : Int) = cnt1 + (rest.count E : Int) := by
  by_cases hb : (w.store.IsBlocked (w.clock w.reads) ctx key).1.1 = true
  · rw [memoryLimiter_blocked ctx key L d w hb]
    exact ⟨cnt, h, rfl⟩
  · have hb1 : (w.store.IsBlocked (w.clock w.reads) ctx key).1.1 = false := by simpa using hb
    obtain ⟨e1, he1, hinv⟩ := windowInv_increment L E w.store ctx key (w.clock (w.reads + 1))
      cnt h
    by_cases hc : L < (w.store.Increment (w.clock (w.reads + 1)) ctx key Second).1.1
    · rw [memoryLimiter_denied ctx key L d w hb1 hc]
      rw [if_neg (fun hc1 => by linarith [hc1.1]), add_zero] at hinv
      refine ⟨cnt, ?_, rfl⟩
      show windowInv L E ((MemoryStorage.SetBlock _ _ ctx key d).2.counters key) cnt
      rw [MemoryStorage.setBlock_counters, he1]
      exact hinv
    · rw [memoryLimiter_allowed ctx key L d w hb1 (not_lt.mp hc)]
      refine ⟨_, by simpa only [he1] using hinv, ?_⟩
      simp only [he1, not_lt.mp hc, true_and]
      by_cases hE : e1.expiration = E
      · rw [if_pos hE, hE, List.count_cons_self]
        push_cast
        ring
      · rw [if_neg hE, List.count_cons_of_ne (fun heq => hE heq.symm)]
        ring

/-- The allowed calls of a run that hit the entry expiring at `E`, added to
those the invariant accounts for, stay within the limit. -/
theorem windowInv_allowedWindows (ctx : Context) (key : String) (L : Int) (d : Duration)
    (E : Time) :
    ∀ (n : Nat) (w : MemWorld) (cnt : Int), windowInv L E (w.store.counters key) cnt →
      cnt + ((allowedWindows ctx key L d n w).count E : Int) ≤ max L 0 := by
  intro n
  induction n with
  | zero =>
    intro w cnt h
    simpa [allowedWindows] using h.2.1
  | succ n ih =>
    intro w cnt h
    obtain ⟨cnt1, hinv, heq⟩ := windowInv_allowRequest ctx key L d E w cnt
      (allowedWindows ctx key L d n (memoryLimiter.AllowRequest ctx key L d w).2) h
    have := ih _ cnt1 hinv
    unfold allowedWindows
    rw [heq]
    exact this

/-- With a limit of zero or less and counts that are not negative, no request
of a run is allowed. -/
theorem allowTimes_nonpositive_limit (ctx : Context) (key : String) (L : Int) (d : Duration)
    (hL : L ≤ 0) :
    ∀ (n : Nat) (w : MemWorld), (∀ e, w.store.counters key = some e → 0 ≤ e.count) →
      ∀ r ∈ (allowTimes memoryLimiter ctx key L d n w).1, r = (false, none) := by
  intro n
  induction n with
  | zero =>
    intro w _ r hr
    simp [allowTimes] at hr
  | succ n ih =>
    intro w h0 r hr
    have hcount : L < (w.store.Increment (w.clock (w.reads + 1)) ctx key Second).1.1 ∧
        ∀ e, (w.store.Increment (w.clock (w.reads + 1)) ctx key Second).2.counters key =
          some e → 0 ≤ e.count := by
      by_cases hr1 : w.store.counters key = none ∨
          ∃ e, w.store.counters key = some e ∧ e.expiration < w.clock (w.reads + 1)
      · obtain ⟨q1, q2⟩ := w.store.increment_reset (w.clock (w.reads + 1)) ctx key Second hr1
        rw [q1, q2]
        refine ⟨by linarith, fun e he => ?_⟩
        rw [Option.some.injEq] at he
        subst he
        simp
      · cases hs : w.store.counters key with
        | none => exact absurd (Or.inl hs) hr1
        | some e0 =>
          obtain ⟨q1, q2⟩ := w.store.increment_live (w.clock (w.reads + 1)) ctx key Second e0
            hs (fun hlt => hr1 (Or.inr ⟨e0, hs, hlt⟩))
          have := h0 e0 hs
          rw [q1, q2]
          refine ⟨by linarith, fun e he => ?_⟩
          rw [Option.some.injEq] at he
          subst he
          simp only
          linarith
    have hstep : (memoryLimiter.AllowRequest ctx key L d w).1 = (false, none) ∧
        ∀ e, (memoryLimiter.AllowRequest ctx key L d w).2.store.counters key = some e →
          0 ≤ e.count := by
      by_cases hb : (w.store.IsBlocked (w.clock w.reads) ctx key).1.1 = true
      · rw [memoryLimiter_blocked ctx key L d w hb]
        exact ⟨rfl, h0⟩
      · rw [memoryLimiter_denied ctx key L d w (by simpa using hb) hcount.1]
        exact ⟨rfl, hcount.2⟩
    simp only [allowTimes, List.mem_cons] at hr
    rcases hr with hr | hr
    · rw [hr, hstep.1]
    · exact ih _ hstep.2 r hr

/-! ## Loading the configuration -/

theorem splitAtSeparator (sep : Char) (l r : List Char) (h : ∀ c ∈ l, c ≠ sep) :
    (l ++ sep :: r).dropWhile (fun c => decide (c ≠ sep)) = sep :: r ∧
    (l ++ sep :: r).takeWhile (fun c => decide (c ≠ sep)) = l := by
  induction l with
  | nil => simp [List.dropWhile, List.takeWhile]
  | cons c l ih =>
    have hc : c ≠ sep := h c (List.mem_cons_self c l)
    have hih := ih (fun x hx => h x (List.mem_cons_of_mem c hx))
    simpa [List.dropWhile, List.takeWhile, hc] using hih

/-- A string `name=value` of the environment splits into its name and its
value. -/
theorem splitN_entry (k v : String) (h : '=' ∉ k.data) :
    SplitN (k ++ "=" ++ v) '=' = [k, v] := by
  have hdata : (k ++ "=" ++ v).data = k.data ++ '=' :: v.data := by
    simp [String.data_append]
  obtain ⟨h1, h2⟩ := splitAtSeparator '=' k.data v.data (fun c hc heq => h (heq ▸ hc))
  unfold SplitN
  rw [hdata]
  simp only [h1, h2]

theorem hasPrefix_append (p t : String) : HasPrefix (p ++ t) p = true := by
  simp [HasPrefix, String.data_append]

theorem trimPrefix_append (p t : String) : TrimPrefix (p ++ t) p = t := by
  simp [TrimPrefix, hasPrefix_append, String.data_append]

theorem eq_append_trimPrefix (s p : String) (h : HasPrefix s p = true) :
    s = p ++ TrimPrefix s p := by
  have hp : p.data <+: s.data := List.isPrefixOf_iff_prefix.mp h
  obtain ⟨t, ht⟩ := hp
  apply String.ext
  simp only [TrimPrefix, h, if_true, String.data_append]
  rw [← ht]
  simp

/-- Two names with the prefix that trim to the same string are the same. -/
theorem trimPrefix_injective (a b p : String) (ha : HasPrefix a p = true)
    (hb : HasPrefix b p = true) (h : TrimPrefix a p = TrimPrefix b p) : a = b := by
  rw [eq_append_trimPrefix a p ha, eq_append_trimPrefix b p hb, h]

theorem isTokenName_hasPrefix (key : String) (h : isTokenName key = true) :
    HasPrefix key "TOKEN_" = true := by
  simp only [isTokenName, Bool.and_eq_true] at h
  exact h.1.1

theorem mem_mapAssign (m : List (String × String)) (key value : String) (kv : String × String) :
    kv ∈ mapAssign m key value ↔ kv = (key, value) ∨ (kv ∈ m ∧ kv.1 ≠ key) := by
  simp [mapAssign]

/-- The first loop on the string of one variable whose name holds no `=`. -/
theorem tokenStep_entry (tokens : List (String × String)) (k v : String) (h : '=' ∉ k.data) :
    tokenStep tokens (k ++ "=" ++ v) =
      if isTokenName k then mapAssign tokens (TrimPrefix k "TOKEN_") v else tokens := by
  simp only [tokenStep, splitN_entry k v h]

/-- The entries of the map `tokens` after the first loop over the variables
`l`, started with the entries `acc`: those of `acc`, and for each variable
taken for a token its trimmed name and its value.  The names of the variables
are distinct and hold no `=`, and no trimmed name is a key of `acc`. -/
theorem mem_foldl_tokenStep :
    ∀ (l acc : List (String × String)), (l.map Prod.fst).Nodup →
      (∀ kv ∈ l, '=' ∉ kv.1.data) →
      (∀ kv ∈ l, isTokenName kv.1 = true → ∀ v1, (TrimPrefix kv.1 "TOKEN_", v1) ∉ acc) →
      ∀ n v, (n, v) ∈ (l.map fun kv => kv.1 ++ "=" ++ kv.2).foldl tokenStep acc ↔
        ((n, v) ∈ acc ∨
          ∃ name, (name, v) ∈ l ∧ isTokenName name = true ∧ n = TrimPrefix name "TOKEN_") := by
  intro l
  induction l with
  | nil =>
    intro acc _ _ _ n v
    simp
  | cons kv0 l ih =>
    obtain ⟨k, v0⟩ := kv0
    intro acc hnd heq hacc n v
    have hk : k ∉ l.map Prod.fst := (List.nodup_cons.mp hnd).1
    have hnd1 : (l.map Prod.fst).Nodup := (List.nodup_cons.mp hnd).2
    have heq1 : ∀ kv ∈ l, '=' ∉ kv.1.data := fun kv h => heq kv (List.mem_cons_of_mem _ h)
    simp only [List.map_cons, List.foldl_cons]
    rw [tokenStep_entry acc k v0 (heq (k, v0) (List.mem_cons_self _ _))]
    by_cases ht : isTokenName k = true
    · rw [if_pos ht]
      have hacc1 : ∀ kv ∈ l, isTokenName kv.1 = true →
          ∀ v1, (TrimPrefix kv.1 "TOKEN_", v1) ∉ mapAssign acc (TrimPrefix k "TOKEN_") v0 := by
        intro kv hkv hkt v1 hmem
        rcases (mem_mapAssign _ _ _ _).1 hmem with h1 | h1
        · have hname : kv.1 = k := trimPrefix_injective kv.1 k "TOKEN_"
            (isTokenName_hasPrefix _ hkt) (isTokenName_hasPrefix _ ht)
            (congrArg Prod.fst h1)
          exact hk (hname ▸ List.mem_map_of_mem Prod.fst hkv)
        · exact hacc kv (List.mem_cons_of_mem _ hkv) hkt v1 h1.1
      rw [ih _ hnd1 heq1 hacc1 n v, mem_mapAssign]
      constructor
      · rintro ((h1 | h1) | ⟨name, h1, h2, h3⟩)
        · rw [Prod.mk.injEq] at h1
          exact Or.inr ⟨k, by rw [h1.2]; exact List.mem_cons_self _ _, ht, h1.1⟩
        · exact Or.inl h1.1
        · exact Or.inr ⟨name, List.mem_cons_of_mem _ h1, h2, h3⟩
      · rintro (h1 | ⟨name, h1, h2, h3⟩)
        · refine Or.inl (Or.inr ⟨h1, fun hn => ?_⟩)
          exact hacc (k, v0) (List.mem_cons_self _ _) ht v (by simpa only [← hn] using h1)
        · rcases List.mem_cons.mp h1 with h1 | h1
          · rw [Prod.mk.injEq] at h1
            exact Or.inl (Or.inl (by rw [h3, h1.1, h1.2]))
          · exact Or.inr ⟨name, h1, h2, h3⟩
    · rw [if_neg ht]
      rw [ih acc hnd1 heq1 (fun kv hkv => hacc kv (List.mem_cons_of_mem _ hkv)) n v]
      constructor
      · rintro (h1 | ⟨name, h1, h2, h3⟩)
        · exact Or.inl h1
        · exact Or.inr ⟨name, List.mem_cons_of_mem _ h1, h2, h3⟩
      · rintro (h1 | ⟨name, h1, h2, h3⟩)
        · exact Or.inl h1
        · rcases List.mem_cons.mp h1 with h1 | h1
          · rw [Prod.mk.injEq] at h1
            exact absurd (h1.1 ▸ h2) ht
          · exact Or.inr ⟨name, h1, h2, h3⟩

/-- The entries of the map `tokens`: for each variable taken for a token, its
trimmed name and its value. -/
theorem mem_tokensOfEnviron (rt : Runtime) (hnd : (rt.env.map Prod.fst).Nodup)
    (heq : ∀ kv ∈ rt.env, '=' ∉ kv.1.data) (n v : String) :
    (n, v) ∈ tokensOfEnviron rt.Environ ↔
      ∃ name, (name, v) ∈ rt.env ∧ isTokenName name = true ∧ n = TrimPrefix name "TOKEN_" := by
  unfold tokensOfEnviron Runtime.Environ
  rw [mem_foldl_tokenStep rt.env [] hnd heq (fun _ _ _ _ h => by simp at h) n v]
  simp

/-- The second loop leaves the default limits as they were. -/
theorem foldl_tokenConfigStep_defaults (rt : Runtime) :
    ∀ (order : List (String × String)) (c : Config),
      (order.foldl (tokenConfigStep rt) c).RateLimitToken = c.RateLimitToken ∧
      (order.foldl (tokenConfigStep rt) c).RateLimitTokenBlockTime =
        c.RateLimitTokenBlockTime := by
  intro order
  induction order with
  | nil => intro c; exact ⟨rfl, rfl⟩
  | cons entry order ih =>
    intro c
    simp only [List.foldl_cons]
    exact ih (tokenConfigStep rt c entry)

/-- The second loop writes under the values of the entries it visits only. -/
theorem foldl_tokenConfigStep_absent (rt : Runtime) :
    ∀ (order : List (String × String)) (c : Config) (v : String),
      (∀ n, (n, v) ∉ order) →
      (order.foldl (tokenConfigStep rt) c).TokenConfigs v = c.TokenConfigs v := by
  intro order
  induction order with
  | nil => intro c v _; rfl
  | cons entry order ih =>
    intro c v h
    simp only [List.foldl_cons]
    rw [ih _ v (fun n hn => h n (List.mem_cons_of_mem _ hn))]
    have hne : v ≠ entry.2 := fun heq => h entry.1 (by rw [heq]; exact List.mem_cons_self _ _)
    simp [tokenConfigStep, Function.update_noteq hne]

/-- The second loop at a value that one token name only brings: the entry is
made of the two variables of that name, or of the defaults. -/
theorem foldl_tokenConfigStep_unique (rt : Runtime) :
    ∀ (order : List (String × String)) (c : Config) (n v : String), (n, v) ∈ order →
      (∀ n1, (n1, v) ∈ order → n1 = n) →
      (order.foldl (tokenConfigStep rt) c).TokenConfigs v =
        some { Limit := getEnvAsInt rt ("TOKEN_" ++ n ++ "_LIMIT") c.RateLimitToken
               BlockTime :=
                 getEnvAsInt rt ("TOKEN_" ++ n ++ "_BLOCK_TIME") c.RateLimitTokenBlockTime } := by
  intro order
  induction order with
  | nil => intro c n v h _; simp at h
  | cons entry order ih =>
    intro c n v hmem huniq
    simp only [List.foldl_cons]
    by_cases hrest : (n, v) ∈ order
    · rw [ih (tokenConfigStep rt c entry) n v hrest
        (fun n1 h1 => huniq n1 (List.mem_cons_of_mem _ h1))]
      rfl
    · have hentry : entry = (n, v) := by
        rcases List.mem_cons.mp hmem with h | h
        · exact h.symm
        · exact absurd h hrest
      rw [foldl_tokenConfigStep_absent rt order _ v (fun n1 h1 => by
        have := huniq n1 (List.mem_cons_of_mem _ h1)
        exact hrest (this ▸ h1))]
      rw [hentry]
      simp [tokenConfigStep]

/-- The keys of `TokenConfigs` after the second loop: those it had, and the
values of the entries visited. -/
theorem foldl_tokenConfigStep_keys (rt : Runtime) :
    ∀ (order : List (String × String)) (c : Config) (v : String),
      ((order.foldl (tokenConfigStep rt) c).TokenConfigs v).isSome = true ↔
        ((c.TokenConfigs v).isSome = true ∨ ∃ n, (n, v) ∈ order) := by
  intro order
  induction order with
  | nil => intro c v; simp
  | cons entry order ih =>
    intro c v
    simp only [List.foldl_cons]
    rw [ih]
    by_cases hv : v = entry.2
    · constructor
      · intro _
        exact Or.inr ⟨entry.1, by rw [hv]; exact List.mem_cons_self _ _⟩
      · intro _
        exact Or.inl (by simp [tokenConfigStep, hv])
    · have hsame : (tokenConfigStep rt c entry).TokenConfigs v = c.TokenConfigs v := by
        simp [tokenConfigStep, Function.update_noteq hv]
      rw [hsame]
      constructor
      · rintro (h | ⟨n, h⟩)
        · exact Or.inl h
        · exact Or.inr ⟨n, List.mem_cons_of_mem _ h⟩
      · rintro (h | ⟨n, h⟩)
        · exact Or.inl h
        · rcases List.mem_cons.mp h with h | h
          · exact absurd (congrArg Prod.snd h) (by simpa using hv)
          · exact Or.inr ⟨n, h⟩

/-! ## The goroutine of `cleanup` -/

theorem MemProcess.run_append (p : MemProcess) (es1 es2 : List Event) :
    p.run (es1 ++ es2) = (p.run es1).run es2 := by
  simp [MemProcess.run, List.foldl_append]

theorem MemProcess.run_cons (p : MemProcess) (e : Event) (es : List Event) :
    p.run (e :: es) = (p.step e).run es := rfl

theorem MemProcess.cleanupAlive_start (clock : Nat → Time) :
    (MemProcess.start clock).cleanupAlive := by
  refine ⟨by simp [MemProcess.start], fun _ => rfl, ?_, ?_⟩
  · intro h
    simp [MemProcess.start] at h
  · intro t h
    simp [MemProcess.start] at h

/-- No step ends the goroutine of `cleanup`, stops its ticker or closes the
channel of the ticker. -/
theorem MemProcess.cleanupAlive_step (p : MemProcess) (e : Event) (h : p.cleanupAlive) :
    (p.step e).cleanupAlive := by
  obtain ⟨h1, h2, h3, h4⟩ := h
  cases e with
  | Increment ctx key d => exact ⟨h1, h2, h3, h4⟩
  | Get ctx key => exact ⟨h1, h2, h3, h4⟩
  | SetBlock ctx key d => exact ⟨h1, h2, h3, h4⟩
  | IsBlocked ctx key => exact ⟨h1, h2, h3, h4⟩
  | Close => exact ⟨h1, h2, h3, h4⟩
  | fire =>
    refine ⟨h1, ?_, ?_, ?_⟩
    · intro hs
      simp [MemProcess.step, h2 hs]
    · intro hr
      obtain ⟨t, ht⟩ := h3 hr
      exact ⟨t.fire, by simp [MemProcess.step, ht]⟩
    · intro t ht
      simp only [MemProcess.step, Option.map_eq_some'] at ht
      obtain ⟨t0, ht0, rfl⟩ := ht
      obtain ⟨a, b, c⟩ := h4 t0 ht0
      simp [Ticker.fire, a, b, c]
  | cleanup =>
    show (p.cleanupStep).cleanupAlive
    unfold MemProcess.cleanupStep
    cases hc : p.cleanup with
    | spawned =>
      simp only
      refine ⟨by simp, by simp, fun _ => ⟨_, rfl⟩, ?_⟩
      intro t ht
      simp only [Option.some.injEq] at ht
      subst ht
      simp [NewTicker]
    | ranging =>
      obtain ⟨t, ht⟩ := h3 hc
      obtain ⟨a, b, c⟩ := h4 t ht
      simp only [ht]
      by_cases hp : t.pending = true
      · simp only [hp, if_true]
        refine ⟨by simp, by simp, fun _ => ⟨_, rfl⟩, ?_⟩
        intro t1 ht1
        simp only [Option.some.injEq] at ht1
        subst ht1
        exact ⟨a, b, c⟩
      · simp only [hp, c, if_false, Bool.false_eq_true]
        exact ⟨by simp [hc], by simp [hc], fun _ => ⟨t, ht⟩, h4⟩
    | returned => exact absurd hc h1

theorem MemProcess.cleanupAlive_run (es : List Event) :
    ∀ p : MemProcess, p.cleanupAlive → (p.run es).cleanupAlive := by
  induction es with
  | nil => exact fun p h => h
  | cons e es ih => exact fun p h => ih (p.step e) (p.cleanupAlive_step e h)

/-- A tick that waits in the channel stays there, and the goroutine stays where
it is, while the goroutine takes no step. -/
theorem MemProcess.pending_run (rs : List Event) :
    ∀ p : MemProcess, (∀ e ∈ rs, e ≠ Event.cleanup) →
      (∃ t, p.ticker = some t ∧ t.pending = true) →
      (∃ t, (p.run rs).ticker = some t ∧ t.pending = true) ∧ (p.run rs).cleanup = p.cleanup := by
  induction rs with
  | nil => exact fun p _ h => ⟨h, rfl⟩
  | cons e rs ih =>
    intro p hrs hp
    have hrest : ∀ x ∈ rs, x ≠ Event.cleanup := fun x hx => hrs x (List.mem_cons_of_mem _ hx)
    have he : e ≠ Event.cleanup := hrs e (List.mem_cons_self _ _)
    obtain ⟨t, ht, hpend⟩ := hp
    have hstep : (∃ t1, (p.step e).ticker = some t1 ∧ t1.pending = true) ∧
        (p.step e).cleanup = p.cleanup := by
      cases e with
      | Increment ctx key d => exact ⟨⟨t, ht, hpend⟩, rfl⟩
      | Get ctx key => exact ⟨⟨t, ht, hpend⟩, rfl⟩
      | SetBlock ctx key d => exact ⟨⟨t, ht, hpend⟩, rfl⟩
      | IsBlocked ctx key => exact ⟨⟨t, ht, hpend⟩, rfl⟩
      | Close => exact ⟨⟨t, ht, hpend⟩, rfl⟩
      | fire =>
        refine ⟨⟨t.fire, by simp [MemProcess.step, ht], ?_⟩, rfl⟩
        unfold Ticker.fire
        split
        · exact hpend
        · rfl
      | cleanup => exact absurd rfl he
    have h := ih (p.step e) hrest hstep.1
    exact ⟨h.1, h.2.trans hstep.2⟩

/-- A step of the goroutine at the head of the loop with a tick waiting is one
pass of the body: the clock is read once and the expired entries go. -/
theorem MemProcess.cleanupStep_sweeps (p : MemProcess) (hc : p.cleanup = CleanupState.ranging)
    (hp : ∃ t, p.ticker = some t ∧ t.pending = true) :
    (p.step Event.cleanup).world = p.world.advance (p.world.store.cleanup p.world.now) ∧
    (p.step Event.cleanup).cleanup = CleanupState.ranging := by
  obtain ⟨t, ht, hpend⟩ := hp
  show (p.cleanupStep).world = _ ∧ (p.cleanupStep).cleanup = _
  unfold MemProcess.cleanupStep
  simp [hc, ht, hpend]

/-! ## The claims -/

/-- C1. Over any backend: every `Increment` that `AllowRequest` issues is on
the key of the request with a window of exactly one second, whatever the key
and the policy; and when `IsBlocked` returns `(false, nil)` and `Increment`
returns `(count, nil)`, the request is allowed iff `count ≤ limit` (so
`count = limit` is allowed), an allowed request makes just the two calls
`IsBlocked`, `Increment`, and a request with `count > limit` is denied after
exactly one `SetBlock(key, blockDuration)`, made after the other two. -/
theorem allowRequest_decision_rule {σ : Type} (S : Storage σ) (ctx : Context) (key : String)
    (limit : Int) (d : Duration) (s : σ) :
    (∀ k e, StorageCall.Increment k e ∈ allowCalls S ctx key limit d s →
        k = key ∧ e = Second) ∧
    (∀ s1 count s2, S.IsBlocked ctx key s = ((false, none), s1) →
      S.Increment ctx key Second s1 = ((count, none), s2) →
      ((((NewRateLimiter S).AllowRequest ctx key limit d s).1.1 = true ↔ count ≤ limit) ∧
       (count ≤ limit →
          (NewRateLimiter S).AllowRequest ctx key limit d s = ((true, none), s2) ∧
          allowCalls S ctx key limit d s =
            [StorageCall.IsBlocked key, StorageCall.Increment key Second]) ∧
       (limit < count →
          ((NewRateLimiter S).AllowRequest ctx key limit d s).1.1 = false ∧
          ((NewRateLimiter S).AllowRequest ctx key limit d s).2 = (S.SetBlock ctx key d s2).2 ∧
          allowCalls S ctx key limit d s =
            [StorageCall.IsBlocked key, StorageCall.Increment key Second,
             StorageCall.SetBlock key d]))) := by
  refine ⟨?_, ?_⟩
  · intro k e
    simp only [allowCalls, RateLimiter.AllowRequest, NewRateLimiter, Storage.traced, one_mul]
    rcases hB : S.IsBlocked ctx key s with ⟨⟨b, _ | eB⟩, s1⟩
    · cases b
      · rcases hI : S.Increment ctx key Second s1 with ⟨⟨c, _ | eI⟩, s2⟩
        · by_cases hc : c > limit
          · rcases hS : S.SetBlock ctx key d s2 with ⟨_ | eS, s3⟩ <;> simp [hI, hc, hS]
          · simp [hI, hc]
        · simp [hI]
      · simp
    · simp
  · intro s1 count s2 hB hI
    simp only [allowCalls, RateLimiter.AllowRequest, NewRateLimiter, Storage.traced, one_mul]
    by_cases hc : count > limit
    · rcases hS : S.SetBlock ctx key d s2 with ⟨_ | eS, s3⟩ <;>
        simp [hB, hI, hc, hS, not_le.mpr hc]
    · simp [hB, hI, hc, not_lt.mp hc]

/-- C1 at a concrete backend: the in-process store from a fresh start, with
limit one: the first request is allowed with two calls. -/
theorem allowRequest_decision_rule_witness :
    (memoryLimiter.AllowRequest Background "k" 1 Second (MemWorld.start fun _ => 0)).1
        = (true, none) ∧
    allowCalls memoryBackend Background "k" 1 Second (MemWorld.start fun _ => 0) =
        [StorageCall.IsBlocked "k", StorageCall.Increment "k" Second] := by
  have h := (allowRequest_decision_rule memoryBackend Background "k" 1 Second
    (MemWorld.start fun _ => 0)).2 _ 1 _ rfl rfl
  exact ⟨by rw [memoryLimiter, (h.2.1 (by decide)).1], (h.2.1 (by decide)).2⟩

/-- C2. On the in-process store with a non-decreasing clock: from a state
where the key has neither counter entry nor block entry, `N ≤ L` successive
`AllowRequest(key, L, d)` calls whose clock readings all lie within one second
of the first reading all return `(true, nil)`, and `GetCurrentCount(key)`
read next, still within that second, returns exactly `N`. -/
theorem fresh_key_within_limit_allowed (w : MemWorld) (ctx : Context) (key : String)
    (L : Int) (d : Duration) (N : Nat)
    (hc : w.store.counters key = none) (hb : w.store.blocks key = none)
    (hN : (N : Int) ≤ L) (hmono : Monotone w.clock)
    (hwin : ∀ i, w.reads ≤ i → i ≤ w.reads + 2 * N → w.clock i ≤ w.clock w.reads + Second) :
    (allowTimes memoryLimiter ctx key L d N w).1 = List.replicate N (true, none) ∧
    (memoryLimiter.GetCurrentCount ctx key (allowTimes memoryLimiter ctx key L d N w).2).1 =
      ((N : Int), none) := by
  have h01 : w.clock w.reads ≤ w.clock (w.reads + 1) := hmono (Nat.le_succ _)
  obtain ⟨r1, r2, r3, r4, r5⟩ := allowTimes_fresh ctx key L d N w hb hc hN (by
    intro j hj
    have := hwin (w.reads + 2 * j + 1) (by omega) (by omega)
    linarith)
  refine ⟨r1, ?_⟩
  show ((allowTimes memoryLimiter ctx key L d N w).2.store.Get
    (allowTimes memoryLimiter ctx key L d N w).2.now ctx key).1 = ((N : Int), none)
  by_cases hN0 : N = 0
  · rw [if_pos hN0] at r5
    rw [MemoryStorage.get_none _ _ _ _ r5, hN0]; rfl
  · rw [if_neg hN0] at r5
    rw [MemoryStorage.get_live _ _ _ _ _ r5]
    rw [MemWorld.now, r2, r3]
    have := hwin (w.reads + 2 * N) (by omega) (by omega)
    show ¬ w.clock (w.reads + 1) + Second < w.clock (w.reads + 2 * N)
    linarith

/-- C2 on the test `TestRateLimiter_GetCurrentCount`: three requests with limit
ten on a fresh store, the clock advancing one nanosecond per reading. -/
theorem fresh_key_within_limit_allowed_witness :
    (allowTimes memoryLimiter Background "test-key" 10 Second 3
      (MemWorld.start fun i => (i : Int))).1 = [(true, none), (true, none), (true, none)] ∧
    (memoryLimiter.GetCurrentCount Background "test-key"
      (allowTimes memoryLimiter Background "test-key" 10 Second 3
        (MemWorld.start fun i => (i : Int))).2).1 = (3, none) :=
  fresh_key_within_limit_allowed (MemWorld.start fun i => (i : Int)) Background "test-key"
    10 Second 3 rfl rfl (by decide) (fun a b hab => Int.ofNat_le.mpr hab)
    (by
      intro i _ hi
      simp only [MemWorld.start, Second] at hi ⊢
      have : (i : Int) ≤ 6 := by exact_mod_cast hi
      linarith)

/-- C3. On the in-process store with a non-decreasing clock: from a state
where the key has neither counter entry nor block entry and for a limit
`L ≥ 0`, the first `L` calls of `AllowRequest(key, L, d)` are allowed and the
next one, made with the others within one second of the first reading,
returns `(false, nil)`; `SetBlock` of that call reads the clock last, and
`IsBlocked(key)` on the resulting store is true at every instant up to `d`
after that reading, in particular when the limiter is asked next. -/
theorem limit_exceeded_denied_and_blocked (w : MemWorld) (ctx : Context) (key : String)
    (L : Nat) (d : Duration)
    (hc : w.store.counters key = none) (hb : w.store.blocks key = none)
    (hmono : Monotone w.clock)
    (hwin : ∀ i, w.reads ≤ i → i ≤ w.reads + 2 * L + 1 →
      w.clock i ≤ w.clock w.reads + Second) :
    (allowTimes memoryLimiter ctx key L d L w).1 = List.replicate L (true, none) ∧
    (memoryLimiter.AllowRequest ctx key L d (allowTimes memoryLimiter ctx key L d L w).2).1 =
      (false, none) ∧
    (∀ t1 c1, t1 ≤ w.clock (w.reads + 2 * L + 2) + d →
      ((memoryLimiter.AllowRequest ctx key L d
        (allowTimes memoryLimiter ctx key L d L w).2).2.store.IsBlocked t1 c1 key).1 =
          (true, none)) ∧
    (w.clock (w.reads + 2 * L + 3) ≤ w.clock (w.reads + 2 * L + 2) + d →
      (memoryLimiter.IsBlocked ctx key (memoryLimiter.AllowRequest ctx key L d
        (allowTimes memoryLimiter ctx key L d L w).2).2).1 = (true, none)) := by
  have h01 : w.clock w.reads ≤ w.clock (w.reads + 1) := hmono (Nat.le_succ _)
  obtain ⟨r1, r2, r3, r4, r5⟩ := allowTimes_fresh ctx key L d L w hb hc le_rfl (by
    intro j hj
    have := hwin (w.reads + 2 * j + 1) (by omega) (by omega)
    linarith)
  generalize allowTimes memoryLimiter ctx key (L : Int) d L w = run at r1 r2 r3 r4 r5 ⊢
  obtain ⟨res, w1⟩ := run
  simp only at r1 r2 r3 r4 r5 ⊢
  have hlast : (L : Int) < (w1.store.Increment (w1.clock (w1.reads + 1)) ctx key Second).1.1 := by
    by_cases hL : L = 0
    · rw [if_pos hL] at r5
      rw [(w1.store.increment_reset _ ctx key Second (Or.inl r5)).1, hL]
      decide
    · rw [if_neg hL] at r5
      have hle := hwin (w.reads + 2 * L + 1) (by omega) (by omega)
      rw [(w1.store.increment_live (w1.clock (w1.reads + 1)) ctx key Second _ r5 (by
        rw [r2, r3]
        show ¬ w.clock (w.reads + 1) + Second < w.clock (w.reads + 2 * L + 1)
        linarith)).1]
      show (L : Int) < (L : Int) + 1
      omega
  have hden := memoryLimiter_denied ctx key L d w1
    (w1.store.isBlocked_false_of_none _ ctx key r4) hlast
  have hblk : ((w1.store.Increment (w1.clock (w1.reads + 1)) ctx key Second).2.SetBlock
      (w1.clock (w1.reads + 2)) ctx key d).2.blocks key
        = some (w.clock (w.reads + 2 * L + 2) + d) := by
    simp [MemoryStorage.SetBlock, Time.Add, r2, r3]
  rw [hden]
  refine ⟨r1, rfl, ?_, ?_⟩
  · intro t1 c1 ht
    exact MemoryStorage.isBlocked_true_of_le _ t1 c1 key _ hblk (not_lt.mpr ht)
  · intro ht
    show (MemoryStorage.IsBlocked _ (w1.clock (w1.reads + 3)) ctx key).1 = (true, none)
    refine MemoryStorage.isBlocked_true_of_le _ _ ctx key _ hblk (not_lt.mpr ?_)
    rw [r2, r3]
    exact ht

/-- C3 on the test `TestRateLimiter_IsBlocked`: limit five, six requests, the
clock advancing one nanosecond per reading. -/
theorem limit_exceeded_denied_and_blocked_witness :
    (allowTimes memoryLimiter Background "test-key" 5 Second 5
      (MemWorld.start fun i => (i : Int))).1 = List.replicate 5 (true, none) ∧
    (memoryLimiter.AllowRequest Background "test-key" 5 Second
      (allowTimes memoryLimiter Background "test-key" 5 Second 5
        (MemWorld.start fun i => (i : Int))).2).1 = (false, none) ∧
    (memoryLimiter.IsBlocked Background "test-key"
      (memoryLimiter.AllowRequest Background "test-key" 5 Second
        (allowTimes memoryLimiter Background "test-key" 5 Second 5
          (MemWorld.start fun i => (i : Int))).2).2).1 = (true, none) := by
  have h := limit_exceeded_denied_and_blocked (MemWorld.start fun i => (i : Int)) Background
    "test-key" 5 Second rfl rfl (fun a b hab => Int.ofNat_le.mpr hab)
    (by
      intro i _ hi
      simp only [MemWorld.start, Second] at hi ⊢
      have : (i : Int) ≤ 11 := by exact_mod_cast hi
      linarith)
  exact ⟨h.1, h.2.1, h.2.2.2 (by decide)⟩

/-- C4. While a key is blocked, `AllowRequest` returns `(false, nil)` for every
limit and block duration after the single call `IsBlocked(key)`: over any
backend whose `IsBlocked` returns `(true, nil)` it calls neither `Increment`
nor `SetBlock`; on the in-process store, when the key has a block entry whose
deadline the clock has not passed, both tables are left exactly as they were,
so `Get(key)` read at any one instant before and after the call is equal and
the deadline of the key is still the one it had. -/
theorem blocked_request_changes_nothing :
    (∀ (σ : Type) (S : Storage σ) (ctx : Context) (key : String) (limit : Int)
        (d : Duration) (s s1 : σ), S.IsBlocked ctx key s = ((true, none), s1) →
      (NewRateLimiter S).AllowRequest ctx key limit d s = ((false, none), s1) ∧
      allowCalls S ctx key limit d s = [StorageCall.IsBlocked key]) ∧
    (∀ (w : MemWorld) (ctx : Context) (key : String) (limit : Int) (d : Duration)
        (D : Time), w.store.blocks key = some D → ¬ D < w.now →
      (memoryLimiter.AllowRequest ctx key limit d w).1 = (false, none) ∧
      (memoryLimiter.AllowRequest ctx key limit d w).2.store = w.store ∧
      allowCalls memoryBackend ctx key limit d w = [StorageCall.IsBlocked key] ∧
      (∀ t c1, ((memoryLimiter.AllowRequest ctx key limit d w).2.store.Get t c1 key).1 =
        (w.store.Get t c1 key).1) ∧
      (memoryLimiter.AllowRequest ctx key limit d w).2.store.blocks key = some D) := by
  have gen : ∀ (σ : Type) (S : Storage σ) (ctx : Context) (key : String) (limit : Int)
      (d : Duration) (s s1 : σ), S.IsBlocked ctx key s = ((true, none), s1) →
      (NewRateLimiter S).AllowRequest ctx key limit d s = ((false, none), s1) ∧
      allowCalls S ctx key limit d s = [StorageCall.IsBlocked key] := by
    intro σ S ctx key limit d s s1 hB
    simp [allowCalls, RateLimiter.AllowRequest, NewRateLimiter, Storage.traced, hB]
  refine ⟨gen, ?_⟩
  intro w ctx key limit d D hb hD
  have hB : memoryBackend.IsBlocked ctx key w = ((true, none), w.advance w.store) := by
    show ((w.store.IsBlocked w.now ctx key).1, w.advance (w.store.IsBlocked w.now ctx key).2)
      = ((true, none), w.advance w.store)
    rw [w.store.isBlocked_store, w.store.isBlocked_true_of_le w.now ctx key D hb hD]
  have h := gen MemWorld memoryBackend ctx key limit d w _ hB
  have hA : memoryLimiter.AllowRequest ctx key limit d w = ((false, none), w.advance w.store) :=
    h.1
  rw [hA]
  exact ⟨rfl, rfl, h.2, fun _ _ => rfl, hb⟩

/-- C4 at a concrete state: a key blocked until instant 10 with a live count
of 6 is asked at instant 0. -/
theorem blocked_request_changes_nothing_witness :
    (memoryLimiter.AllowRequest Background "k" 5 Second
      ⟨⟨Function.update (fun _ => none) "k" (some ⟨6, 10⟩),
        Function.update (fun _ => none) "k" (some 10)⟩, fun _ => 0, 0⟩).1 = (false, none) ∧
    (memoryLimiter.AllowRequest Background "k" 5 Second
      ⟨⟨Function.update (fun _ => none) "k" (some ⟨6, 10⟩),
        Function.update (fun _ => none) "k" (some 10)⟩, fun _ => 0, 0⟩).2.store.counters "k"
      = some ⟨6, 10⟩ :=
  have h := blocked_request_changes_nothing.2
    ⟨⟨Function.update (fun _ => none) "k" (some ⟨6, 10⟩),
      Function.update (fun _ => none) "k" (some 10)⟩, fun _ => 0, 0⟩ Background "k" 5 Second
    10 (by simp) (by decide)
  ⟨h.1, by rw [h.2.1]; simp⟩

/-- C5. On the in-process store with a non-decreasing clock: when the key has
a block entry with deadline `D` and a counter entry with expiration `E`, and
the clock is past both, `AllowRequest` with a limit of at least one returns
`(true, nil)`, and `GetCurrentCount(key)` read next, within the second that
follows, returns 1. -/
theorem after_block_and_window_fresh_count (w : MemWorld) (ctx : Context) (key : String)
    (limit : Int) (d : Duration) (D : Time) (e : counterEntry)
    (hb : w.store.blocks key = some D) (hc : w.store.counters key = some e)
    (hl : 1 ≤ limit) (hmono : Monotone w.clock) (hD : D < w.now) (hE : e.expiration < w.now)
    (hget : w.clock (w.reads + 2) ≤ w.clock (w.reads + 1) + Second) :
    (memoryLimiter.AllowRequest ctx key limit d w).1 = (true, none) ∧
    (memoryLimiter.GetCurrentCount ctx key
      (memoryLimiter.AllowRequest ctx key limit d w).2).1 = (1, none) := by
  have h01 : w.clock w.reads ≤ w.clock (w.reads + 1) := hmono (Nat.le_succ _)
  have hE1 : e.expiration < w.clock (w.reads + 1) := lt_of_lt_of_le hE h01
  have hinc := w.store.increment_reset (w.clock (w.reads + 1)) ctx key Second
    (Or.inr ⟨e, hc, hE1⟩)
  have hstep := memoryLimiter_allowed ctx key limit d w
    (w.store.isBlocked_false_of_lt _ ctx key D hb hD) (by rw [hinc.1]; exact hl)
  rw [hstep]
  refine ⟨rfl, ?_⟩
  show (MemoryStorage.Get _ (w.clock (w.reads + 2)) ctx key).1 = (1, none)
  exact MemoryStorage.get_live _ _ ctx key _ hinc.2 (not_lt.mpr hget)

/-- C5 on the test `TestRateLimiter_BlockDuration`: blocked until 100 ms with a
count of 7 expiring at one second, asked again at 1200 ms. -/
theorem after_block_and_window_fresh_count_witness :
    (memoryLimiter.AllowRequest Background "test-key" 5 (100 * Millisecond)
      ⟨⟨Function.update (fun _ => none) "test-key" (some ⟨7, Second⟩),
        Function.update (fun _ => none) "test-key" (some (100 * Millisecond))⟩,
        fun _ => 1200 * Millisecond, 0⟩).1 = (true, none) ∧
    (memoryLimiter.GetCurrentCount Background "test-key"
      (memoryLimiter.AllowRequest Background "test-key" 5 (100 * Millisecond)
        ⟨⟨Function.update (fun _ => none) "test-key" (some ⟨7, Second⟩),
          Function.update (fun _ => none) "test-key" (some (100 * Millisecond))⟩,
          fun _ => 1200 * Millisecond, 0⟩).2).1 = (1, none) :=
  after_block_and_window_fresh_count
    ⟨⟨Function.update (fun _ => none) "test-key" (some ⟨7, Second⟩),
      Function.update (fun _ => none) "test-key" (some (100 * Millisecond))⟩,
      fun _ => 1200 * Millisecond, 0⟩ Background "test-key" 5 (100 * Millisecond)
    (100 * Millisecond) ⟨7, Second⟩ (by simp) (by simp) (by decide)
    (fun _ _ _ => le_rfl) (by decide) (by decide) (by decide)

/-- C6. Over any backend: an error `e` returned by `IsBlocked`, by `Increment`
or by `SetBlock`, whichever `AllowRequest` reaches, makes it return
`allowed = false` with the error `fmt.Errorf("...: %w", e)`, which unwraps to
`e`; `AllowRequest` returns an error in no other case, each error it returns
unwraps to the error of the failed storage call, and `allowed = true` never
comes with an error. -/
theorem allowRequest_error_propagation {σ : Type} (S : Storage σ) (ctx : Context)
    (key : String) (limit : Int) (d : Duration) (s : σ) :
    (∀ b e s1, S.IsBlocked ctx key s = ((b, some e), s1) →
      (NewRateLimiter S).AllowRequest ctx key limit d s =
        ((false, some (GoError.errorf "failed to check block status" e)), s1)) ∧
    (∀ s1 c e s2, S.IsBlocked ctx key s = ((false, none), s1) →
      S.Increment ctx key Second s1 = ((c, some e), s2) →
      (NewRateLimiter S).AllowRequest ctx key limit d s =
        ((false, some (GoError.errorf "failed to increment counter" e)), s2)) ∧
    (∀ s1 c s2 e s3, S.IsBlocked ctx key s = ((false, none), s1) →
      S.Increment ctx key Second s1 = ((c, none), s2) → limit < c →
      S.SetBlock ctx key d s2 = (some e, s3) →
      (NewRateLimiter S).AllowRequest ctx key limit d s =
        ((false, some (GoError.errorf "failed to set block" e)), s3)) ∧
    (∀ err, ((NewRateLimiter S).AllowRequest ctx key limit d s).1.2 = some err →
      ((NewRateLimiter S).AllowRequest ctx key limit d s).1.1 = false ∧
      ∃ e, err.Unwrap = some e ∧ err.Is e = true ∧
        ((∃ b s1, S.IsBlocked ctx key s = ((b, some e), s1)) ∨
         (∃ s1 c s2, S.IsBlocked ctx key s = ((false, none), s1) ∧
            S.Increment ctx key Second s1 = ((c, some e), s2)) ∨
         (∃ s1 c s2 s3, S.IsBlocked ctx key s = ((false, none), s1) ∧
            S.Increment ctx key Second s1 = ((c, none), s2) ∧ limit < c ∧
            S.SetBlock ctx key d s2 = (some e, s3)))) ∧
    (((NewRateLimiter S).AllowRequest ctx key limit d s).1.1 = true →
      ((NewRateLimiter S).AllowRequest ctx key limit d s).1.2 = none) := by
  simp only [RateLimiter.AllowRequest, NewRateLimiter, one_mul]
  refine ⟨?_, ?_, ?_, ?_, ?_⟩
  · intro b e s1 hB
    simp [hB]
  · intro s1 c e s2 hB hI
    simp [hB, hI]
  · intro s1 c s2 e s3 hB hI hc hS
    simp [hB, hI, hc, hS]
  · intro err
    rcases hB : S.IsBlocked ctx key s with ⟨⟨b, _ | eB⟩, s1⟩
    · cases b
      · rcases hI : S.Increment ctx key Second s1 with ⟨⟨c, _ | eI⟩, s2⟩
        · by_cases hc : c > limit
          · rcases hS : S.SetBlock ctx key d s2 with ⟨_ | eS, s3⟩
            · simp [hI, hc, hS]
            · simp only [hI, hc, hS, if_true, Option.some.injEq, true_and]
              rintro rfl
              exact ⟨eS, (GoError.errorf_wraps _ eS).1, (GoError.errorf_wraps _ eS).2,
                Or.inr (Or.inr ⟨s1, c, s2, s3, rfl, hI, hc, hS⟩)⟩
          · simp [hI, hc]
        · simp only [hI, Option.some.injEq, true_and]
          rintro rfl
          exact ⟨eI, (GoError.errorf_wraps _ eI).1, (GoError.errorf_wraps _ eI).2,
            Or.inr (Or.inl ⟨s1, c, s2, rfl, hI⟩)⟩
      · simp
    · simp only [Option.some.injEq, true_and]
      rintro rfl
      exact ⟨eB, (GoError.errorf_wraps _ eB).1, (GoError.errorf_wraps _ eB).2,
        Or.inl ⟨b, s1, rfl⟩⟩
  · rcases hB : S.IsBlocked ctx key s with ⟨⟨b, _ | eB⟩, s1⟩
    · cases b
      · rcases hI : S.Increment ctx key Second s1 with ⟨⟨c, _ | eI⟩, s2⟩
        · by_cases hc : c > limit
          · rcases hS : S.SetBlock ctx key d s2 with ⟨_ | eS, s3⟩ <;> simp [hI, hc, hS]
          · simp [hI, hc]
        · simp [hI]
      · simp
    · simp

/-- C6 on the shared store: the counter key holds a value that is no integer,
so `INCR` fails, `Increment` wraps the reply of the server, and `AllowRequest`
returns `allowed = false` with an error from which `errors.Is` reaches that
reply. -/
theorem allowRequest_error_propagation_witness :
    ((NewRateLimiter redisBackend).AllowRequest Background "k" 5 Second
      ⟨⟨Function.update (fun _ => none) "k" (some ⟨"abc", none⟩)⟩, fun _ => 0, 0⟩).1 =
      (false, some (.errorf "failed to increment counter"
        (.errorf "failed to increment counter" redisNotInteger))) ∧
    (GoError.errorf "failed to increment counter"
      (.errorf "failed to increment counter" redisNotInteger)).Is redisNotInteger = true := by
  have h := (allowRequest_error_propagation redisBackend Background "k" 5 Second
    ⟨⟨Function.update (fun _ => none) "k" (some ⟨"abc", none⟩)⟩, fun _ => 0, 0⟩).2.1
    _ 0 (.errorf "failed to increment counter" redisNotInteger) _ (by rfl) (by rfl)
  exact ⟨by rw [h], by decide⟩

/-- C7. On the in-process store, for distinct keys `k1` and `k2`, an
`Increment`, a `SetBlock` or an `AllowRequest` on `k1`, from any state and at
any time, leaves the counter entry and the block entry of `k2` as they were,
so `Get(k2)` and `IsBlocked(k2)` return at every instant what they would have
returned without the call. -/
theorem memory_key_independence (k1 k2 : String) (h : k1 ≠ k2) (m : MemoryStorage)
    (w : MemWorld) (t : Time) (ctx : Context) (limit : Int) (d : Duration) :
    ((m.Increment t ctx k1 d).2.counters k2 = m.counters k2 ∧
     (m.Increment t ctx k1 d).2.blocks k2 = m.blocks k2 ∧
     ∀ t1 c1, ((m.Increment t ctx k1 d).2.Get t1 c1 k2).1 = (m.Get t1 c1 k2).1 ∧
       ((m.Increment t ctx k1 d).2.IsBlocked t1 c1 k2).1 = (m.IsBlocked t1 c1 k2).1) ∧
    ((m.SetBlock t ctx k1 d).2.counters k2 = m.counters k2 ∧
     (m.SetBlock t ctx k1 d).2.blocks k2 = m.blocks k2 ∧
     ∀ t1 c1, ((m.SetBlock t ctx k1 d).2.Get t1 c1 k2).1 = (m.Get t1 c1 k2).1 ∧
       ((m.SetBlock t ctx k1 d).2.IsBlocked t1 c1 k2).1 = (m.IsBlocked t1 c1 k2).1) ∧
    ((memoryLimiter.AllowRequest ctx k1 limit d w).2.store.counters k2 = w.store.counters k2 ∧
     (memoryLimiter.AllowRequest ctx k1 limit d w).2.store.blocks k2 = w.store.blocks k2 ∧
     ∀ t1 c1,
       ((memoryLimiter.AllowRequest ctx k1 limit d w).2.store.Get t1 c1 k2).1 =
         (w.store.Get t1 c1 k2).1 ∧
       ((memoryLimiter.AllowRequest ctx k1 limit d w).2.store.IsBlocked t1 c1 k2).1 =
         (w.store.IsBlocked t1 c1 k2).1) := by
  have hI1 := m.increment_other t ctx k1 k2 d h
  have hI2 : (m.Increment t ctx k1 d).2.blocks k2 = m.blocks k2 := by
    rw [m.increment_blocks]
  have hS1 : (m.SetBlock t ctx k1 d).2.counters k2 = m.counters k2 := rfl
  have hS2 := m.setBlock_other t ctx k1 k2 d h
  have hA := memoryLimiter_allowRequest_other ctx k1 k2 h limit d w
  exact ⟨⟨hI1, hI2, fun t1 c1 => ⟨MemoryStorage.get_congr _ _ _ hI1 t1 c1 c1,
      MemoryStorage.isBlocked_congr _ _ _ hI2 t1 c1 c1⟩⟩,
    ⟨hS1, hS2, fun t1 c1 => ⟨MemoryStorage.get_congr _ _ _ hS1 t1 c1 c1,
      MemoryStorage.isBlocked_congr _ _ _ hS2 t1 c1 c1⟩⟩,
    ⟨hA.1, hA.2, fun t1 c1 => ⟨MemoryStorage.get_congr _ _ _ hA.1 t1 c1 c1,
      MemoryStorage.isBlocked_congr _ _ _ hA.2 t1 c1 c1⟩⟩⟩

/-- C7 on the keys of the test `TestRateLimiter_DifferentKeys`: a request on
`key1` that is denied and blocks `key1` leaves `key2` without count and not
blocked. -/
theorem memory_key_independence_witness :
    "key1" ≠ "key2" ∧
    ((memoryLimiter.AllowRequest Background "key1" 0 Second
      (MemWorld.start fun _ => 0)).2.store.Get 0 Background "key2").1 = (0, none) ∧
    ((memoryLimiter.AllowRequest Background "key1" 0 Second
      (MemWorld.start fun _ => 0)).2.store.IsBlocked 0 Background "key2").1 = (false, none) ∧
    ((memoryLimiter.AllowRequest Background "key1" 0 Second
      (MemWorld.start fun _ => 0)).2.store.IsBlocked 0 Background "key1").1 = (true, none) := by
  have h := memory_key_independence "key1" "key2" (by decide) NewMemoryStorage
    (MemWorld.start fun _ => 0) 0 Background 0 Second
  refine ⟨by decide, ?_, ?_, ?_⟩
  · rw [(h.2.2.2.2 0 Background).1]; rfl
  · rw [(h.2.2.2.2 0 Background).2]; rfl
  · rw [memoryLimiter_denied Background "key1" 0 Second (MemWorld.start fun _ => 0) rfl
      (by decide)]
    exact MemoryStorage.isBlocked_true_of_le _ _ _ _ Second (by
      simp [MemoryStorage.SetBlock, Time.Add, MemWorld.start]) (by decide)

/-- C8. `MemoryStorage.Increment(key, ttl)` at the instant `now` never
returns an error; when the key has no counter entry, or one whose expiration
is strictly before `now`, the entry becomes `(1, now + ttl)` and 1 is
returned; otherwise the count of the entry grows by exactly one, its
expiration stays, and the new count is returned. -/
theorem memory_increment_fixed_window (m : MemoryStorage) (now : Time) (ctx : Context)
    (key : String) (ttl : Duration) :
    (m.Increment now ctx key ttl).1.2 = none ∧
    ((m.counters key = none ∨ ∃ e, m.counters key = some e ∧ e.expiration < now) →
      (m.Increment now ctx key ttl).1.1 = 1 ∧
      (m.Increment now ctx key ttl).2.counters key =
        some { count := 1, expiration := now + ttl }) ∧
    (∀ e, m.counters key = some e → ¬ e.expiration < now →
      (m.Increment now ctx key ttl).1.1 = e.count + 1 ∧
      (m.Increment now ctx key ttl).2.counters key =
        some { count := e.count + 1, expiration := e.expiration }) := by
  refine ⟨m.increment_err now ctx key ttl, ?_, ?_⟩
  · rintro (h | ⟨e, h, hlt⟩)
    · simp [MemoryStorage.Increment, h, Time.Add]
    · simp [MemoryStorage.Increment, h, Time.After, hlt, Time.Add]
  · intro e h hlt
    simp [MemoryStorage.Increment, h, Time.After, hlt]

/-- C8 on the sequence of the test `TestMemoryStorage_IncrementExpiration`:
a first increment, one inside the window and one after the expiration. -/
theorem memory_increment_fixed_window_witness :
    (NewMemoryStorage.Increment 0 Background "test-key" (100 * Millisecond)).1 = (1, none) ∧
    ((NewMemoryStorage.Increment 0 Background "test-key" (100 * Millisecond)).2.Increment
      (50 * Millisecond) Background "test-key" Second).1 = (2, none) ∧
    ((NewMemoryStorage.Increment 0 Background "test-key" (100 * Millisecond)).2.Increment
      (150 * Millisecond) Background "test-key" Second).1 = (1, none) := by
  have h0 := memory_increment_fixed_window NewMemoryStorage 0 Background "test-key"
    (100 * Millisecond)
  have e0 := (h0.2.1 (Or.inl rfl)).2
  have h1 := memory_increment_fixed_window
    (NewMemoryStorage.Increment 0 Background "test-key" (100 * Millisecond)).2
    (50 * Millisecond) Background "test-key" Second
  have h2 := memory_increment_fixed_window
    (NewMemoryStorage.Increment 0 Background "test-key" (100 * Millisecond)).2
    (150 * Millisecond) Background "test-key" Second
  refine ⟨Prod.ext (h0.2.1 (Or.inl rfl)).1 h0.1, Prod.ext ?_ h1.1, Prod.ext ?_ h2.1⟩
  · exact (h1.2.2 _ e0 (by decide)).1
  · exact (h2.2.1 (Or.inr ⟨_, e0, by decide⟩)).1

/-- C9, the code at the failing input.  Three `Increment(key, 1s)` calls at the
instants 0 ms, 600 ms and 1200 ms on an empty shared store: the first sets the
expiry to 1000 ms, the second finds the counter live and moves its expiry to
1600 ms, so the third still finds it live and returns 3.  The same calls on
the in-process store leave the expiration at one second after the first call,
and the third returns 1. -/
theorem redis_increment_moves_expiry :
    ((RedisStorage.mk fun _ => none).Increment 0 Background "k" Second).2.db "k" =
      some ⟨"1", some 1000⟩ ∧
    (((RedisStorage.mk fun _ => none).Increment 0 Background "k" Second).2.Increment 600
      Background "k" Second).1 = (2, none) ∧
    (((RedisStorage.mk fun _ => none).Increment 0 Background "k" Second).2.Increment 600
      Background "k" Second).2.db "k" = some ⟨"2", some 1600⟩ ∧
    ((((RedisStorage.mk fun _ => none).Increment 0 Background "k" Second).2.Increment 600
      Background "k" Second).2.Increment 1200 Background "k" Second).1 = (3, none) ∧
    ((NewMemoryStorage.Increment 0 Background "k" Second).2.Increment (600 * Millisecond)
      Background "k" Second).2.counters "k" = some ⟨2, Second⟩ ∧
    (((NewMemoryStorage.Increment 0 Background "k" Second).2.Increment (600 * Millisecond)
      Background "k" Second).2.Increment (1200 * Millisecond) Background "k" Second).1 =
      (1, none) := by
  refine ⟨by decide, by decide, by decide, by decide, by decide, by decide⟩

/-- C10. `SetBlock(key, d)` at `t` returns nil and makes the deadline of the
key `t + d`, whatever it was; `IsBlocked(key)` at `t1` never fails and is true
iff the key has a block entry whose deadline `t1` is not strictly after.  So
in any later state that still holds the entry `SetBlock` wrote, `IsBlocked`
is true for `t ≤ t1 ≤ t + d` and false for `t + d < t1`, and it is false for
a key without a block entry. -/
theorem memory_block_records (m : MemoryStorage) (t : Time) (ctx : Context) (key : String)
    (d : Duration) :
    (m.SetBlock t ctx key d).1 = none ∧
    (m.SetBlock t ctx key d).2.blocks key = some (t + d) ∧
    (∀ t1, (m.IsBlocked t1 ctx key).1.2 = none ∧
      ((m.IsBlocked t1 ctx key).1.1 = true ↔ ∃ D, m.blocks key = some D ∧ ¬ D < t1)) ∧
    (∀ m1 : MemoryStorage, m1.blocks key = (m.SetBlock t ctx key d).2.blocks key →
      ∀ t1, (t ≤ t1 → t1 ≤ t + d → (m1.IsBlocked t1 ctx key).1 = (true, none)) ∧
            (t + d < t1 → (m1.IsBlocked t1 ctx key).1 = (false, none))) ∧
    (m.blocks key = none → ∀ t1, (m.IsBlocked t1 ctx key).1 = (false, none)) := by
  refine ⟨rfl, by simp [MemoryStorage.SetBlock, Time.Add], ?_, ?_, ?_⟩
  · intro t1
    refine ⟨m.isBlocked_err t1 ctx key, ?_⟩
    rw [m.isBlocked_iff t1 ctx key]
    simp only [not_lt]
  · intro m1 h1 t1
    have hb : m1.blocks key = some (t + d) := by
      rw [h1]; simp [MemoryStorage.SetBlock, Time.Add]
    refine ⟨fun _ h2 => ?_, fun h2 => ?_⟩
    · simp [MemoryStorage.IsBlocked, hb, Time.After, not_lt.mpr h2]
    · simp [MemoryStorage.IsBlocked, hb, Time.After, h2]
  · intro h t1
    simp [MemoryStorage.IsBlocked, h]

/-- C10 on the sequence of the test `TestMemoryStorage_Block`: not blocked,
blocked for 100 ms, and free again 150 ms later; a later deadline is
replaced by an earlier one. -/
theorem memory_block_records_witness :
    (NewMemoryStorage.IsBlocked 0 Background "test-key").1 = (false, none) ∧
    ((NewMemoryStorage.SetBlock 0 Background "test-key" (100 * Millisecond)).2.IsBlocked
      (100 * Millisecond) Background "test-key").1 = (true, none) ∧
    ((NewMemoryStorage.SetBlock 0 Background "test-key" (100 * Millisecond)).2.IsBlocked
      (150 * Millisecond) Background "test-key").1 = (false, none) ∧
    ((NewMemoryStorage.SetBlock 0 Background "test-key" Second).2.SetBlock 0 Background
      "test-key" Millisecond).2.blocks "test-key" = some Millisecond := by
  have h := memory_block_records NewMemoryStorage 0 Background "test-key" (100 * Millisecond)
  have h1 := memory_block_records
    (NewMemoryStorage.SetBlock 0 Background "test-key" Second).2 0 Background "test-key"
    Millisecond
  refine ⟨h.2.2.2.2 rfl 0, ?_, ?_, ?_⟩
  · exact (h.2.2.2.1 _ rfl (100 * Millisecond)).1 (by decide) (by decide)
  · exact (h.2.2.2.1 _ rfl (150 * Millisecond)).2 (by decide)
  · rw [h1.2.1]; rfl

/-- C11. `MemoryStorage.Get(key)` at the instant `now` never returns an error;
it returns the stored count when the key has a counter entry whose expiration
is not strictly before `now`, and 0 when the key has no entry or an entry that
has expired, which stays in the table.  `Get` at the instant of an `Increment`
with `ttl ≥ 0`, before the clock moves, returns the count `Increment`
returned. -/
theorem memory_get_live_count (m : MemoryStorage) (now : Time) (ctx : Context)
    (key : String) :
    (m.Get now ctx key).1.2 = none ∧
    (∀ e, m.counters key = some e → ¬ e.expiration < now →
      (m.Get now ctx key).1.1 = e.count) ∧
    (m.counters key = none → (m.Get now ctx key).1.1 = 0) ∧
    (∀ e, m.counters key = some e → e.expiration < now →
      (m.Get now ctx key).1.1 = 0 ∧ (m.Get now ctx key).2.counters key = some e) ∧
    (∀ ttl c1, 0 ≤ ttl →
      ((m.Increment now ctx key ttl).2.Get now c1 key).1 = (m.Increment now ctx key ttl).1) := by
  refine ⟨m.get_err now ctx key, ?_, ?_, ?_, ?_⟩
  · intro e h hl
    rw [m.get_live now ctx key e h hl]
  · intro h
    rw [m.get_none now ctx key h]
  · intro e h hl
    rw [m.get_expired now ctx key e h hl, m.get_store]
    exact ⟨rfl, h⟩
  · intro ttl c1 httl
    rw [m.increment_eq now ctx key ttl]
    by_cases hr : m.counters key = none ∨ ∃ e, m.counters key = some e ∧ e.expiration < now
    · obtain ⟨h1, h2⟩ := m.increment_reset now ctx key ttl hr
      rw [MemoryStorage.get_live _ now c1 key _ h2 (by simp only; linarith), h1]
    · cases hc : m.counters key with
      | none => exact absurd (Or.inl hc) hr
      | some e =>
        have hl : ¬ e.expiration < now := fun hlt => hr (Or.inr ⟨e, hc, hlt⟩)
        obtain ⟨h1, h2⟩ := m.increment_live now ctx key ttl e hc hl
        rw [MemoryStorage.get_live _ now c1 key _ h2 hl, h1]

/-- C11 on the test `TestMemoryStorage_Get` and on an expired entry: 0 for a
key never seen, 1 after one increment, 0 once the entry has expired. -/
theorem memory_get_live_count_witness :
    (NewMemoryStorage.Get 0 Background "non-existent").1 = (0, none) ∧
    ((NewMemoryStorage.Increment 0 Background "test-key" Second).2.Get 0 Background
      "test-key").1 = (1, none) ∧
    ((NewMemoryStorage.Increment 0 Background "test-key" Second).2.Get (2 * Second)
      Background "test-key").1 = (0, none) := by
  have h0 := memory_get_live_count NewMemoryStorage 0 Background "non-existent"
  have h1 := memory_get_live_count NewMemoryStorage 0 Background "test-key"
  have h2 := memory_get_live_count
    (NewMemoryStorage.Increment 0 Background "test-key" Second).2 (2 * Second) Background
    "test-key"
  refine ⟨Prod.ext (h0.2.2.1 rfl) h0.1, ?_, Prod.ext ?_ h2.1⟩
  · rw [h1.2.2.2.2 Second Background (by decide)]
    decide
  · exact (h2.2.2.2.1 ⟨1, Second⟩ (by decide) (by decide)).1

/-- C12. The two read-only operations of the limiter are the storage calls
`IsBlocked` and `Get` and nothing else, with their results unchanged, over any
backend; on the in-process store `Get` and `IsBlocked` leave both tables
exactly as they were, for every state, key and instant, expired entries
included. -/
theorem read_only_operations_keep_state :
    (∀ (σ : Type) (S : Storage σ) (ctx : Context) (key : String) (s : σ),
      (NewRateLimiter S).IsBlocked ctx key s = S.IsBlocked ctx key s ∧
      (NewRateLimiter S).GetCurrentCount ctx key s = S.Get ctx key s ∧
      ((NewRateLimiter S.traced).IsBlocked ctx key (s, [])).2.2 =
        [StorageCall.IsBlocked key] ∧
      ((NewRateLimiter S.traced).GetCurrentCount ctx key (s, [])).2.2 =
        [StorageCall.Get key]) ∧
    (∀ (m : MemoryStorage) (now : Time) (ctx : Context) (key : String),
      (m.Get now ctx key).2 = m ∧ (m.IsBlocked now ctx key).2 = m) ∧
    (∀ (w : MemWorld) (ctx : Context) (key : String),
      (memoryLimiter.GetCurrentCount ctx key w).2.store = w.store ∧
      (memoryLimiter.IsBlocked ctx key w).2.store = w.store) := by
  refine ⟨fun σ S ctx key s => ⟨rfl, rfl, rfl, rfl⟩,
    fun m now ctx key => ⟨m.get_store now ctx key, m.isBlocked_store now ctx key⟩,
    fun w ctx key => ⟨?_, ?_⟩⟩
  · exact w.store.get_store w.now ctx key
  · exact w.store.isBlocked_store w.now ctx key

/-- C12 at a state whose entries have both expired: reading them at a later
instant returns 0 and false, and the entries are still in the tables. -/
theorem read_only_operations_keep_state_witness :
    ((MemoryStorage.mk (Function.update (fun _ => none) "k" (some ⟨3, 10⟩))
      (Function.update (fun _ => none) "k" (some 10))).Get 20 Background "k").1 = (0, none) ∧
    ((MemoryStorage.mk (Function.update (fun _ => none) "k" (some ⟨3, 10⟩))
      (Function.update (fun _ => none) "k" (some 10))).Get 20 Background "k").2.counters "k"
      = some ⟨3, 10⟩ ∧
    ((MemoryStorage.mk (Function.update (fun _ => none) "k" (some ⟨3, 10⟩))
      (Function.update (fun _ => none) "k" (some 10))).IsBlocked 20 Background "k").2.blocks
      "k" = some 10 := by
  have h := read_only_operations_keep_state.2.1
    (MemoryStorage.mk (Function.update (fun _ => none) "k" (some ⟨3, 10⟩))
      (Function.update (fun _ => none) "k" (some 10))) 20 Background "k"
  refine ⟨by decide, ?_, ?_⟩
  · rw [h.1]; decide
  · rw [h.2]; decide

/-- C13. On the in-process store with a non-decreasing clock, for every limit
`L ≥ 0` and every block duration: in a run of any number of `AllowRequest`
calls on one key with that limit, from a state where the key has no counter
entry (an empty store is one), the allowed calls whose increment, their last
reading of the clock, falls in a closed interval of one second are at most
`2 × L`, wherever the interval starts. -/
theorem boundary_burst_at_most_twice_limit (w : MemWorld) (ctx : Context) (key : String)
    (L : Int) (d : Duration) (n : Nat) (a : Time) (hL : 0 ≤ L)
    (hc : w.store.counters key = none) (hmono : Monotone w.clock) :
    (countWithinSecond a (allowedInstants ctx key L d n w) : Int) ≤ 2 * L := by
  have h := countWithinSecond_allowedInstants ctx key L d a hL n w 0 hmono
    ⟨le_rfl, fun h => absurd h (lt_irrefl 0), fun _ => rfl,
      fun e he => by rw [hc] at he; cases he⟩
  linarith

/-- C13 on a burst across the end of a window, with limit two: requests at 0
and at one second fill the first window, two more a nanosecond later open the
next one, and three of the four allowed requests fall in the second that
starts at one second. -/
theorem boundary_burst_at_most_twice_limit_witness :
    allowedInstants Background "k" 2 Second 4 (MemWorld.start burstClock) =
      [0, Second, Second + 1, Second + 1] ∧
    countWithinSecond Second
      (allowedInstants Background "k" 2 Second 4 (MemWorld.start burstClock)) = 3 ∧
    (countWithinSecond Second
      (allowedInstants Background "k" 2 Second 4 (MemWorld.start burstClock)) : Int) ≤ 2 * 2 := by
  refine ⟨by decide, by decide, ?_⟩
  refine boundary_burst_at_most_twice_limit (MemWorld.start burstClock) Background "k" 2
    Second 4 Second (by decide) rfl ?_
  intro i j hij
  show burstClock i ≤ burstClock j
  unfold burstClock Second
  split_ifs <;> first | omega | decide

/-- C14. One sweep of `cleanup` at `t0` is invisible from `t0` on: for every
state of the in-process store, every key and every instant `t ≥ t0`, the swept
state gives the same results as the state itself for `Get` and `IsBlocked` at
`t`, the same count for `Increment` at `t`, and the same outcome for an
`AllowRequest` all of whose clock readings are at `t0` or later. -/
theorem cleanup_observationally_invisible (m : MemoryStorage) (t0 : Time) (ctx : Context)
    (key : String) :
    (∀ t, t0 ≤ t →
      ((m.cleanup t0).Get t ctx key).1 = (m.Get t ctx key).1 ∧
      ((m.cleanup t0).IsBlocked t ctx key).1 = (m.IsBlocked t ctx key).1 ∧
      ∀ ttl, ((m.cleanup t0).Increment t ctx key ttl).1 = (m.Increment t ctx key ttl).1) ∧
    (∀ (clock : Nat → Time) (reads : Nat) (limit : Int) (d : Duration),
      t0 ≤ clock reads → t0 ≤ clock (reads + 1) →
      (memoryLimiter.AllowRequest ctx key limit d ⟨m.cleanup t0, clock, reads⟩).1 =
        (memoryLimiter.AllowRequest ctx key limit d ⟨m, clock, reads⟩).1) := by
  refine ⟨fun t ht => ⟨m.cleanup_get t0 t ht ctx key, m.cleanup_isBlocked t0 t ht ctx key,
    fun ttl => m.cleanup_increment t0 t ht ctx key ttl⟩, ?_⟩
  intro clock reads limit d h0 h1
  rw [memoryLimiter_allowRequest_result, memoryLimiter_allowRequest_result]
  show (if ((m.cleanup t0).IsBlocked (clock reads) ctx key).1.1 = true then _ else
      if limit < ((m.cleanup t0).Increment (clock (reads + 1)) ctx key Second).1.1 then _
      else _) = _
  rw [m.cleanup_isBlocked t0 _ h0 ctx key, m.cleanup_increment t0 _ h1 ctx key Second]

/-- C14 at a state with an expired count of 9 and an expired block: swept or
not, a request at a later instant is allowed, and the sweep did delete the
counter entry. -/
theorem cleanup_observationally_invisible_witness :
    (memoryLimiter.AllowRequest Background "k" 5 Second
      ⟨(MemoryStorage.mk (Function.update (fun _ => none) "k" (some ⟨9, 10⟩))
        (Function.update (fun _ => none) "k" (some 10))).cleanup 20, fun _ => 30, 0⟩).1 =
      (true, none) ∧
    (memoryLimiter.AllowRequest Background "k" 5 Second
      ⟨MemoryStorage.mk (Function.update (fun _ => none) "k" (some ⟨9, 10⟩))
        (Function.update (fun _ => none) "k" (some 10)), fun _ => 30, 0⟩).1 = (true, none) ∧
    ((MemoryStorage.mk (Function.update (fun _ => none) "k" (some ⟨9, 10⟩))
        (Function.update (fun _ => none) "k" (some 10))).cleanup 20).counters "k" = none := by
  have h := (cleanup_observationally_invisible
    (MemoryStorage.mk (Function.update (fun _ => none) "k" (some ⟨9, 10⟩))
      (Function.update (fun _ => none) "k" (some 10))) 20 Background "k").2
    (fun _ => 30) 0 5 Second (by decide) (by decide)
  have h2 : (memoryLimiter.AllowRequest Background "k" 5 Second
      ⟨MemoryStorage.mk (Function.update (fun _ => none) "k" (some ⟨9, 10⟩))
        (Function.update (fun _ => none) "k" (some 10)), fun _ => 30, 0⟩).1 = (true, none) := by
    rw [memoryLimiter_allowRequest_result]; decide
  exact ⟨h.trans h2, h2, by decide⟩

/-- C15, the claim at a concrete input: with the cancelled context
`context.Canceled` in `ctx.Err()`, the four operations of the in-process store
and the three operations of the limiter on it return a count or a boolean
with a nil error. -/
theorem cancelled_context_still_served :
    (NewMemoryStorage.Increment 0 ⟨some Canceled⟩ "k" Second).1 = (1, none) ∧
    (NewMemoryStorage.Get 0 ⟨some Canceled⟩ "k").1 = (0, none) ∧
    (NewMemoryStorage.SetBlock 0 ⟨some Canceled⟩ "k" Second).1 = none ∧
    (NewMemoryStorage.IsBlocked 0 ⟨some Canceled⟩ "k").1 = (false, none) ∧
    (memoryLimiter.AllowRequest ⟨some Canceled⟩ "k" 5 Second
      (MemWorld.start fun _ => 0)).1 = (true, none) ∧
    (memoryLimiter.IsBlocked ⟨some DeadlineExceeded⟩ "k"
      (MemWorld.start fun _ => 0)).1 = (false, none) ∧
    (memoryLimiter.GetCurrentCount ⟨some DeadlineExceeded⟩ "k"
      (MemWorld.start fun _ => 0)).1 = (0, none) := by
  refine ⟨by decide, by decide, by decide, by decide, ?_, by decide, by decide⟩
  rw [memoryLimiter_allowRequest_result]
  decide

/-- C15, amended. The in-process store does not consult the context: for
every state, key and instant, `Increment`, `Get`, `SetBlock` and `IsBlocked`
return with any context, cancelled or not, what they return with any other,
and their error is nil; so do `AllowRequest`, `IsBlocked` and
`GetCurrentCount` of the limiter that runs on it. -/
theorem memory_store_ignores_context (m : MemoryStorage) (w : MemWorld) (now : Time)
    (ctx ctx1 : Context) (key : String) (ttl : Duration) (limit : Int) :
    (m.Increment now ctx key ttl = m.Increment now ctx1 key ttl ∧
      (m.Increment now ctx key ttl).1.2 = none) ∧
    (m.Get now ctx key = m.Get now ctx1 key ∧ (m.Get now ctx key).1.2 = none) ∧
    (m.SetBlock now ctx key ttl = m.SetBlock now ctx1 key ttl ∧
      (m.SetBlock now ctx key ttl).1 = none) ∧
    (m.IsBlocked now ctx key = m.IsBlocked now ctx1 key ∧
      (m.IsBlocked now ctx key).1.2 = none) ∧
    (memoryLimiter.AllowRequest ctx key limit ttl w =
        memoryLimiter.AllowRequest ctx1 key limit ttl w ∧
      (memoryLimiter.AllowRequest ctx key limit ttl w).1.2 = none) ∧
    (memoryLimiter.IsBlocked ctx key w = memoryLimiter.IsBlocked ctx1 key w ∧
      (memoryLimiter.IsBlocked ctx key w).1.2 = none) ∧
    (memoryLimiter.GetCurrentCount ctx key w = memoryLimiter.GetCurrentCount ctx1 key w ∧
      (memoryLimiter.GetCurrentCount ctx key w).1.2 = none) := by
  refine ⟨⟨rfl, m.increment_err now ctx key ttl⟩, ⟨rfl, m.get_err now ctx key⟩, ⟨rfl, rfl⟩,
    ⟨rfl, m.isBlocked_err now ctx key⟩, ⟨rfl, ?_⟩,
    ⟨rfl, w.store.isBlocked_err w.now ctx key⟩, ⟨rfl, w.store.get_err w.now ctx key⟩⟩
  rw [memoryLimiter_allowRequest_result]
  split
  · rfl
  · split <;> rfl

/-- C16, the claim at a concrete input: on an empty shared store the keys
`block:a` and `a` are distinct, yet `Increment("block:a")` makes
`IsBlocked("a")` true, and `SetBlock("a")` makes `Get("block:a")` return 1: the
block record of `a` is the counter record of `block:a`. -/
theorem redis_block_record_is_a_counter_record :
    "block:a" ≠ "a" ∧
    ((RedisStorage.mk fun _ => none).IsBlocked 0 Background "a").1 = (false, none) ∧
    (((RedisStorage.mk fun _ => none).Increment 0 Background "block:a" Second).2.IsBlocked 0
      Background "a").1 = (true, none) ∧
    ((RedisStorage.mk fun _ => none).Get 0 Background "block:a").1 = (0, none) ∧
    (((RedisStorage.mk fun _ => none).SetBlock 0 Background "a" Second).2.Get 0 Background
      "block:a").1 = (1, none) := by
  refine ⟨by decide, by decide, by decide, by decide, by decide⟩

/-- C16, amended. On the shared store, for distinct keys `k1` and `k2`:
`Increment(k1)` leaves the result of `Get(k2)` unchanged, and that of
`IsBlocked(k2)` unless `k1` is `block:` followed by `k2`; `SetBlock(k1)` leaves
the result of `IsBlocked(k2)` unchanged, and that of `Get(k2)` unless `k2` is
`block:` followed by `k1`.  The block record of `k1` is neither the counter
record of `k1` itself nor the block record of `k2`. -/
theorem redis_key_independence (r : RedisStorage) (t now : Int) (ctx c1 : Context)
    (k1 k2 : String) (d : Duration) (h : k1 ≠ k2) :
    ((r.Increment t ctx k1 d).2.Get now c1 k2).1 = (r.Get now c1 k2).1 ∧
    (k1 ≠ "block:" ++ k2 →
      ((r.Increment t ctx k1 d).2.IsBlocked now c1 k2).1 = (r.IsBlocked now c1 k2).1) ∧
    ((r.SetBlock t ctx k1 d).2.IsBlocked now c1 k2).1 = (r.IsBlocked now c1 k2).1 ∧
    (k2 ≠ "block:" ++ k1 →
      ((r.SetBlock t ctx k1 d).2.Get now c1 k2).1 = (r.Get now c1 k2).1) ∧
    "block:" ++ k1 ≠ k1 ∧ "block:" ++ k1 ≠ "block:" ++ k2 := by
  have hb : "block:" ++ k1 ≠ "block:" ++ k2 :=
    fun heq => h (string_append_left_cancel _ _ _ heq)
  refine ⟨?_, fun h1 => ?_, ?_, fun h2 => ?_, block_key_ne_self k1, hb⟩
  · exact RedisStorage.get_of_same_record _ _ now c1 c1 k2 (r.increment_db_other t ctx k1 k2 d h)
  · exact RedisStorage.isBlocked_of_same_record _ _ now c1 c1 k2
      (r.increment_db_other t ctx k1 _ d h1)
  · exact RedisStorage.isBlocked_of_same_record _ _ now c1 c1 k2 (r.setBlock_db_other t ctx k1 _ d hb)
  · exact RedisStorage.get_of_same_record _ _ now c1 c1 k2
      (r.setBlock_db_other t ctx k1 k2 d (Ne.symm h2))

/-- C16, amended, on two keys of the HTTP layer: a denied address does not
block a token, nor count for it. -/
theorem redis_key_independence_witness :
    (((RedisStorage.mk fun _ => none).SetBlock 0 Background "ip:10.0.0.1" Second).2.IsBlocked
      0 Background "token:abc").1 = (false, none) ∧
    (((RedisStorage.mk fun _ => none).Increment 0 Background "ip:10.0.0.1" Second).2.Get
      0 Background "token:abc").1 = (0, none) := by
  have h := redis_key_independence (RedisStorage.mk fun _ => none) 0 0 Background Background
    "ip:10.0.0.1" "token:abc" Second (by decide)
  exact ⟨by rw [h.2.2.1]; decide, by rw [h.1]; decide⟩

/-- C18, the claim at a concrete input: a fresh store whose clock advances by
one minute at every reading; the goroutine of `cleanup` creates its ticker and
`Increment` on `k` with a window of one second makes an entry.  `Close`
returns nil and the entry is there.  Then the timer fires and the goroutine
takes a step: it sweeps, reading the clock and deleting the entry, and it is
back at the head of the loop with its ticker running; it has not terminated. -/
theorem cleanup_sweeps_after_close :
    (((MemProcess.start minuteClock).run
      [Event.cleanup, Event.Increment Background "k" Second]).Close).1 = none ∧
    ((MemProcess.start minuteClock).run
      [Event.cleanup, Event.Increment Background "k" Second,
        Event.Close]).world.store.counters "k" = some ⟨1, Second⟩ ∧
    ((MemProcess.start minuteClock).run
      [Event.cleanup, Event.Increment Background "k" Second,
        Event.Close]).world.reads = 1 ∧
    ((MemProcess.start minuteClock).run
      [Event.cleanup, Event.Increment Background "k" Second, Event.Close, Event.fire,
        Event.cleanup]).world.store.counters "k" = none ∧
    ((MemProcess.start minuteClock).run
      [Event.cleanup, Event.Increment Background "k" Second, Event.Close, Event.fire,
        Event.cleanup]).world.reads = 2 ∧
    ((MemProcess.start minuteClock).run
      [Event.cleanup, Event.Increment Background "k" Second, Event.Close, Event.fire,
        Event.cleanup]).cleanup = CleanupState.ranging ∧
    ((MemProcess.start minuteClock).run
      [Event.cleanup, Event.Increment Background "k" Second, Event.Close, Event.fire,
        Event.cleanup]).ticker = some ⟨1 * Minute, false, false, false⟩ := by
  refine ⟨rfl, by decide, by decide, by decide, by decide, by decide, by decide⟩

/-- C18, amended. `MemoryStorage.Close` returns nil at every call, repeated
ones included, and changes nothing: neither the tables, nor the ticker, nor
where the goroutine of `cleanup` stands, so a run with a call of `Close` ends
in the state of the same run without it.  After a run from a fresh store in
which `Close` was called, whatever else happened before and after the call,
the goroutine of `cleanup` has not returned, its ticker is not stopped and the
channel of the ticker is open; if it has not created its ticker yet its next
step does; and once it is in the loop, every firing of the timer is followed
by a sweep at the next step of the goroutine, whatever calls come in between:
that step reads the clock once and takes from both tables the entries that
have expired by that reading, and the goroutine is back in the loop. -/
theorem close_returns_nil_and_cleanup_keeps_sweeping (clock : Nat → Time)
    (es1 es2 : List Event) :
    (∀ p : MemProcess, (p.Close).1 = none ∧ (p.Close).2 = p ∧ ((p.Close).2.Close).1 = none ∧
      p.step Event.Close = p) ∧
    (∀ (m : MemoryStorage) (now : Time), (m.Close).1 = none ∧ (m.Close).2 = m ∧
      ((m.Close).2.Close).1 = none ∧ (m.Close).2.cleanup now = m.cleanup now) ∧
    MemProcess.afterClose clock es1 es2 = (MemProcess.start clock).run (es1 ++ es2) ∧
    (MemProcess.afterClose clock es1 es2).cleanup ≠ CleanupState.returned ∧
    (∀ t, (MemProcess.afterClose clock es1 es2).ticker = some t →
      t.stopped = false ∧ t.closed = false) ∧
    ((MemProcess.afterClose clock es1 es2).cleanup = CleanupState.spawned →
      ((MemProcess.afterClose clock es1 es2).step Event.cleanup).cleanup =
        CleanupState.ranging) ∧
    ((MemProcess.afterClose clock es1 es2).cleanup = CleanupState.ranging →
      ∀ rs : List Event, (∀ e ∈ rs, e ≠ Event.cleanup) →
        ((((MemProcess.afterClose clock es1 es2).step Event.fire).run rs).step
            Event.cleanup).world =
          (((MemProcess.afterClose clock es1 es2).step Event.fire).run rs).world.advance
            ((((MemProcess.afterClose clock es1 es2).step Event.fire).run rs).world.store.cleanup
              (((MemProcess.afterClose clock es1 es2).step Event.fire).run rs).world.now) ∧
        ((((MemProcess.afterClose clock es1 es2).step Event.fire).run rs).step
            Event.cleanup).cleanup = CleanupState.ranging) := by
  have halive : (MemProcess.afterClose clock es1 es2).cleanupAlive :=
    MemProcess.cleanupAlive_run _ _ (MemProcess.cleanupAlive_start clock)
  refine ⟨fun p => ⟨rfl, rfl, rfl, rfl⟩, fun m now => ⟨rfl, rfl, rfl, rfl⟩, ?_, halive.1,
    fun t ht => (halive.2.2.2 t ht).2, ?_, ?_⟩
  · unfold MemProcess.afterClose
    rw [MemProcess.run_append, MemProcess.run_append, MemProcess.run_cons]
    rfl
  · intro hs
    show ((MemProcess.afterClose clock es1 es2).cleanupStep).cleanup = _
    unfold MemProcess.cleanupStep
    simp [hs]
  · intro hr rs hrs
    obtain ⟨t, ht⟩ := halive.2.2.1 hr
    have hstopped := (halive.2.2.2 t ht).2.1
    have hfire : ∃ t1, ((MemProcess.afterClose clock es1 es2).step Event.fire).ticker = some t1 ∧
        t1.pending = true :=
      ⟨t.fire, by simp [MemProcess.step, ht], by simp [Ticker.fire, hstopped]⟩
    have hrun := MemProcess.pending_run rs _ hrs hfire
    exact MemProcess.cleanupStep_sweeps _ (hrun.2.trans hr) hrun.1

/-- C19, the claim at a concrete input: the environment sets
`RATE_LIMIT_IP_BLOCK_TIME` to 9223372037, which `LoadConfig` reads as the block
time of addresses; the block duration of a request without token is then
-9223372036709551616 nanoseconds, the product wrapped to 64 bits, and not
9223372037 seconds. -/
theorem block_time_product_wraps :
    (LoadConfig longBlockRuntime).1.RateLimitIPBlockTime = 9223372037 ∧
    (requestPolicy plainLib (LoadConfig longBlockRuntime).1
      (testRequest "" "192.168.1.1:1234")).2.2 = -9223372036709551616 ∧
    (requestPolicy plainLib (LoadConfig longBlockRuntime).1
      (testRequest "" "192.168.1.1:1234")).2.2 ≠
        (LoadConfig longBlockRuntime).1.RateLimitIPBlockTime * Second := by
  refine ⟨by decide, by decide, by decide⟩

/-- C19, amended. Identity and policy of a request in `RateLimiterMiddleware`:
with a non-empty `API_KEY` header the key is `token:` and the token, the limit
is that of the token's own entry of `TokenConfigs` when it has one, else
`RateLimitToken`, the block duration is the 64-bit product of the block time of
that entry, else of `RateLimitTokenBlockTime`, with `time.Second`, and neither
the IP limits, the other headers, the peer address nor the library that parses
addresses play a part; with an empty header the key is `ip:` and the client
address, with `RateLimitIP` and the 64-bit product of `RateLimitIPBlockTime`
with `time.Second`.  The limiter is called once, with the context of the
request and that key, limit and duration.  The 64-bit product is the block
time in seconds when the block time is between -9223372036 and 9223372036;
in every case it lies in the 64-bit range and differs from the exact product
by a multiple of `2^64`. -/
theorem middleware_identity_and_policy (lib : NetLib) (cfg : Config) (r : Request) :
    (∀ tc, r.Header "API_KEY" ≠ "" → cfg.TokenConfigs (r.Header "API_KEY") = some tc →
      requestPolicy lib cfg r =
        ("token:" ++ r.Header "API_KEY", tc.Limit, mulDuration tc.BlockTime Second)) ∧
    (r.Header "API_KEY" ≠ "" → cfg.TokenConfigs (r.Header "API_KEY") = none →
      requestPolicy lib cfg r =
        ("token:" ++ r.Header "API_KEY", cfg.RateLimitToken,
          mulDuration cfg.RateLimitTokenBlockTime Second)) ∧
    (∀ (lib1 : NetLib) (cfg1 : Config) (r1 : Request), r.Header "API_KEY" ≠ "" →
      r1.Header "API_KEY" = r.Header "API_KEY" →
      cfg1.TokenConfigs (r.Header "API_KEY") = cfg.TokenConfigs (r.Header "API_KEY") →
      cfg1.RateLimitToken = cfg.RateLimitToken →
      cfg1.RateLimitTokenBlockTime = cfg.RateLimitTokenBlockTime →
      requestPolicy lib1 cfg1 r1 = requestPolicy lib cfg r) ∧
    (r.Header "API_KEY" = "" →
      requestPolicy lib cfg r =
        ("ip:" ++ getClientIP lib r, cfg.RateLimitIP,
          mulDuration cfg.RateLimitIPBlockTime Second)) ∧
    (∀ (σ : Type) (limiter : RateLimiter σ) (next : Handler σ) (hw : HttpWorld σ),
      (((limiter.AllowRequest r.Ctx (requestPolicy lib cfg r).1 (requestPolicy lib cfg r).2.1
          (requestPolicy lib cfg r).2.2 hw.store).1 = (true, none) →
        RateLimiterMiddleware lib cfg limiter next r hw =
          next r ⟨(limiter.AllowRequest r.Ctx (requestPolicy lib cfg r).1
            (requestPolicy lib cfg r).2.1 (requestPolicy lib cfg r).2.2 hw.store).2, hw.w⟩) ∧
       ((limiter.AllowRequest r.Ctx (requestPolicy lib cfg r).1 (requestPolicy lib cfg r).2.1
          (requestPolicy lib cfg r).2.2 hw.store).1 ≠ (true, none) →
        (RateLimiterMiddleware lib cfg limiter next r hw).store =
          (limiter.AllowRequest r.Ctx (requestPolicy lib cfg r).1
            (requestPolicy lib cfg r).2.1 (requestPolicy lib cfg r).2.2 hw.store).2))) ∧
    (∀ blockTime : Int, -9223372036 ≤ blockTime → blockTime ≤ 9223372036 →
      mulDuration blockTime Second = blockTime * Second) ∧
    (∀ blockTime : Int,
      -9223372036854775808 ≤ mulDuration blockTime Second ∧
      mulDuration blockTime Second ≤ 9223372036854775807 ∧
      (18446744073709551616 : Int) ∣ blockTime * Second - mulDuration blockTime Second) := by
  refine ⟨?_, ?_, ?_, ?_, ?_, mulDuration_second, fun b => mulDuration_wraps b Second⟩
  · intro tc ht hc
    simp [requestPolicy, Config.GetTokenConfig, ht, hc]
  · intro ht hc
    simp [requestPolicy, Config.GetTokenConfig, ht, hc]
  · intro lib1 cfg1 r1 ht h1 h2 h3 h4
    simp only [requestPolicy, Config.GetTokenConfig, h1, h2, h3, h4, ht, ne_eq,
      not_false_eq_true, if_true]
  · intro ht
    simp [requestPolicy, ht]
  · intro σ limiter next hw
    unfold RateLimiterMiddleware
    simp only
    rcases limiter.AllowRequest r.Ctx (requestPolicy lib cfg r).1 (requestPolicy lib cfg r).2.1
      (requestPolicy lib cfg r).2.2 hw.store with ⟨⟨b, _ | e⟩, s⟩
    · cases b <;> simp
    · simp

/-- C19, amended, on the tests `TestRateLimiterMiddleware_SpecificTokenConfig`
and `TestRateLimiterMiddleware_TokenOverridesIP`: the token `abc123` gets its
own limit of 3 and 2 seconds, another token the default 10 and 1 second, and a
request without token is keyed by its peer address with the IP limit. -/
theorem middleware_identity_and_policy_witness :
    requestPolicy plainLib specificTokenConfig (testRequest "abc123" "192.168.1.1:1234") =
      ("token:abc123", 3, 2 * Second) ∧
    requestPolicy plainLib specificTokenConfig (testRequest "test-token" "192.168.1.1:1234") =
      ("token:test-token", 10, 1 * Second) ∧
    requestPolicy plainLib specificTokenConfig (testRequest "" "192.168.1.1:1234") =
      ("ip:192.168.1.1", 5, 1 * Second) := by
  have h1 := middleware_identity_and_policy plainLib specificTokenConfig
    (testRequest "abc123" "192.168.1.1:1234")
  have h2 := middleware_identity_and_policy plainLib specificTokenConfig
    (testRequest "test-token" "192.168.1.1:1234")
  have h3 := middleware_identity_and_policy plainLib specificTokenConfig
    (testRequest "" "192.168.1.1:1234")
  refine ⟨?_, ?_, ?_⟩
  · rw [h1.1 ⟨3, 2⟩ (by decide) (by decide)]; decide
  · rw [h2.2.1 (by decide) (by decide)]; decide
  · rw [h3.2.2.2.1 (by decide)]; decide

/-- C20. Keys of the HTTP layer never meet: for all strings `t`, `a` and `k`,
the token key `token:t` differs from the address key `ip:a`, and a block
record key `block:k` of the shared store differs from both; so the key of a
request with a token differs from the key of a request without, and the block
record of the key of any request is not the counter record of the key of any
request.  On the shared store `Increment` and `SetBlock` on a token key
therefore leave `Get` and `IsBlocked` of an address key unchanged, and the
other way round, and `Increment` on the key of a request leaves `IsBlocked` of
the key of every request unchanged, as `SetBlock` leaves `Get`. -/
theorem middleware_keyspace_separation (t a k : String) :
    "token:" ++ t ≠ "ip:" ++ a ∧ "block:" ++ k ≠ "token:" ++ t ∧ "block:" ++ k ≠ "ip:" ++ a ∧
    (∀ (lib lib1 : NetLib) (cfg cfg1 : Config) (r r1 : Request),
      (r.Header "API_KEY" ≠ "" → r1.Header "API_KEY" = "" →
        (requestPolicy lib cfg r).1 ≠ (requestPolicy lib1 cfg1 r1).1) ∧
      "block:" ++ (requestPolicy lib cfg r).1 ≠ (requestPolicy lib1 cfg1 r1).1) ∧
    (∀ (rs : RedisStorage) (now now1 : Int) (ctx c1 : Context) (d : Duration),
      ((rs.Increment now ctx ("token:" ++ t) d).2.Get now1 c1 ("ip:" ++ a)).1 =
        (rs.Get now1 c1 ("ip:" ++ a)).1 ∧
      ((rs.Increment now ctx ("token:" ++ t) d).2.IsBlocked now1 c1 ("ip:" ++ a)).1 =
        (rs.IsBlocked now1 c1 ("ip:" ++ a)).1 ∧
      ((rs.SetBlock now ctx ("token:" ++ t) d).2.Get now1 c1 ("ip:" ++ a)).1 =
        (rs.Get now1 c1 ("ip:" ++ a)).1 ∧
      ((rs.SetBlock now ctx ("token:" ++ t) d).2.IsBlocked now1 c1 ("ip:" ++ a)).1 =
        (rs.IsBlocked now1 c1 ("ip:" ++ a)).1 ∧
      ((rs.Increment now ctx ("ip:" ++ a) d).2.Get now1 c1 ("token:" ++ t)).1 =
        (rs.Get now1 c1 ("token:" ++ t)).1 ∧
      ((rs.Increment now ctx ("ip:" ++ a) d).2.IsBlocked now1 c1 ("token:" ++ t)).1 =
        (rs.IsBlocked now1 c1 ("token:" ++ t)).1 ∧
      ((rs.SetBlock now ctx ("ip:" ++ a) d).2.Get now1 c1 ("token:" ++ t)).1 =
        (rs.Get now1 c1 ("token:" ++ t)).1 ∧
      ((rs.SetBlock now ctx ("ip:" ++ a) d).2.IsBlocked now1 c1 ("token:" ++ t)).1 =
        (rs.IsBlocked now1 c1 ("token:" ++ t)).1) ∧
    (∀ (rs : RedisStorage) (now now1 : Int) (ctx c1 : Context) (d : Duration)
        (lib lib1 : NetLib) (cfg cfg1 : Config) (r r1 : Request),
      ((rs.Increment now ctx (requestPolicy lib cfg r).1 d).2.IsBlocked now1 c1
          (requestPolicy lib1 cfg1 r1).1).1 =
        (rs.IsBlocked now1 c1 (requestPolicy lib1 cfg1 r1).1).1 ∧
      ((rs.SetBlock now ctx (requestPolicy lib cfg r).1 d).2.Get now1 c1
          (requestPolicy lib1 cfg1 r1).1).1 =
        (rs.Get now1 c1 (requestPolicy lib1 cfg1 r1).1).1) := by
  have hti := token_key_ne_ip_key t a
  have hbt : ∀ x, "block:" ++ x ≠ "token:" ++ t := fun x => block_key_ne_token_key x t
  have hbi : ∀ x, "block:" ++ x ≠ "ip:" ++ a := fun x => block_key_ne_ip_key x a
  have hbb : "block:" ++ ("token:" ++ t) ≠ "block:" ++ ("ip:" ++ a) :=
    fun heq => hti (string_append_left_cancel _ _ _ heq)
  refine ⟨hti, hbt k, hbi k, ?_, ?_, ?_⟩
  · intro lib lib1 cfg cfg1 r r1
    refine ⟨fun h h1 => ?_, Ne.symm (requestPolicy_key_ne_block lib1 lib cfg1 cfg r1 r)⟩
    have e1 : (requestPolicy lib cfg r).1 = "token:" ++ r.Header "API_KEY" := by
      unfold requestPolicy
      simp only [h, ne_eq, not_false_eq_true, if_true]
      split <;> rfl
    have e2 : (requestPolicy lib1 cfg1 r1).1 = "ip:" ++ getClientIP lib1 r1 := by
      simp [requestPolicy, h1]
    rw [e1, e2]
    exact token_key_ne_ip_key _ _
  · intro rs now now1 ctx c1 d
    refine ⟨?_, ?_, ?_, ?_, ?_, ?_, ?_, ?_⟩
    · exact RedisStorage.get_of_same_record _ _ now1 c1 c1 _ (rs.increment_db_other now ctx _ _ d hti)
    · exact RedisStorage.isBlocked_of_same_record _ _ now1 c1 c1 _
        (rs.increment_db_other now ctx _ _ d (Ne.symm (block_key_ne_token_key _ t)))
    · exact RedisStorage.get_of_same_record _ _ now1 c1 c1 _ (rs.setBlock_db_other now ctx _ _ d (hbi _))
    · exact RedisStorage.isBlocked_of_same_record _ _ now1 c1 c1 _
        (rs.setBlock_db_other now ctx _ _ d hbb)
    · exact RedisStorage.get_of_same_record _ _ now1 c1 c1 _
        (rs.increment_db_other now ctx _ _ d (Ne.symm hti))
    · exact RedisStorage.isBlocked_of_same_record _ _ now1 c1 c1 _
        (rs.increment_db_other now ctx _ _ d (Ne.symm (block_key_ne_ip_key _ a)))
    · exact RedisStorage.get_of_same_record _ _ now1 c1 c1 _ (rs.setBlock_db_other now ctx _ _ d (hbt _))
    · exact RedisStorage.isBlocked_of_same_record _ _ now1 c1 c1 _
        (rs.setBlock_db_other now ctx _ _ d (Ne.symm hbb))
  · intro rs now now1 ctx c1 d lib lib1 cfg cfg1 r r1
    refine ⟨?_, ?_⟩
    · exact RedisStorage.isBlocked_of_same_record _ _ now1 c1 c1 _
        (rs.increment_db_other now ctx _ _ d (requestPolicy_key_ne_block lib lib1 cfg cfg1 r r1))
    · exact RedisStorage.get_of_same_record _ _ now1 c1 c1 _
        (rs.setBlock_db_other now ctx _ _ d
          (Ne.symm (requestPolicy_key_ne_block lib1 lib cfg1 cfg r1 r)))

/-- C20 on the shared store after a token and an address were both denied:
each is blocked under its own record, and the counter of neither is the block
marker of the other. -/
theorem middleware_keyspace_separation_witness :
    (requestPolicy plainLib specificTokenConfig (testRequest "abc123" "192.168.1.1:1234")).1 ≠
      (requestPolicy plainLib specificTokenConfig (testRequest "" "192.168.1.1:1234")).1 ∧
    (((RedisStorage.mk fun _ => none).Increment 0 Background ("token:" ++ "abc123")
      Second).2.IsBlocked 0 Background ("ip:" ++ "192.168.1.1")).1 = (false, none) := by
  have h := middleware_keyspace_separation "abc123" "192.168.1.1" "ip:192.168.1.1"
  refine ⟨(h.2.2.2.1 plainLib plainLib specificTokenConfig specificTokenConfig
    (testRequest "abc123" "192.168.1.1:1234") (testRequest "" "192.168.1.1:1234")).1
      (by decide) (by decide), ?_⟩
  rw [(h.2.2.2.2.1 (RedisStorage.mk fun _ => none) 0 0 Background Background Second).2.1]
  decide

/-- C21. What `RateLimiterMiddleware` answers on a response writer nothing was
written to yet, by the outcome of `AllowRequest` at the key and policy of the
request: on an error the status is 500, and on `(false, nil)` the status is
429, the content type `application/json` and the body the JSON object whose
field `error` is the rate-limit message, and in both cases the result is the
same whatever the next handler is, which is not invoked; on `(true, nil)` the
result is that of the next handler, invoked once on the response writer as the
middleware received it. -/
theorem middleware_outcome_to_response {σ : Type} (lib : NetLib) (cfg : Config)
    (limiter : RateLimiter σ) (next : Handler σ) (r : Request) (hw : HttpWorld σ)
    (hstatus : hw.w.status = none) (hbody : hw.w.body = "") :
    (∀ e, (limiter.AllowRequest r.Ctx (requestPolicy lib cfg r).1 (requestPolicy lib cfg r).2.1
        (requestPolicy lib cfg r).2.2 hw.store).1.2 = some e →
      (RateLimiterMiddleware lib cfg limiter next r hw).w.status = some 500 ∧
      (RateLimiterMiddleware lib cfg limiter next r hw).w.body = "Internal server error\n" ∧
      ∀ next1 : Handler σ, RateLimiterMiddleware lib cfg limiter next1 r hw =
        RateLimiterMiddleware lib cfg limiter next r hw) ∧
    ((limiter.AllowRequest r.Ctx (requestPolicy lib cfg r).1 (requestPolicy lib cfg r).2.1
        (requestPolicy lib cfg r).2.2 hw.store).1 = (false, none) →
      (RateLimiterMiddleware lib cfg limiter next r hw).w.status = some 429 ∧
      (RateLimiterMiddleware lib cfg limiter next r hw).w.body =
        encodeErrorJSON rateLimitMessage ∧
      (RateLimiterMiddleware lib cfg limiter next r hw).w.header.lookup "Content-Type" =
        some "application/json" ∧
      ∀ next1 : Handler σ, RateLimiterMiddleware lib cfg limiter next1 r hw =
        RateLimiterMiddleware lib cfg limiter next r hw) ∧
    ((limiter.AllowRequest r.Ctx (requestPolicy lib cfg r).1 (requestPolicy lib cfg r).2.1
        (requestPolicy lib cfg r).2.2 hw.store).1 = (true, none) →
      RateLimiterMiddleware lib cfg limiter next r hw =
        next r ⟨(limiter.AllowRequest r.Ctx (requestPolicy lib cfg r).1
          (requestPolicy lib cfg r).2.1 (requestPolicy lib cfg r).2.2 hw.store).2, hw.w⟩) := by
  unfold RateLimiterMiddleware
  simp only
  rcases limiter.AllowRequest r.Ctx (requestPolicy lib cfg r).1 (requestPolicy lib cfg r).2.1
    (requestPolicy lib cfg r).2.2 hw.store with ⟨⟨b, _ | e⟩, s⟩
  · cases b
    · refine ⟨fun e he => by simp at he, fun _ => ?_, fun h => by simp at h⟩
      simp [ResponseWriter.Write, ResponseWriter.WriteHeader, ResponseWriter.SetHeader,
        StatusTooManyRequests, hstatus, hbody, List.lookup]
    · refine ⟨fun e he => by simp at he, fun h => by simp at h, fun _ => rfl⟩
  · refine ⟨fun _ _ => ?_, fun h => by simp at h, fun h => by simp at h⟩
    simp [httpError, ResponseWriter.Write, ResponseWriter.WriteHeader, ResponseWriter.SetHeader,
      ResponseWriter.DelHeader, StatusInternalServerError, hstatus, hbody]

/-- C21 on the test `TestRateLimiterMiddleware_IPBased` and on a failing shared
store: a first request from `192.168.1.1` passes to the handler, which answers
200; when the address is blocked the answer is 429 with the JSON error; when
the counter of the address is no integer the answer is 500. -/
theorem middleware_outcome_to_response_witness :
    (RateLimiterMiddleware plainLib specificTokenConfig memoryLimiter okHandler
      (testRequest "" "192.168.1.1:1234")
      ⟨MemWorld.start fun _ => 0, NewRecorder⟩).w.status = some 200 ∧
    (RateLimiterMiddleware plainLib specificTokenConfig memoryLimiter okHandler
      (testRequest "" "192.168.1.1:1234")
      ⟨⟨⟨fun _ => none, fun k => if k = "ip:192.168.1.1" then some 10 else none⟩,
        fun _ => 0, 0⟩, NewRecorder⟩).w =
      ⟨[("Content-Type", "application/json")], some 429,
        "\x7b\"error\":\"you have reached the maximum number of requests or actions allowed within a certain time frame\"\x7d\n"⟩ ∧
    (RateLimiterMiddleware plainLib specificTokenConfig (NewRateLimiter redisBackend) okHandler
      (testRequest "" "192.168.1.1:1234")
      ⟨⟨⟨fun k => if k = "ip:192.168.1.1" then some ⟨"abc", none⟩ else none⟩,
        fun _ => 0, 0⟩, NewRecorder⟩).w.status = some 500 := by
  have h1 := (middleware_outcome_to_response plainLib specificTokenConfig memoryLimiter okHandler
    (testRequest "" "192.168.1.1:1234") ⟨MemWorld.start fun _ => 0, NewRecorder⟩ rfl rfl).2.2
    (by decide)
  have h3 := (middleware_outcome_to_response plainLib specificTokenConfig
    (NewRateLimiter redisBackend) okHandler (testRequest "" "192.168.1.1:1234")
    ⟨⟨⟨fun k => if k = "ip:192.168.1.1" then some ⟨"abc", none⟩ else none⟩,
      fun _ => 0, 0⟩, NewRecorder⟩ rfl rfl).1
    (.errorf "failed to increment counter"
      (.errorf "failed to increment counter" redisNotInteger)) (by decide)
  refine ⟨by rw [h1]; decide, by decide, h3.1⟩

/-- C22. `Config.GetTokenConfig(token)` returns the entry of the token and
true when `TokenConfigs` has one, and otherwise the default pair
`RateLimitToken`, `RateLimitTokenBlockTime` and false; it reads the
configuration and returns values only, so it depends on nothing but that entry
and the two defaults. -/
theorem getTokenConfig_entry_or_default (c : Config) (token : String) :
    (∀ tc, c.TokenConfigs token = some tc → c.GetTokenConfig token = (tc, true)) ∧
    (c.TokenConfigs token = none →
      c.GetTokenConfig token =
        ({ Limit := c.RateLimitToken, BlockTime := c.RateLimitTokenBlockTime }, false)) ∧
    (∀ c1 : Config, c1.TokenConfigs token = c.TokenConfigs token →
      c1.RateLimitToken = c.RateLimitToken →
      c1.RateLimitTokenBlockTime = c.RateLimitTokenBlockTime →
      c1.GetTokenConfig token = c.GetTokenConfig token) := by
  refine ⟨fun tc h => ?_, fun h => ?_, fun c1 h1 h2 h3 => ?_⟩
  · simp [Config.GetTokenConfig, h]
  · simp [Config.GetTokenConfig, h]
  · simp [Config.GetTokenConfig, h1, h2, h3]

/-- C22 on the configuration of the middleware tests: the token `abc123` has
its own entry, another token gets the defaults. -/
theorem getTokenConfig_entry_or_default_witness :
    specificTokenConfig.GetTokenConfig "abc123" = (⟨3, 2⟩, true) ∧
    specificTokenConfig.GetTokenConfig "nonexistent-token" = (⟨10, 1⟩, false) :=
  ⟨(getTokenConfig_entry_or_default specificTokenConfig "abc123").1 ⟨3, 2⟩ (by decide),
    (getTokenConfig_entry_or_default specificTokenConfig "nonexistent-token").2.1 (by decide)⟩

/-- C23. Loading the token configurations from an environment whose names are
distinct and hold no `=`, into a configuration whose `TokenConfigs` is empty,
whatever the order in which `range` visits the map `tokens`: for every
variable `TOKEN_<NAME> = v` whose name ends neither in `_LIMIT` nor in
`_BLOCK_TIME` and whose value no other such variable has, `TokenConfigs[v]`
has the limit `getEnvAsInt("TOKEN_<NAME>_LIMIT", RateLimitToken)` and the block
time `getEnvAsInt("TOKEN_<NAME>_BLOCK_TIME", RateLimitTokenBlockTime)`;
`getEnvAsInt` is the default for a variable that is unset, empty or no
integer, and the integer otherwise; and the keys of `TokenConfigs` are the
values of the variables taken for tokens, no others. -/
theorem token_configs_loaded (rt : Runtime) (c : Config)
    (hnd : (rt.env.map Prod.fst).Nodup) (heq : ∀ kv ∈ rt.env, '=' ∉ kv.1.data)
    (hperm : ∀ m, (rt.rangeOrder m).Perm m) (hempty : ∀ k, c.TokenConfigs k = none) :
    (∀ NAME v, ("TOKEN_" ++ NAME, v) ∈ rt.env →
      HasSuffix ("TOKEN_" ++ NAME) "_LIMIT" = false →
      HasSuffix ("TOKEN_" ++ NAME) "_BLOCK_TIME" = false →
      (∀ name1, (name1, v) ∈ rt.env → isTokenName name1 = true → name1 = "TOKEN_" ++ NAME) →
      (c.loadTokenConfigs rt).TokenConfigs v =
        some { Limit := getEnvAsInt rt ("TOKEN_" ++ NAME ++ "_LIMIT") c.RateLimitToken
               BlockTime :=
                 getEnvAsInt rt ("TOKEN_" ++ NAME ++ "_BLOCK_TIME")
                   c.RateLimitTokenBlockTime }) ∧
    (∀ (key : String) (dflt : Int),
      (rt.env.lookup key = none → getEnvAsInt rt key dflt = dflt) ∧
      (rt.env.lookup key = some "" → getEnvAsInt rt key dflt = dflt) ∧
      (∀ s, rt.env.lookup key = some s → ParseInt s = none → getEnvAsInt rt key dflt = dflt) ∧
      (∀ s n, rt.env.lookup key = some s → s ≠ "" → ParseInt s = some n →
        getEnvAsInt rt key dflt = n)) ∧
    (∀ k, ((c.loadTokenConfigs rt).TokenConfigs k).isSome = true ↔
      ∃ name, (name, k) ∈ rt.env ∧ isTokenName name = true) := by
  have hmem : ∀ n v, (n, v) ∈ rt.rangeOrder (tokensOfEnviron rt.Environ) ↔
      ∃ name, (name, v) ∈ rt.env ∧ isTokenName name = true ∧ n = TrimPrefix name "TOKEN_" :=
    fun n v => ((hperm _).mem_iff).trans (mem_tokensOfEnviron rt hnd heq n v)
  refine ⟨fun NAME v hin h1 h2 huniq => ?_, fun key dflt => ⟨?_, ?_, ?_, ?_⟩, fun k => ?_⟩
  · have htok : isTokenName ("TOKEN_" ++ NAME) = true := by
      simp [isTokenName, hasPrefix_append, h1, h2]
    have hentry : (NAME, v) ∈ rt.rangeOrder (tokensOfEnviron rt.Environ) :=
      (hmem NAME v).2 ⟨_, hin, htok, (trimPrefix_append _ _).symm⟩
    unfold Config.loadTokenConfigs
    refine foldl_tokenConfigStep_unique rt _ c NAME v hentry (fun n1 hn1 => ?_)
    obtain ⟨name1, hm1, ht1, hn⟩ := (hmem n1 v).1 hn1
    rw [hn, huniq name1 hm1 ht1, trimPrefix_append]
  · intro h
    simp [getEnvAsInt, Runtime.Getenv, h]
  · intro h
    simp [getEnvAsInt, Runtime.Getenv, h]
  · intro s h hp
    simp only [getEnvAsInt, Runtime.Getenv, h, hp]
    split <;> rfl
  · intro s n h hs hp
    simp [getEnvAsInt, Runtime.Getenv, h, hs, hp]
  · unfold Config.loadTokenConfigs
    rw [foldl_tokenConfigStep_keys, hempty k]
    constructor
    · rintro (h | ⟨n, hn⟩)
      · simp at h
      · obtain ⟨name, h1, h2, _⟩ := (hmem n k).1 hn
        exact ⟨name, h1, h2⟩
    · rintro ⟨name, h1, h2⟩
      exact Or.inr ⟨_, (hmem _ k).2 ⟨name, h1, h2, rfl⟩⟩

/-- C23 on the environment of the test `TestLoadConfig_TokenConfigs`: the two
tokens get the limits and block times of their variables, and a string that no
token variable holds is no key. -/
theorem token_configs_loaded_witness :
    (LoadConfig tokenConfigsRuntime).1.TokenConfigs "premium-token-123" = some ⟨1000, 120⟩ ∧
    (LoadConfig tokenConfigsRuntime).1.TokenConfigs "basic-token-456" = some ⟨50, 600⟩ ∧
    (LoadConfig tokenConfigsRuntime).1.TokenConfigs "1000" = none := by
  have h := token_configs_loaded tokenConfigsRuntime (baseConfig tokenConfigsRuntime)
    (by decide) (by decide) (fun m => List.Perm.refl m) (fun _ => rfl)
  refine ⟨?_, ?_, by decide⟩
  · exact (h.1 "PREMIUM" "premium-token-123" (by decide) (by decide) (by decide)
      (by
        intro name1 hm _
        simp [tokenConfigsRuntime] at hm
        rw [hm]
        decide)).trans (by decide)
  · exact (h.1 "BASIC" "basic-token-456" (by decide) (by decide) (by decide)
      (by
        intro name1 hm _
        simp [tokenConfigsRuntime] at hm
        rw [hm]
        decide)).trans (by decide)

/-- C24. On the in-process store, for every limit `L`, in a run of any number
of `AllowRequest` calls on one key with that limit, from a state whose counter
entry for the key, if any, has a count that is not negative: the allowed calls
that incremented one and the same counter entry, told by its expiration, are
at most `max(L, 0)`; a window that `AllowRequest` opens after an entry has
expired gets a later expiration than that entry; and with `L ≤ 0` every call
of the run returns `(false, nil)`. -/
theorem per_window_admission_bound (w : MemWorld) (ctx : Context) (key : String) (L : Int)
    (d : Duration) (n : Nat) (E : Time)
    (h0 : ∀ e, w.store.counters key = some e → 0 ≤ e.count) :
    ((allowedWindows ctx key L d n w).count E : Int) ≤ max L 0 ∧
    (∀ (m : MemoryStorage) (t : Time) (e : counterEntry), m.counters key = some e →
      e.expiration < t →
      (m.Increment t ctx key (1 * Second)).2.counters key =
        some { count := 1, expiration := t + Second } ∧
      e.expiration < t + Second) ∧
    (L ≤ 0 → ∀ r ∈ (allowTimes memoryLimiter ctx key L d n w).1, r = (false, none)) := by
  refine ⟨?_, fun m t e he hlt => ?_, fun hL => allowTimes_nonpositive_limit ctx key L d hL n w h0⟩
  · have := windowInv_allowedWindows ctx key L d E n w 0
      ⟨le_rfl, le_max_right L 0, fun _ => rfl,
        fun e he => ⟨h0 e he, fun _ => rfl, fun _ => h0 e he⟩⟩
    linarith
  · rw [one_mul]
    exact ⟨(m.increment_reset t ctx key Second (Or.inr ⟨e, he, hlt⟩)).2,
      by linarith [second_pos]⟩

/-- C24 on a fresh store at instant 0: with limit 2, five requests give two
allowed calls, both in the window that expires at one second; with limit 0 the
two requests of a run are denied. -/
theorem per_window_admission_bound_witness :
    allowedWindows Background "k" 2 Second 5 (MemWorld.start fun _ => 0) = [Second, Second] ∧
    ((allowedWindows Background "k" 2 Second 5 (MemWorld.start fun _ => 0)).count Second : Int)
      ≤ max 2 0 ∧
    (allowTimes memoryLimiter Background "k" 0 Second 2 (MemWorld.start fun _ => 0)).1 =
      [(false, none), (false, none)] := by
  have h := per_window_admission_bound (MemWorld.start fun _ => 0) Background "k" 2 Second 5
    Second (fun e he => by simp [MemWorld.start, NewMemoryStorage] at he)
  exact ⟨by decide, h.1, by decide⟩

/-- C25. On the in-process store, for every state, key, limit and block
duration `d ≥ 0`: when `AllowRequest` returns `(false, nil)`, `IsBlocked(key)`
on the resulting tables is true at the instant of the last clock reading the
call made, at the instant of its first reading when the clock is
non-decreasing, and so at `t` when the call read `t` each time. -/
theorem denial_leaves_key_blocked (w : MemWorld) (ctx c1 : Context) (key : String)
    (limit : Int) (d : Duration) (hd : 0 ≤ d)
    (hden : (memoryLimiter.AllowRequest ctx key limit d w).1 = (false, none)) :
    ((memoryLimiter.AllowRequest ctx key limit d w).2.store.IsBlocked
      (w.clock ((memoryLimiter.AllowRequest ctx key limit d w).2.reads - 1)) c1 key).1 =
        (true, none) ∧
    (Monotone w.clock →
      ((memoryLimiter.AllowRequest ctx key limit d w).2.store.IsBlocked
        (w.clock w.reads) c1 key).1 = (true, none)) ∧
    (∀ t, w.clock w.reads = t → w.clock (w.reads + 2) = t →
      ((memoryLimiter.AllowRequest ctx key limit d w).2.store.IsBlocked t c1 key).1 =
        (true, none)) := by
  have hden1 : (memoryLimiter.AllowRequest ctx key limit d w).1.1 = false := by rw [hden]
  refine ⟨?_, fun hmono => ?_, fun t h0 h2 => ?_⟩
  · refine memoryLimiter_denied_blocked ctx c1 key limit d w hden1 _ (fun hb => ?_)
      (fun hb => ?_)
    · rw [memoryLimiter_blocked ctx key limit d w hb]
      exact le_rfl
    · have hc : limit < (w.store.Increment (w.clock (w.reads + 1)) ctx key Second).1.1 := by
        by_contra hc
        rw [memoryLimiter_allowed ctx key limit d w hb (not_lt.mp hc)] at hden1
        simp at hden1
      rw [memoryLimiter_denied ctx key limit d w hb hc]
      show w.clock (w.reads + 3 - 1) ≤ w.clock (w.reads + 2) + d
      rw [show w.reads + 3 - 1 = w.reads + 2 by omega]
      linarith
  · refine memoryLimiter_denied_blocked ctx c1 key limit d w hden1 _ (fun _ => le_rfl)
      (fun _ => ?_)
    have : w.clock w.reads ≤ w.clock (w.reads + 2) := hmono (by omega)
    linarith
  · refine memoryLimiter_denied_blocked ctx c1 key limit d w hden1 _ (fun _ => ?_) (fun _ => ?_)
    · rw [h0]
    · rw [h2]; linarith

/-- C25 at instant 0 on a fresh store with limit 0: the first request is
denied and the key is blocked at that instant. -/
theorem denial_leaves_key_blocked_witness :
    (memoryLimiter.AllowRequest Background "k" 0 Second (MemWorld.start fun _ => 0)).1 =
      (false, none) ∧
    ((memoryLimiter.AllowRequest Background "k" 0 Second
      (MemWorld.start fun _ => 0)).2.store.IsBlocked 0 Background "k").1 = (true, none) := by
  have hden : (memoryLimiter.AllowRequest Background "k" 0 Second
      (MemWorld.start fun _ => 0)).1 = (false, none) := by decide
  exact ⟨hden, (denial_leaves_key_blocked (MemWorld.start fun _ => 0) Background Background
    "k" 0 Second (by decide) hden).2.2 0 rfl rfl⟩

/-- C26. On the in-process store with a non-decreasing clock: when the block
deadline of the key has passed but its counter entry is still live with a
count of at least the limit, `AllowRequest(key, limit, d)` increments the
counter, returns `(false, nil)` and sets the block deadline to `d` after the
reading of its `SetBlock`; and in any run of further requests with the same
limit and duration, a request is allowed only when its first reading is after
that deadline and its increment after the expiration of that counter entry. -/
theorem expired_block_live_counter_denied (w : MemWorld) (ctx : Context) (key : String)
    (limit : Int) (d : Duration) (D : Time) (e : counterEntry)
    (hb : w.store.blocks key = some D) (hD : D < w.now)
    (hc : w.store.counters key = some e) (hlive : ¬ e.expiration < w.clock (w.reads + 1))
    (hcount : limit ≤ e.count) (hmono : Monotone w.clock) :
    (memoryLimiter.AllowRequest ctx key limit d w).1 = (false, none) ∧
    (memoryLimiter.AllowRequest ctx key limit d w).2.store.counters key =
      some { count := e.count + 1, expiration := e.expiration } ∧
    (memoryLimiter.AllowRequest ctx key limit d w).2.store.blocks key =
      some (w.clock (w.reads + 2) + d) ∧
    ∀ n i, (true, i) ∈ callLog ctx key limit d n (memoryLimiter.AllowRequest ctx key limit d w).2 →
      w.clock (w.reads + 2) + d < w.clock i ∧ e.expiration < w.clock (i + 1) := by
  obtain ⟨q1, q2⟩ := w.store.increment_live (w.clock (w.reads + 1)) ctx key Second e hc hlive
  have hnb := w.store.isBlocked_false_of_lt (w.clock w.reads) ctx key D hb hD
  have hover : limit < (w.store.Increment (w.clock (w.reads + 1)) ctx key Second).1.1 := by
    rw [q1]; linarith
  rw [memoryLimiter_denied ctx key limit d w hnb hover]
  have hblk : ((w.store.Increment (w.clock (w.reads + 1)) ctx key Second).2.SetBlock
      (w.clock (w.reads + 2)) ctx key d).2.blocks key = some (w.clock (w.reads + 2) + d) := by
    simp [MemoryStorage.SetBlock, Time.Add]
  refine ⟨rfl, q2, hblk, fun n i hi => ?_⟩
  refine overLimitInv_callLog ctx key limit (w.clock (w.reads + 2) + d) d e.expiration n
    ⟨_, w.clock, w.reads + 3⟩ hmono ⟨⟨_, hblk, le_rfl⟩, ?_, Or.inl ⟨_, q2, rfl, ?_⟩⟩ i hi
  · show w.clock (w.reads + 2) + d - d ≤ w.clock (w.reads + 3)
    have : w.clock (w.reads + 2) ≤ w.clock (w.reads + 3) := hmono (by omega)
    linarith
  · show limit < e.count + 1
    linarith

/-- C26 on the times of the test `TestRateLimiter_BlockDuration`: limit 5, a
count of 6 in the window that ends at one second, a block that ended at
100 ms.  A request at 500 ms is denied, counts 7 and blocks until 600 ms; the
next request, at 1200 ms, is allowed. -/
theorem expired_block_live_counter_denied_witness :
    (memoryLimiter.AllowRequest Background "test-key" 5 (100 * Millisecond)
      ⟨⟨Function.update (fun _ => none) "test-key" (some ⟨6, Second⟩),
        Function.update (fun _ => none) "test-key" (some (100 * Millisecond))⟩,
        relapseClock, 0⟩).1 = (false, none) ∧
    (memoryLimiter.AllowRequest Background "test-key" 5 (100 * Millisecond)
      ⟨⟨Function.update (fun _ => none) "test-key" (some ⟨6, Second⟩),
        Function.update (fun _ => none) "test-key" (some (100 * Millisecond))⟩,
        relapseClock, 0⟩).2.store.counters "test-key" = some ⟨7, Second⟩ ∧
    (memoryLimiter.AllowRequest Background "test-key" 5 (100 * Millisecond)
      ⟨⟨Function.update (fun _ => none) "test-key" (some ⟨6, Second⟩),
        Function.update (fun _ => none) "test-key" (some (100 * Millisecond))⟩,
        relapseClock, 0⟩).2.store.blocks "test-key" = some (600 * Millisecond) ∧
    callLog Background "test-key" 5 (100 * Millisecond) 1
      (memoryLimiter.AllowRequest Background "test-key" 5 (100 * Millisecond)
        ⟨⟨Function.update (fun _ => none) "test-key" (some ⟨6, Second⟩),
          Function.update (fun _ => none) "test-key" (some (100 * Millisecond))⟩,
          relapseClock, 0⟩).2 = [(true, 3)] := by
  have hmono : Monotone relapseClock := by
    intro i j hij
    unfold relapseClock Millisecond
    split_ifs <;> first | omega | decide
  have h := expired_block_live_counter_denied
    ⟨⟨Function.update (fun _ => none) "test-key" (some ⟨6, Second⟩),
      Function.update (fun _ => none) "test-key" (some (100 * Millisecond))⟩, relapseClock, 0⟩
    Background "test-key" 5 (100 * Millisecond) (100 * Millisecond) ⟨6, Second⟩
    (by simp) (by decide) (by simp) (by decide) (by decide) hmono
  refine ⟨h.1, h.2.1, ?_, by decide⟩
  rw [h.2.2.1]
  decide

end Limiter
